import Mathlib

/-!
Verification of the Roulette web-app generator (Python sources under src/api)
against its natural-language specification.

The Python modules are shallowly embedded:

* dictionaries become association lists that keep Python dict semantics
  (updating an existing key keeps its position, fresh keys are appended);
* `time.time()` timestamps become explicit `Int` arguments threaded through
  the functions that read the clock;
* fallible code returns `Option` or `Except`;
* module-level mutable state (the dedupe store, the rate-limit store, the
  category-rotation cursors, the prefetch queue) is passed and returned
  explicitly.

Environment-derived constants are fixed at their documented defaults
(`DEDUPE_ENABLED = true`, `DEDUPE_MAX = 200`, `RATE_WINDOW_SECONDS = 10800`,
`RATE_MAX_REQUESTS = 30`), with the Redis backends disabled and
`PYTEST_CURRENT_TEST` unset, which is the configuration the spec describes.
-/

/-! ### Python dict primitives

Association lists with Python dict update semantics. -/

/-- Python `d.get(k)`: first value bound to `k`. -/
def dictGet {α : Type} (d : List (String × α)) (k : String) : Option α :=
  (d.find? (fun kv => kv.1 = k)).map (·.2)

/-- Python `d[k] = v`: replace in place when the key exists, else append. -/
def dictSet {α : Type} (d : List (String × α)) (k : String) (v : α) :
    List (String × α) :=
  if (d.find? (fun kv => kv.1 = k)).isSome then
    d.map (fun kv => if kv.1 = k then (kv.1, v) else kv)
  else
    d ++ [(k, v)]

/-- Python `d.pop(k, None)`: drop every binding of `k` (unique in a real dict). -/
def dictPop {α : Type} (d : List (String × α)) (k : String) : List (String × α) :=
  d.filter (fun kv => ¬ kv.1 = k)

/-! ### Character-list string helpers

The Lean `String` library routines are iterator-based; the embedding uses
these char-list equivalents so that closed instances evaluate by `decide`.
-/

/-- Whitespace trim at both ends (Python `str.strip()`). -/
def trimChars (cs : List Char) : List Char :=
  ((cs.dropWhile Char.isWhitespace).reverse.dropWhile Char.isWhitespace).reverse

/-- Python `s.strip()`. -/
def pyTrimS (s : String) : String := String.mk (trimChars s.toList)

/-- Python `s.lower()` on the ASCII range the URL matchers need. -/
def lowerStr (s : String) : String := String.mk (s.toList.map Char.toLower)

/-- Python `s.startswith(pre)`. -/
def strHasPre (pre s : String) : Bool := pre.toList.isPrefixOf s.toList

/-- Python `s[n:]`. -/
def dropStr (s : String) (n : Nat) : String := String.mk (s.toList.drop n)

/-- Python `sep.join(parts)`. -/
def joinSep (sep : String) : List String → String
  | [] => ""
  | [x] => x
  | x :: y :: rest => x ++ sep ++ joinSep sep (y :: rest)

/-! ### api/dedupe.py — recently-seen signature store (claims C8, C3, C10, C2)

The store is the JSON object persisted in `cache/seen_pages.json`:
a mapping from signature to the `time.time()` value at which it was added.
-/

namespace Dedupe

/-- `DEDUPE_ENABLED` default: the `"1"` branch of the env lookup. -/
def DEDUPE_ENABLED : Bool := true

/-- `DEDUPE_MAX` default `200`. -/
def DEDUPE_MAX : Nat := 200

/-- The persisted store: signature names paired with their insertion time. -/
abbrev Store := List (String × Int)

/-- `has(sig)` from api/dedupe.py, with the loaded store explicit. -/
def has (sig : String) (data : Store) : Bool :=
  if ¬ DEDUPE_ENABLED ∨ sig = "" then false
  else (dictGet data sig).isSome

/-- Python `sorted(data.keys(), key=lambda k: data[k])`: a stable ascending
sort of the entries by timestamp (CPython sort is stable, and iterating the
keys follows dict insertion order). -/
def sortByTimestamp (data : Store) : Store :=
  List.insertionSort (fun a b : String × Int => a.2 ≤ b.2) data

/-- `add(sig)` from api/dedupe.py, with the loaded store and the current
`time.time()` explicit.  Writes `data[sig] = now`, then evicts the
`len(data) - DEDUPE_MAX` entries with the oldest timestamps whenever the
store exceeds `DEDUPE_MAX`, and saves. -/
def add (now : Int) (sig : String) (data : Store) : Store :=
  if ¬ DEDUPE_ENABLED ∨ sig = "" then data
  else
    let data1 : Store := dictSet data sig now
    if data1.length > DEDUPE_MAX then
      let victims := (sortByTimestamp data1).take (data1.length - DEDUPE_MAX)
      victims.foldl (fun acc kv => dictPop acc kv.1) data1
    else data1

end Dedupe

/-! ### api/ratelimit.py and the 429 envelope of api/main.py (claim C6) -/

namespace RateLimit

/-- `RATE_WINDOW_SECONDS` default `10800`. -/
def WINDOW_SECONDS : Int := 10800

/-- `RATE_MAX_REQUESTS` default `30`. -/
def MAX_REQUESTS : Nat := 30

/-- One fixed-window entry: `{"count": c, "reset_ts": r}`. -/
structure Entry where
  count : Nat
  reset_ts : Int
deriving DecidableEq, Repr

/-- The module-level `_store`, keyed by `(bucket, key)`. -/
abbrev Store := List ((String × String) × Entry)

/-- `_bk(bucket, key)`: empty components fall back to defaults. -/
def bk (bucket key : String) : String × String :=
  ((if bucket = "" then "default" else bucket),
   (if key = "" then "anon" else key))

/-- Store lookup for a bucket key (dict get on the tuple key). -/
def storeGet (st : Store) (k : String × String) : Option Entry :=
  (st.find? (fun kv => kv.1 = k)).map (·.2)

/-- Store update for a bucket key (dict set on the tuple key). -/
def storeSet (st : Store) (k : String × String) (v : Entry) : Store :=
  if (st.find? (fun kv => kv.1 = k)).isSome then
    st.map (fun kv => if kv.1 = k then (kv.1, v) else kv)
  else
    st ++ [(k, v)]

/-- `_ensure_entry(bucket, key)`: reset the window when absent or expired. -/
def ensureEntry (now : Int) (bucket key : String) (st : Store) : Entry × Store :=
  let k := bk bucket key
  match storeGet st k with
  | some e =>
      if now ≥ e.reset_ts then
        let fresh : Entry := ⟨0, now + WINDOW_SECONDS⟩
        (fresh, storeSet st k fresh)
      else (e, st)
  | none =>
      let fresh : Entry := ⟨0, now + WINDOW_SECONDS⟩
      (fresh, storeSet st k fresh)

/-- `allow_request(bucket, key)` from api/ratelimit.py: returns
`(allowed, remaining, reset_ts)` plus the updated store. -/
def allow_request (now : Int) (bucket key : String) (st : Store) :
    (Bool × Nat × Int) × Store :=
  let (entry, st1) := ensureEntry now bucket key st
  if entry.count < MAX_REQUESTS then
    let entry1 : Entry := ⟨entry.count + 1, entry.reset_ts⟩
    let remaining := MAX_REQUESTS - entry1.count
    ((true, remaining, entry1.reset_ts), storeSet st1 (bk bucket key) entry1)
  else
    ((false, 0, entry.reset_ts), st1)

/-- Body of an HTTP response as main.py builds it: JSON or plain text. -/
inductive Body where
  /-- `_rate_limit_payload(reset_ts)`: the JSON object with keys
  `error`, `reset`, `retry_after_seconds`, `message`. -/
  | rateLimitJson (error : String) (reset : Int) (retry_after_seconds : Int)
      (message : String)
  /-- A plain-text body (`PlainTextResponse`). -/
  | plainText (s : String)
deriving DecidableEq

/-- An HTTP response: status, headers, body. -/
structure Response where
  status : Nat
  headers : List (String × String)
  body : Body
deriving DecidableEq

/-- `_rate_limit_headers(remaining, reset_ts, limited=...)` from api/main.py. -/
def rateLimitHeaders (now : Int) (remaining : Nat) (reset_ts : Int)
    (limited : Bool) : List (String × String) :=
  let base := [("X-RateLimit-Remaining", toString remaining),
               ("X-RateLimit-Reset", toString reset_ts)]
  if limited then base ++ [("Retry-After", toString (max 0 (reset_ts - now)))]
  else base

/-- `_rate_limit_payload(reset_ts)` from api/main.py. -/
def rateLimitPayload (now : Int) (reset_ts : Int) : Body :=
  let wait := max 0 (reset_ts - now)
  .rateLimitJson "rate limit exceeded" reset_ts wait
    ("Rate limit exceeded. Try again in " ++ toString wait ++ " seconds.")

/-- The 429 `JSONResponse` built at every denial site of `/generate`,
`/generate/stream` and `/prefetch/fill` in api/main.py. -/
def deniedJsonResponse (now : Int) (remaining : Nat) (reset_ts : Int) :
    Response :=
  { status := 429
    headers := rateLimitHeaders now remaining reset_ts true
    body := rateLimitPayload now reset_ts }

/-- The 429 `PlainTextResponse` built at the `/preview` denial site in
api/main.py: the body is only the `message` field of the payload. -/
def previewDeniedResponse (now : Int) (remaining : Nat) (reset_ts : Int) :
    Response :=
  { status := 429
    headers := rateLimitHeaders now remaining reset_ts true
    body := .plainText
      ("Rate limit exceeded. Try again in " ++ toString (max 0 (reset_ts - now))
        ++ " seconds.") }

/-- Whether a body is a JSON object carrying `reset` and
`retry_after_seconds` (the integer fields of the 429 envelope). -/
def bodyHasResetFields (b : Body) : Bool :=
  match b with
  | .rateLimitJson _ _ _ _ => true
  | .plainText _ => false

end RateLimit

/-! ### Category rotation of api/llm_client.py (claim C4) -/

namespace LlmClient

/-- `_CATEGORY_ROTATION_NOTES`: five `(heading, note)` pairs.  The headings
are verbatim; each multi-line note body is represented by its first line,
which is all the rotation logic ever distinguishes. -/
def CATEGORY_ROTATION_NOTES : List (String × String) :=
  [("CATEGORY ASSIGNMENT (1/5): Interactive Entertainment / Web Toy",
    "CATEGORY ASSIGNMENT (1/5): You MUST build an Interactive Entertainment / Web Toy."),
   ("CATEGORY ASSIGNMENT (2/5): Utility Micro-Tool",
    "CATEGORY ASSIGNMENT (2/5): You MUST build a Utility Micro-Tool solving one focused task."),
   ("CATEGORY ASSIGNMENT (3/5): Playable Simple Game",
    "CATEGORY ASSIGNMENT (3/5): You MUST build a Playable Simple Game."),
   ("CATEGORY ASSIGNMENT (4/5): Interactive Art",
    "CATEGORY ASSIGNMENT (4/5): You MUST build Interactive Art with NDW.makeCanvas."),
   ("CATEGORY ASSIGNMENT (5/5): Quizzes / Learning Cards",
    "CATEGORY ASSIGNMENT (5/5): You MUST build Quizzes / Learning Cards.")]

/-- The `_category_indices` dict: per-key cursor positions. -/
abbrev Cursors := List (String × Nat)

/-- The canonical cursor key: `(user_key or "").strip() or "__global__"`. -/
def categoryKey (userKey : Option String) : String :=
  let k := pyTrimS (userKey.getD "")
  if k = "" then "__global__" else k

/-- The stale-key pruning of `_next_category_note`: when more than 4096
cursors exist, drop keys in iteration order (skipping the active key)
until at most 2048 remain. -/
def pruneCursors (active : String) (cur : Cursors) : Cursors :=
  if cur.length > 4096 then pruneLoop (cur.map Prod.fst) cur
  else cur
where
  /-- Walk the key list, popping stale keys while the dict is too large. -/
  pruneLoop : List String → Cursors → Cursors
  | [], acc => acc
  | k :: ks, acc =>
      if acc.length ≤ 2048 then acc
      else if k = active then pruneLoop ks acc
      else pruneLoop ks (dictPop acc k)

/-- `_next_category_note(user_key)` from api/llm_client.py: advance the
cursor for the key by one modulo the note count, store it, prune stale
keys, and return the note at the new index (with the index and updated
dict made explicit). -/
def nextCategoryNote (userKey : Option String) (cur : Cursors) :
    String × Nat × Cursors :=
  let key := categoryKey userKey
  let idx :=
    match dictGet cur key with
    | some i => (i + 1) % CATEGORY_ROTATION_NOTES.length
    | none => 0
  let cur1 := dictSet cur key idx
  let cur2 := pruneCursors key cur1
  (((CATEGORY_ROTATION_NOTES.get? idx).getD ("", "")).2, idx, cur2)

end LlmClient

/-! ### HTML and JSON value model (api/llm_parsing.py)

HTML strings are embedded as token lists: the regular expressions
`_SCRIPT_SRC_RE`, `_LINK_HREF_RE` and `_CSS_IMPORT_RE` of
api/llm_parsing.py operate on non-overlapping tag-shaped substrings, so a
document is a sequence of inert text runs and the three reference-carrying
constructs those expressions match.  Rendering a token list restores the
concrete string the Python code sees.
-/

/-- One HTML token. -/
inductive HTok where
  /-- Inert text and markup containing none of the three reference forms. -/
  | text (s : String)
  /-- `<script ... src="src" ...></script>` with `attrs` around the src. -/
  | scriptSrc (attrs : String) (src : String)
  /-- `<link ... href="href" ...>` with `attrs` around the href. -/
  | linkHref (attrs : String) (href : String)
  /-- `@import url(raw);` with `raw` the material between the parentheses. -/
  | cssImport (raw : String)
deriving DecidableEq, Repr

/-- The concrete text of a token. -/
def HTok.render : HTok → String
  | .text s => s
  | .scriptSrc a src => "<script " ++ a ++ " src=\"" ++ src ++ "\"></script>"
  | .linkHref a href => "<link " ++ a ++ " href=\"" ++ href ++ "\">"
  | .cssImport raw => "@import url(" ++ raw ++ ");"

/-- An HTML string as a token list. -/
abbrev Html := List HTok

/-- The concrete string a token list denotes. -/
def renderHtml (h : Html) : String := String.join (h.map HTok.render)

/-- JSON-like Python values.  Numbers are modelled as integers (no claim
depends on float arithmetic); strings carry the HTML token structure. -/
inductive JVal where
  | null
  | bool (b : Bool)
  | num (n : Int)
  | str (h : Html)
  | arr (xs : List JVal)
  | obj (kvs : List (String × JVal))
deriving Repr

mutual

/-- Structural decidable equality for `JVal`. -/
def decEqJVal : (a b : JVal) → Decidable (a = b)
  | .null, .null => isTrue rfl
  | .bool x, .bool y =>
      match decEq x y with
      | isTrue h => isTrue (by rw [h])
      | isFalse h => isFalse (fun hh => h (by injection hh))
  | .num x, .num y =>
      match decEq x y with
      | isTrue h => isTrue (by rw [h])
      | isFalse h => isFalse (fun hh => h (by injection hh))
  | .str x, .str y =>
      match decEq x y with
      | isTrue h => isTrue (by rw [h])
      | isFalse h => isFalse (fun hh => h (by injection hh))
  | .arr xs, .arr ys =>
      match decEqJValList xs ys with
      | isTrue h => isTrue (by rw [h])
      | isFalse h => isFalse (fun hh => h (by injection hh))
  | .obj xs, .obj ys =>
      match decEqJValKvs xs ys with
      | isTrue h => isTrue (by rw [h])
      | isFalse h => isFalse (fun hh => h (by injection hh))
  | .null, .bool _ => isFalse (fun h => JVal.noConfusion h)
  | .null, .num _ => isFalse (fun h => JVal.noConfusion h)
  | .null, .str _ => isFalse (fun h => JVal.noConfusion h)
  | .null, .arr _ => isFalse (fun h => JVal.noConfusion h)
  | .null, .obj _ => isFalse (fun h => JVal.noConfusion h)
  | .bool _, .null => isFalse (fun h => JVal.noConfusion h)
  | .bool _, .num _ => isFalse (fun h => JVal.noConfusion h)
  | .bool _, .str _ => isFalse (fun h => JVal.noConfusion h)
  | .bool _, .arr _ => isFalse (fun h => JVal.noConfusion h)
  | .bool _, .obj _ => isFalse (fun h => JVal.noConfusion h)
  | .num _, .null => isFalse (fun h => JVal.noConfusion h)
  | .num _, .bool _ => isFalse (fun h => JVal.noConfusion h)
  | .num _, .str _ => isFalse (fun h => JVal.noConfusion h)
  | .num _, .arr _ => isFalse (fun h => JVal.noConfusion h)
  | .num _, .obj _ => isFalse (fun h => JVal.noConfusion h)
  | .str _, .null => isFalse (fun h => JVal.noConfusion h)
  | .str _, .bool _ => isFalse (fun h => JVal.noConfusion h)
  | .str _, .num _ => isFalse (fun h => JVal.noConfusion h)
  | .str _, .arr _ => isFalse (fun h => JVal.noConfusion h)
  | .str _, .obj _ => isFalse (fun h => JVal.noConfusion h)
  | .arr _, .null => isFalse (fun h => JVal.noConfusion h)
  | .arr _, .bool _ => isFalse (fun h => JVal.noConfusion h)
  | .arr _, .num _ => isFalse (fun h => JVal.noConfusion h)
  | .arr _, .str _ => isFalse (fun h => JVal.noConfusion h)
  | .arr _, .obj _ => isFalse (fun h => JVal.noConfusion h)
  | .obj _, .null => isFalse (fun h => JVal.noConfusion h)
  | .obj _, .bool _ => isFalse (fun h => JVal.noConfusion h)
  | .obj _, .num _ => isFalse (fun h => JVal.noConfusion h)
  | .obj _, .str _ => isFalse (fun h => JVal.noConfusion h)
  | .obj _, .arr _ => isFalse (fun h => JVal.noConfusion h)

/-- Decidable equality for lists of values. -/
def decEqJValList : (a b : List JVal) → Decidable (a = b)
  | [], [] => isTrue rfl
  | [], _ :: _ => isFalse (fun h => List.noConfusion h)
  | _ :: _, [] => isFalse (fun h => List.noConfusion h)
  | x :: xs, y :: ys =>
      match decEqJVal x y with
      | isFalse h => isFalse (fun hh => h (by injection hh))
      | isTrue h1 =>
          match decEqJValList xs ys with
          | isTrue h2 => isTrue (by rw [h1, h2])
          | isFalse h => isFalse (fun hh => h (by injection hh))

/-- Decidable equality for key-value lists. -/
def decEqJValKvs : (a b : List (String × JVal)) → Decidable (a = b)
  | [], [] => isTrue rfl
  | [], _ :: _ => isFalse (fun h => List.noConfusion h)
  | _ :: _, [] => isFalse (fun h => List.noConfusion h)
  | (k1, v1) :: xs, (k2, v2) :: ys =>
      match decEq k1 k2 with
      | isFalse h =>
          isFalse (fun hh => h (by cases hh; rfl))
      | isTrue hk =>
          match decEqJVal v1 v2 with
          | isFalse h => isFalse (fun hh => h (by cases hh; rfl))
          | isTrue hv =>
              match decEqJValKvs xs ys with
              | isTrue ht => isTrue (by rw [hk, hv, ht])
              | isFalse h => isFalse (fun hh => h (by cases hh; rfl))

end

instance : DecidableEq JVal := decEqJVal

/-- A Python string value whose token list is a single inert text run; every
value produced by `json.loads` has this shape. -/
def jstr (s : String) : JVal := .str [.text s]

/-- Python truthiness. -/
def pyTruthy : JVal → Bool
  | .null => false
  | .bool b => b
  | .num n => n ≠ 0
  | .str h => renderHtml h ≠ ""
  | .arr xs => ¬ xs.isEmpty
  | .obj kvs => ¬ kvs.isEmpty

/-- `doc.get(k)` with Python `None` for a missing key. -/
def jget (kvs : List (String × JVal)) (k : String) : JVal :=
  (dictGet kvs k).getD .null

/-- Python `a or b`. -/
def jor (a b : JVal) : JVal := if pyTruthy a then a else b

/-- Python `str(v)` restricted to the scalar values the code feeds it; the
container placeholders only ever need to stay outside the keyword sets the
callers compare against. -/
def pyStrOf : JVal → String
  | .null => "None"
  | .bool true => "True"
  | .bool false => "False"
  | .num n => toString n
  | .str h => renderHtml h
  | .arr _ => "[container]"
  | .obj _ => "[container]"

/-- Python `s.strip()` truthiness for an HTML value. -/
def htmlStripTruthy (h : Html) : Bool := ¬ pyTrimS (renderHtml h) = ""

/-- Python `s.strip()` on a token list: whitespace is removed from the two
string ends, which can only consume leading and trailing text runs. -/
def htmlStrip (h : Html) : Html :=
  stripLeft (stripLeft h.reverse (fun s => rtrim (ltrim s))).reverse
    (fun s => ltrim s)
where
  /-- Drop whitespace from the front, token by token. -/
  stripLeft : Html → (String → String) → Html
  | [], _ => []
  | .text s :: rest, f =>
      let t := f s
      if t = "" then stripLeft rest f else .text t :: rest
  | tok :: rest, _ => tok :: rest
  /-- Python `lstrip`. -/
  ltrim (s : String) : String :=
    String.mk (s.toList.dropWhile Char.isWhitespace)
  /-- Python `rstrip`. -/
  rtrim (s : String) : String :=
    String.mk (s.toList.reverse.dropWhile Char.isWhitespace).reverse

/-- `"<" in v and ">" in v` on an HTML value. -/
def htmlHasAngles (h : Html) : Bool :=
  (renderHtml h).toList.contains '<' ∧ (renderHtml h).toList.contains '>'

/-- Python `s[:n]` on an HTML value: tokens cut by the character limit
degrade to text runs of their rendered prefix. -/
def htmlTruncate (n : Nat) (h : Html) : Html :=
  go n h
where
  go : Nat → Html → Html
  | _, [] => []
  | 0, _ => []
  | k, tok :: rest =>
      let r := tok.render
      if r.length ≤ k then tok :: go (k - r.length) rest
      else [.text (String.mk (r.toList.take k))]

namespace LlmParsing

/-- `_EXTERNAL_URL_RE`: `^(https?:)?//`, case-insensitive, after `strip()`. -/
def isExternalUrl (url : String) : Bool :=
  let u := lowerStr (pyTrimS url)
  strHasPre "//" u ∨ strHasPre "http://" u ∨ strHasPre "https://" u

/-- Consume the optional `https?:` scheme, then require `//`; input is
already lower-cased. -/
def dropScheme (l : String) : Option String :=
  let body :=
    if strHasPre "https:" l then dropStr l 6
    else if strHasPre "http:" l then dropStr l 5
    else l
  if strHasPre "//" body then some (dropStr body 2) else none

/-- `_TAILWIND_CDN_RE`: `^(?:https?:)?//cdn\.tailwindcss\.com(?:/|\?|$)`. -/
def isTailwindCdn (url : String) : Bool :=
  match dropScheme (lowerStr url) with
  | none => false
  | some rest =>
      strHasPre "cdn.tailwindcss.com" rest ∧
        (let r := dropStr rest 19
         r = "" ∨ strHasPre "/" r ∨ strHasPre "?" r)

/-- `_GSAP_CDN_RE`:
`^(?:https?:)?//cdnjs\.cloudflare\.com/ajax/libs/gsap/[^/]+/gsap(?:\.min)?\.js`
(an unanchored tail, so trailing characters are allowed). -/
def isGsapCdn (url : String) : Bool :=
  match dropScheme (lowerStr url) with
  | none => false
  | some rest =>
      let pre := "cdnjs.cloudflare.com/ajax/libs/gsap/"
      strHasPre pre rest ∧
        (let tail := (dropStr rest pre.length).toList
         let seg := tail.takeWhile (fun c => ¬ c = '/')
         let after := String.mk (tail.dropWhile (fun c => ¬ c = '/'))
         ¬ seg.isEmpty ∧
           (strHasPre "/gsap.min.js" after ∨ strHasPre "/gsap.js" after))

/-- `_LUCIDE_CDN_RE`: `^(?:https?:)?//unpkg\.com/lucide(?:@[^/]+)?(?:/.*)?$`
(anchored at both ends). -/
def isLucideCdn (url : String) : Bool :=
  match dropScheme (lowerStr url) with
  | none => false
  | some rest =>
      strHasPre "unpkg.com/lucide" rest ∧
        (let r := dropStr rest 16
         r = "" ∨ strHasPre "/" r ∨
           (strHasPre "@" r ∧
             ¬ ((dropStr r 1).toList.takeWhile (fun c => ¬ c = '/')).isEmpty))

/-- `rewrite_script_src` inside `_strip_external_assets`. -/
def rewriteScriptSrc (src : String) : Option String :=
  if isTailwindCdn src then some "/static/vendor/tailwind-play.js"
  else if isGsapCdn src then some "/static/vendor/gsap.min.js"
  else if isLucideCdn src then some "/static/vendor/lucide.min.js"
  else none

/-- One recorded removal or rewrite: `{"severity", "field", "message"}`. -/
structure Issue where
  severity : String
  field : String
  message : String
deriving DecidableEq, Repr

/-- The `_SCRIPT_SRC_RE.sub(strip_script, html)` pass. -/
def scriptPass : Html → Html × List Issue
  | [] => ([], [])
  | tok :: rest =>
      let (h, issues) := scriptPass rest
      match tok with
      | .scriptSrc attrs src =>
          if isExternalUrl src then
            match rewriteScriptSrc src with
            | some local_ =>
                (.scriptSrc attrs local_ :: h,
                  ⟨"info", "html", "Rewrote external script: " ++ src ++ " -> " ++ local_⟩ :: issues)
            | none =>
                (h, ⟨"warn", "html", "Removed external script: " ++ src⟩ :: issues)
          else (tok :: h, issues)
      | _ => (tok :: h, issues)

/-- The `_LINK_HREF_RE.sub(strip_link, html)` pass. -/
def linkPass : Html → Html × List Issue
  | [] => ([], [])
  | tok :: rest =>
      let (h, issues) := linkPass rest
      match tok with
      | .linkHref _ href =>
          if isExternalUrl href then
            (h, ⟨"warn", "html", "Removed external stylesheet: " ++ href⟩ :: issues)
          else (tok :: h, issues)
      | _ => (tok :: h, issues)

/-- Python `raw.strip().strip("\x22\x27 ")` for the `@import` argument. -/
def importUrlOf (raw : String) : String :=
  let dropQ := fun (cs : List Char) =>
    cs.dropWhile (fun c => c = '"' ∨ c = '\'' ∨ c = ' ')
  String.mk ((dropQ ((dropQ (trimChars raw.toList).reverse).reverse)))

/-- The `_CSS_IMPORT_RE.sub(strip_import, html)` pass. -/
def importPass : Html → Html × List Issue
  | [] => ([], [])
  | tok :: rest =>
      let (h, issues) := importPass rest
      match tok with
      | .cssImport raw =>
          let url := importUrlOf raw
          if isExternalUrl url then
            (h, ⟨"warn", "html", "Removed external @import: " ++ url⟩ :: issues)
          else (tok :: h, issues)
      | _ => (tok :: h, issues)

/-- `_strip_external_assets(html)` from api/llm_parsing.py: the three
substitution passes in source order, with their recorded issues. -/
def stripExternalAssets (h : Html) : Html × List Issue :=
  let (h1, i1) := scriptPass h
  let (h2, i2) := linkPass h1
  let (h3, i3) := importPass h2
  (h3, i1 ++ i2 ++ i3)

/-- An issue as the JSON dict stored under `ndw_debug`. -/
def issueToJVal (i : Issue) : JVal :=
  .obj [("severity", jstr i.severity), ("field", jstr i.field),
        ("message", jstr i.message)]

end LlmParsing

namespace LlmParsing

/-- `doc.get("kind") == s` for a string constant `s` (Python equality with a
string is only true for a string value). -/
def kindIs (kvs : List (String × JVal)) (s : String) : Bool :=
  match dictGet kvs "kind" with
  | some (.str h) => renderHtml h = s
  | _ => false

/-- The component loop of `_sanitize_doc_external_assets`: returns the new
component list, the recorded issues (with their `field` rewritten), and the
`changed` flag. -/
def componentPass : List JVal → List JVal × List Issue × Bool
  | [] => ([], [], false)
  | comp :: rest =>
      let (tail, tIssues, tChanged) := componentPass rest
      match comp with
      | .obj ckvs =>
          match dictGet ckvs "props" with
          | some (.obj pkvs) =>
              match dictGet pkvs "html" with
              | some (.str h) =>
                  let (h2, removed) := stripExternalAssets h
                  let changedHere : Bool := ¬ h2 = h
                  let ckvs2 :=
                    if changedHere then
                      dictSet ckvs "props" (.obj (dictSet pkvs "html" (.str h2)))
                    else ckvs
                  let idv := jget ckvs2 "id"
                  let idStr := if pyTruthy idv then pyStrOf idv else ""
                  let fieldStr := "components[" ++ idStr ++ "].html"
                  let tagged := removed.map
                    (fun i => Issue.mk i.severity fieldStr i.message)
                  (.obj ckvs2 :: tail, tagged ++ tIssues, changedHere ∨ tChanged)
              | _ => (comp :: tail, tIssues, tChanged)
          | _ => (comp :: tail, tIssues, tChanged)
      | _ => (comp :: tail, tIssues, tChanged)

/-- `_sanitize_doc_external_assets(doc)` from api/llm_parsing.py.  The one
error case is the `AttributeError` Python raises when an existing
`ndw_debug.external_assets_removed` value is not a list and `extend` is
called on it. -/
def sanitizeDoc : JVal → Except String JVal
  | .obj kvs => do
      let (kvs1, htmlIssues) :=
        if kindIs kvs "full_page_html" then
          match dictGet kvs "html" with
          | some (.str h) =>
              let (h2, removed) := stripExternalAssets h
              (if ¬ h2 = h then dictSet kvs "html" (.str h2) else kvs, removed)
          | _ => (kvs, ([] : List Issue))
        else (kvs, ([] : List Issue))
      let (kvs2, compIssues) :=
        match dictGet kvs1 "components" with
        | some (.arr comps) =>
            let (comps2, issues2, changed) := componentPass comps
            (if changed then dictSet kvs1 "components" (.arr comps2) else kvs1,
              issues2)
        | _ => (kvs1, ([] : List Issue))
      let issues := htmlIssues ++ compIssues
      if issues.isEmpty then pure (.obj kvs2)
      else
        let debug := match dictGet kvs2 "ndw_debug" with
          | some (.obj d) => d
          | _ => []
        let key := "external_assets_removed"
        let existing ← match dictGet debug key with
          | some (.arr xs) => pure xs
          | some _ => throw "ndw_debug.external_assets_removed is not a list"
          | none => pure ([] : List JVal)
        let debug2 := dictSet debug key (.arr (existing ++ issues.map issueToJVal))
        pure (.obj (dictSet kvs2 "ndw_debug" (.obj debug2)))
  | v => pure v

/-- Python `int(...)` on the values `_normalize_doc` feeds it. -/
def pyInt (v : JVal) : Option Int :=
  match v with
  | .num n => some n
  | .bool b => some (if b then 1 else 0)
  | .str h => parseDec (pyTrimS (renderHtml h))
  | _ => none
where
  /-- Decimal integer literal with optional sign. -/
  parseDec (s : String) : Option Int :=
    match s.toList with
    | '-' :: ds => (digitsVal ds).map (fun n => -(n : Int))
    | '+' :: ds => (digitsVal ds).map (fun n => (n : Int))
    | ds => (digitsVal ds).map (fun n => (n : Int))
  /-- All-digit value. -/
  digitsVal (ds : List Char) : Option Nat :=
    if ds.isEmpty ∨ ¬ ds.all Char.isDigit then none
    else some (ds.foldl (fun acc c => acc * 10 + (c.toNat - 48)) 0)

/-- `re.sub(r"^\s*background\s*:\s*", "", sty, flags=IGNORECASE)`. -/
def removeBackgroundPre (s : String) : String :=
  let cs := s.toList
  let cs1 := cs.dropWhile Char.isWhitespace
  if (cs1.take 10).map Char.toLower = "background".toList then
    let cs2 := (cs1.drop 10).dropWhile Char.isWhitespace
    match cs2 with
    | ':' :: cs3 => String.mk (cs3.dropWhile Char.isWhitespace)
    | _ => s
  else s

/-- The `background.style` value after the regex, kept token-preserving when
the regex does not match. -/
def styleStrip (h : Html) : Html :=
  let s := renderHtml h
  let t := removeBackgroundPre s
  if t = s then h else [.text t]

/-- The snippet branch of `_normalize_doc` (kind `ndw_snippet_v1`). -/
def normalizeSnippet (kvs : List (String × JVal)) : Except String JVal :=
  let out0 : List (String × JVal) := [("kind", jstr "ndw_snippet_v1")]
  let out1 := match dictGet kvs "title" with
    | some (.str h) => out0 ++ [("title", .str h)]
    | _ => out0
  let out2 := match jget kvs "background" with
    | .obj bkvs =>
        let sty0 := jget bkvs "style"
        let sty1 : JVal := match sty0 with
          | .arr xs => jstr (joinSep "; "
              (xs.filterMap (fun v => match v with
                | .str h => some (renderHtml h)
                | _ => none)))
          | v => v
        let outBg0 : List (String × JVal) := match sty1 with
          | .str h =>
              if pyTrimS (renderHtml h) = "" then []
              else [("style", .str (styleStrip h))]
          | _ => []
        let cls0 := jor (jget bkvs "class") (jor (jget bkvs "className") (jget bkvs "classes"))
        let cls1 : JVal := match cls0 with
          | .arr xs => jstr (joinSep " "
              (xs.filterMap (fun v => match v with
                | .str h => some (renderHtml h)
                | _ => none)))
          | v => v
        let outBg1 := outBg0 ++ (match cls1 with
          | .str h => if pyTrimS (renderHtml h) = "" then [] else [("class", .str h)]
          | _ => [])
        if outBg1.isEmpty then out1 else out1 ++ [("background", .obj outBg1)]
    | _ => out1
  let addKeyIf := fun (out : List (String × JVal)) (k : String) =>
    match dictGet kvs k with
    | some (.str h) => if htmlStripTruthy h then out ++ [(k, .str h)] else out
    | _ => out
  let out3 := addKeyIf (addKeyIf (addKeyIf out2 "css") "html") "js"
  let out4 :=
    if pyTruthy (jget out3 "html") then out3
    else match firstAngled ["content", "body", "markup"] with
      | some h => out3 ++ [("html", .str h)]
      | none => out3
  if ¬ pyTruthy (jget out4 "html") ∧ ¬ pyTruthy (jget out4 "css")
      ∧ ¬ pyTruthy (jget out4 "js") then
    throw "ndw_snippet_v1 missing content"
  else sanitizeDoc (.obj out4)
where
  /-- The nested-key fallback for a missing snippet `html`. -/
  firstAngled : List String → Option Html
  | [] => none
  | k :: ks =>
      match jget kvs k with
      | .str h => if htmlHasAngles h then some h else firstAngled ks
      | _ => firstAngled ks

/-- The `("kind", "type")` synonym loop for full-page HTML. -/
def fullPageSynonym (kvs : List (String × JVal)) : Option JVal :=
  match checkKey "kind" with
  | some v => some v
  | none => checkKey "type"
where
  /-- One loop iteration. -/
  checkKey (key : String) : Option JVal :=
    let k := lowerStr (pyStrOf (jor (jget kvs key) (jstr "")))
    if ["full_page_html", "page_html", "html_page", "full_html"].contains k then
      match jor (jget kvs "html") (jor (jget kvs "content") (jget kvs "body")) with
      | .str h => if htmlStripTruthy h then some (.str h) else none
      | _ => none
    else none

/-- `isinstance(doc.get("html"), str) and doc["html"].strip()`. -/
def directHtml (kvs : List (String × JVal)) : Option JVal :=
  match dictGet kvs "html" with
  | some (.str h) => if htmlStripTruthy h then some (.str h) else none
  | _ => none

/-- The `("content", "body", "page", "app", "markup")` loop. -/
def contentHtml (kvs : List (String × JVal)) : Option JVal :=
  go ["content", "body", "page", "app", "markup"]
where
  /-- One loop iteration per key. -/
  go : List String → Option JVal
  | [] => none
  | k :: ks =>
      match jget kvs k with
      | .str h => if htmlHasAngles h then some (.str h) else go ks
      | .obj vkvs =>
          match dictGet vkvs "html" with
          | some (.str h) => some (.str h)
          | _ => go ks
      | _ => go ks

/-- The component normalization loop of `_normalize_doc` (index included,
skipped entries still advance the index, as `enumerate` does). -/
def buildComponents (kvs : List (String × JVal)) : Nat → List JVal → List JVal
  | _, [] => []
  | idx, c :: rest =>
      match c with
      | .obj ckvs =>
          let pkvs : List (String × JVal) := match dictGet ckvs "props" with
            | some (.obj p) => p
            | _ => []
          let html0 : Option Html := match dictGet pkvs "html" with
            | some (.str h) => if htmlStripTruthy h then some h else none
            | _ => none
          let html1 : Option Html := match html0 with
            | some h => some h
            | none =>
                match dictGet ckvs "html" with
                | some (.str h) => some h
                | _ => none
          match html1 with
          | some h =>
              if htmlStripTruthy h then
                let hv := jget pkvs "height"
                let height : Int := match hv with
                  | .null => 360
                  | v => (pyInt v).getD 720
                let pkvs2 := dictSet (dictSet pkvs "html" (.str (htmlStrip h)))
                  "height" (.num height)
                let idv := jget ckvs "id"
                let idStr := if pyTruthy idv then pyStrOf idv
                  else "custom-" ++ toString (idx + 1)
                JVal.obj [("id", jstr idStr), ("type", jstr "custom"),
                    ("props", .obj pkvs2)]
                  :: buildComponents kvs (idx + 1) rest
              else buildComponents kvs (idx + 1) rest
          | none => buildComponents kvs (idx + 1) rest
      | _ => buildComponents kvs (idx + 1) rest

/-- The `components` branch: `Some` when a non-empty normalized list results. -/
def componentsResult (kvs : List (String × JVal)) : Option (List JVal) :=
  let comps : Option (List JVal) := match dictGet kvs "components" with
    | some (.obj o) => some [.obj o]
    | some (.arr xs) => some xs
    | _ => none
  match comps with
  | none => none
  | some xs =>
      let normalized := buildComponents kvs 0 xs
      if normalized.isEmpty then none else some normalized

/-- `_find_html(obj, depth)` with fuel `3 - depth`. -/
def findHtml : Nat → JVal → Option Html
  | 0, _ => none
  | _ + 1, .str h =>
      if htmlHasAngles h ∧ (renderHtml h).length > 20 then some h else none
  | fuel + 1, .obj kvs => kvs.findSome? (fun kv => findHtml fuel kv.2)
  | fuel + 1, .arr xs => xs.findSome? (fun v => findHtml fuel v)
  | _ + 1, _ => none

/-- The dict-shaped case of `_normalize_doc`. -/
def normalizeDocObj (kvs0 : List (String × JVal)) : Except String JVal :=
  match dictGet kvs0 "error" with
  | some (.str h) =>
      sanitizeDoc (.obj [("error", .str (htmlTruncate 500 h))])
  | _ =>
    let kvs :=
      if ((dictGet kvs0 "html").isSome ∨ (dictGet kvs0 "css").isSome
            ∨ (dictGet kvs0 "js").isSome)
          ∧ ¬ (pyTruthy (jget kvs0 "components") ∨ pyTruthy (jget kvs0 "kind")
            ∨ pyTruthy (jget kvs0 "type")) then
        ("kind", jstr "ndw_snippet_v1")
          :: kvs0.filter (fun kv =>
              ["title", "background", "css", "html", "js"].contains kv.1)
      else kvs0
    let kindRaw := lowerStr (pyStrOf (jor (jget kvs "kind") (jor (jget kvs "type") (jstr ""))))
    let kind := if ["ndw_snippet", "snippet_v1", "ndw-canvas-snippet",
        "canvas_snippet", "canvas-snippet"].contains kindRaw then
        "ndw_snippet_v1"
      else kindRaw
    if kind = "ndw_snippet_v1" then normalizeSnippet kvs
    else match fullPageSynonym kvs with
    | some hv => sanitizeDoc (.obj [("kind", jstr "full_page_html"), ("html", hv)])
    | none =>
    match directHtml kvs with
    | some hv => sanitizeDoc (.obj [("kind", jstr "full_page_html"), ("html", hv)])
    | none =>
    match contentHtml kvs with
    | some hv => sanitizeDoc (.obj [("kind", jstr "full_page_html"), ("html", hv)])
    | none =>
    match componentsResult kvs with
    | some comps => sanitizeDoc (.obj [("components", .arr comps)])
    | none =>
    match findHtml 3 (.obj kvs) with
    | some h => sanitizeDoc (.obj [("kind", jstr "full_page_html"), ("html", .str h)])
    | none => .error "No renderable HTML found"

/-- `_normalize_doc(doc)` from api/llm_parsing.py: `Except` carries the
`ValueError` messages. -/
def normalizeDoc : JVal → Except String JVal
  | .obj kvs => normalizeDocObj kvs
  | _ => .error "not a dict"

end LlmParsing

/-! ### JSON text (json.dumps / json.loads) for the streaming claims

Serialized JSON text is compact (no inter-token whitespace), matching the
stream format the claims describe.  Numbers are integers; fractional
literals are outside the model.
-/

/-- A hex digit character. -/
def hexDigitChar (n : Nat) : Char :=
  if n < 10 then Char.ofNat (48 + n) else Char.ofNat (87 + n)

/-- JSON string escaping for one character: quote, backslash, and control
characters; everything else passes through. -/
def escChar (c : Char) : List Char :=
  if c = '"' then ['\\', '"']
  else if c = '\\' then ['\\', '\\']
  else if c.toNat < 32 then
    ['\\', 'u', '0', '0', hexDigitChar (c.toNat / 16), hexDigitChar (c.toNat % 16)]
  else [c]

/-- Escape a character list. -/
def escapeChars (cs : List Char) : List Char := (cs.map escChar).flatten

/-- Decimal digits of a natural number, big-endian. -/
def natDigits (n : Nat) : List Char :=
  if h : n < 10 then [Char.ofNat (48 + n)]
  else natDigits (n / 10) ++ [Char.ofNat (48 + n % 10)]
decreasing_by exact Nat.div_lt_self (by omega) (by omega)

/-- An integer literal. -/
def intChars (n : Int) : List Char :=
  if n < 0 then '-' :: natDigits n.natAbs else natDigits n.toNat

mutual

/-- `json.dumps` with compact separators. -/
def dumpsVal : JVal → List Char
  | .null => "null".toList
  | .bool true => "true".toList
  | .bool false => "false".toList
  | .num n => intChars n
  | .str h => '"' :: (escapeChars (renderHtml h).toList ++ ['"'])
  | .arr xs => '[' :: (dumpsItems xs ++ [']'])
  | .obj kvs => '{' :: (dumpsKvs kvs ++ ['}'])

/-- Comma-joined array items. -/
def dumpsItems : List JVal → List Char
  | [] => []
  | [x] => dumpsVal x
  | x :: y :: rest => dumpsVal x ++ ',' :: dumpsItems (y :: rest)

/-- Comma-joined object members. -/
def dumpsKvs : List (String × JVal) → List Char
  | [] => []
  | [(k, v)] => '"' :: (escapeChars k.toList ++ '"' :: ':' :: dumpsVal v)
  | (k, v) :: m :: rest =>
      ('"' :: (escapeChars k.toList ++ '"' :: ':' :: dumpsVal v))
        ++ ',' :: dumpsKvs (m :: rest)

end

mutual

/-- Recursively order object keys, for `json.dumps(..., sort_keys=True)`. -/
def sortKeysDeep : JVal → JVal
  | .obj kvs => .obj (List.insertionSort (fun a b : String × JVal => a.1 ≤ b.1)
      (sortKeysKvs kvs))
  | .arr xs => .arr (sortKeysList xs)
  | v => v

/-- Key ordering inside an array. -/
def sortKeysList : List JVal → List JVal
  | [] => []
  | x :: xs => sortKeysDeep x :: sortKeysList xs

/-- Key ordering inside the members of an object. -/
def sortKeysKvs : List (String × JVal) → List (String × JVal)
  | [] => []
  | (k, v) :: rest => (k, sortKeysDeep v) :: sortKeysKvs rest

end

/-- JSON whitespace. -/
def isJsonWs (c : Char) : Bool := c = ' ' ∨ c = '\t' ∨ c = '\n' ∨ c = '\r'

/-- Skip JSON whitespace. -/
def skipWs (cs : List Char) : List Char := cs.dropWhile isJsonWs

/-- Hex digit value. -/
def hexVal (c : Char) : Option Nat :=
  if '0' ≤ c ∧ c ≤ '9' then some (c.toNat - 48)
  else if 'a' ≤ c ∧ c ≤ 'f' then some (c.toNat - 87)
  else if 'A' ≤ c ∧ c ≤ 'F' then some (c.toNat - 55)
  else none

/-- JSON string body after the opening quote: content and remainder. -/
def parseStringBody : List Char → Option (List Char × List Char)
  | [] => none
  | '"' :: rest => some ([], rest)
  | '\\' :: 'u' :: h1 :: h2 :: h3 :: h4 :: rest =>
      match hexVal h1, hexVal h2, hexVal h3, hexVal h4 with
      | some a, some b, some c, some d =>
          (parseStringBody rest).map (fun (s, r) =>
            (Char.ofNat (((a * 16 + b) * 16 + c) * 16 + d) :: s, r))
      | _, _, _, _ => none
  | '\\' :: e :: rest =>
      match unescape e with
      | some c => (parseStringBody rest).map (fun (s, r) => (c :: s, r))
      | none => none
  | c :: rest => (parseStringBody rest).map (fun (s, r) => (c :: s, r))
where
  /-- Single-character escapes. -/
  unescape : Char → Option Char
  | 'n' => some '\n'
  | 't' => some '\t'
  | 'r' => some '\r'
  | 'b' => some (Char.ofNat 8)
  | 'f' => some (Char.ofNat 12)
  | '"' => some '"'
  | '\\' => some '\\'
  | '/' => some '/'
  | _ => none

/-- Digit run value. -/
def digitsToNat (ds : List Char) : Nat :=
  ds.foldl (fun acc c => acc * 10 + (c.toNat - 48)) 0

/-- An unsigned integer literal: leading digits and remainder. -/
def parseNatLit (cs : List Char) : Option (Nat × List Char) :=
  let ds := cs.takeWhile Char.isDigit
  if ds.isEmpty then none
  else some (digitsToNat ds, cs.dropWhile Char.isDigit)

mutual

/-- A JSON value with explicit fuel (`json.loads` on the integer fragment
of JSON; every parsed string is a single inert text run). -/
def parseVal : Nat → List Char → Option (JVal × List Char)
  | 0, _ => none
  | fuel + 1, cs0 =>
      match skipWs cs0 with
      | 'n' :: 'u' :: 'l' :: 'l' :: rest => some (.null, rest)
      | 't' :: 'r' :: 'u' :: 'e' :: rest => some (.bool true, rest)
      | 'f' :: 'a' :: 'l' :: 's' :: 'e' :: rest => some (.bool false, rest)
      | '"' :: rest =>
          (parseStringBody rest).map (fun (s, r) => (jstr (String.mk s), r))
      | '[' :: rest =>
          (match skipWs rest with
           | ']' :: r => some (.arr [], r)
           | cs => (parseItems fuel cs).map (fun (xs, r) => (.arr xs, r)))
      | '{' :: rest =>
          (match skipWs rest with
           | '}' :: r => some (.obj [], r)
           | cs => (parseMembers fuel cs).map (fun (kvs, r) => (.obj kvs, r)))
      | '-' :: rest =>
          (parseNatLit rest).map (fun (n, r) => (.num (-(n : Int)), r))
      | c :: rest =>
          if c.isDigit then
            (parseNatLit (c :: rest)).map (fun (n, r) => (.num (n : Int), r))
          else none
      | [] => none

/-- Array items after the opening bracket (non-empty case). -/
def parseItems : Nat → List Char → Option (List JVal × List Char)
  | 0, _ => none
  | fuel + 1, cs =>
      match parseVal fuel cs with
      | none => none
      | some (v, r1) =>
          match skipWs r1 with
          | ',' :: r2 => (parseItems fuel r2).map (fun (xs, r) => (v :: xs, r))
          | ']' :: r2 => some ([v], r2)
          | _ => none

/-- Object members after the opening brace (non-empty case). -/
def parseMembers : Nat → List Char → Option (List (String × JVal) × List Char)
  | 0, _ => none
  | fuel + 1, cs =>
      match skipWs cs with
      | '"' :: rest =>
          match parseStringBody rest with
          | none => none
          | some (k, r1) =>
              match skipWs r1 with
              | ':' :: r2 =>
                  match parseVal fuel r2 with
                  | none => none
                  | some (v, r3) =>
                      match skipWs r3 with
                      | ',' :: r4 => (parseMembers fuel r4).map
                          (fun (kvs, r) => ((String.mk k, v) :: kvs, r))
                      | '}' :: r4 => some ([(String.mk k, v)], r4)
                      | _ => none
              | _ => none
      | _ => none

end

/-- `json.loads(text)`: the whole text must be one value plus whitespace. -/
def loads (cs : List Char) : Option JVal :=
  match parseVal (cs.length + 1) cs with
  | some (v, rest) => if (skipWs rest).isEmpty then some v else none
  | none => none

namespace LlmParsing

/-- The brace-and-quote scanner state of
`_extract_completed_objects_from_array`: `cur` plays the role of the
`start` index, holding the characters accumulated since the last
depth-zero `\x7b` (the Python code recovers the same characters with the
slice `s[start : i + 1]`). -/
structure ScanSt where
  inStr : Bool
  esc : Bool
  depth : Int
  cur : Option (List Char)
deriving Repr

/-- Accumulate a character when an object is open. -/
def pushCur (cur : Option (List Char)) (c : Char) : Option (List Char) :=
  cur.map (· ++ [c])

/-- One character of the scanner loop, returning the completed candidate
slice when a top-level object closes. -/
def scanStep (st : ScanSt) (c : Char) : ScanSt × Option (List Char) :=
  let inStr1 := if c = '"' ∧ ¬ st.esc then ¬ st.inStr else st.inStr
  if inStr1 then
    ({ inStr := inStr1, esc := (c = '\\') ∧ ¬ st.esc, depth := st.depth,
       cur := pushCur st.cur c }, none)
  else if c = '{' then
    let cur1 := if st.depth = 0 then some [c] else pushCur st.cur c
    ({ inStr := inStr1, esc := st.esc, depth := st.depth + 1, cur := cur1 }, none)
  else if c = '}' then
    let depth1 := st.depth - 1
    if depth1 = 0 ∧ st.cur.isSome then
      ({ inStr := inStr1, esc := st.esc, depth := depth1, cur := none },
        some (st.cur.getD [] ++ [c]))
    else
      ({ inStr := inStr1, esc := st.esc, depth := depth1,
         cur := pushCur st.cur c }, none)
  else
    ({ inStr := inStr1, esc := st.esc, depth := st.depth,
       cur := pushCur st.cur c }, none)

/-- Run the scanner over a character list, collecting candidate slices. -/
def runScan (st : ScanSt) : List Char → ScanSt × List (List Char)
  | [] => (st, [])
  | c :: cs =>
      let (st1, em) := scanStep st c
      let (st2, ems) := runScan st1 cs
      (st2, match em with | some e => e :: ems | none => ems)

/-- Python `str.strip()` on a character list. -/
def pyStripChars (cs : List Char) : List Char := trimChars cs

/-- The scanner start state. -/
def scanInit : ScanSt := ⟨false, false, 0, none⟩

/-- `_extract_completed_objects_from_array(text)` from api/llm_parsing.py:
strip, drop one leading bracket, scan for completed top-level objects, and
keep the candidates `json.loads` accepts. -/
def extractCompleted (text : List Char) : List JVal :=
  let s0 := pyStripChars text
  let s := match s0 with
    | '[' :: rest => pyStripChars rest
    | _ => s0
  ((runScan scanInit s).2).filterMap loads

/-- The per-chunk yield loop of `generate_page_burst`
(api/llm_client.py lines 737-753): normalize each newly completed object,
skipping failures, stopping at `target_docs`.  Returns the yielded docs,
the number of sites consumed, the updated yield count, and the stop flag. -/
def processNew (target : Nat) : List JVal → Nat → List JVal × Nat × Nat × Bool
  | [], y => ([], 0, y, false)
  | s :: rest, y =>
      match normalizeDoc s with
      | .error _ =>
          let (ds, p, y1, stop) := processNew target rest y
          (ds, p + 1, y1, stop)
      | .ok d =>
          let y1 := y + 1
          if y1 ≥ target then ([d], 1, y1, true)
          else
            let (ds, p, y2, stop) := processNew target rest y1
            (d :: ds, p + 1, y2, stop)

/-- The chunk loop of `generate_page_burst`: accumulate the running text,
extract completed objects, and yield the new ones after every chunk. -/
def burstSteps (target : Nat) :
    List (List Char) → List Char → Nat → Nat → List (List JVal)
  | [], _, _, _ => []
  | chunk :: rest, fullText, lastCount, yielded =>
      let fullText1 := fullText ++ chunk
      let sites := extractCompleted fullText1
      let (docs, processed, y1, stop) :=
        processNew target (sites.drop lastCount) yielded
      docs :: (if stop then []
        else burstSteps target rest fullText1 (lastCount + processed) y1)

/-- The docs `generate_page_burst` yields per chunk, from an empty buffer. -/
def burstYields (target : Nat) (chunks : List (List Char)) : List (List JVal) :=
  burstSteps target chunks [] 0 0

end LlmParsing

namespace Dedupe

/-- Strip text nodes from tag soup: keep only the characters that lie
inside tags (the combined effect of the `>[^<]+<`, `^[^<]+` and `[^>]+$`
substitutions of `_skeletonize`). -/
def stripTextNodes (s : String) : String :=
  String.mk (go false s.toList)
where
  /-- Scan with an inside-a-tag flag. -/
  go : Bool → List Char → List Char
  | _, [] => []
  | inTag, c :: cs =>
      if c = '<' then c :: go true cs
      else if c = '>' then c :: go false cs
      else if inTag then c :: go inTag cs
      else go inTag cs

/-- `_skeletonize(html)` from api/dedupe.py at token granularity: script
blocks and style-sheet imports disappear, tags survive with their text
nodes and whitespace removed. -/
def skeletonize (h : Html) : String :=
  String.mk ((String.join (h.map skel)).toList.filter (fun c => ¬ c.isWhitespace))
where
  /-- Per-token skeleton. -/
  skel : HTok → String
  | .text s => stripTextNodes s
  | .scriptSrc _ _ => ""
  | .linkHref a href => "<link " ++ a ++ " href=\"" ++ href ++ "\">"
  | .cssImport _ => ""

/-- `(doc.get(k) or "")` rendered as the string Python concatenates. -/
def strFieldOr (kvs : List (String × JVal)) (k : String) : String :=
  match jor (jget kvs k) (jstr "") with
  | .str h => renderHtml h
  | v => pyStrOf v

/-- The HTML value `_skeletonize` receives for a key (non-strings would
raise a `TypeError` in Python and cannot occur in normalized docs). -/
def htmlFieldOr (kvs : List (String × JVal)) (k : String) : Html :=
  match jor (jget kvs k) (jstr "") with
  | .str h => h
  | _ => []

/-- `signature_for_doc(doc)` from api/dedupe.py.  The SHA-256 hex digest is
external library code and enters the embedding as the `digest` parameter;
every theorem below depends only on it being a fixed function. -/
def signature_for_doc (digest : String → String) (doc : JVal) : String :=
  match doc with
  | .obj kvs =>
      let payload :=
        if LlmParsing.kindIs kvs "ndw_snippet_v1" then
          skeletonize (htmlFieldOr kvs "html")
            ++ strFieldOr kvs "css" ++ strFieldOr kvs "js"
        else if LlmParsing.kindIs kvs "full_page_html" then
          match dictGet kvs "html" with
          | some (.str h) => skeletonize h
          | _ => componentsPayload kvs
        else componentsPayload kvs
      let payload1 :=
        if payload = "" then String.mk (dumpsVal (sortKeysDeep (.obj kvs)))
        else payload
      digest payload1
  | _ => ""
where
  /-- The `components[0].props.html` fallback. -/
  componentsPayload (kvs : List (String × JVal)) : String :=
    match dictGet kvs "components" with
    | some (.arr (c0 :: _)) =>
        match c0 with
        | .obj c0kvs =>
            let props := jor (jget c0kvs "props") (.obj [])
            match props with
            | .obj pkvs =>
                match dictGet pkvs "html" with
                | some (.str h) => skeletonize h
                | _ => ""
            | _ => ""
        | _ => ""
    | _ => ""

end Dedupe

/-! ### api/prefetch.py enqueue (claims C3 and C10)

The file backend (the default without `REDIS_URL`): the queue is the list
of stored documents in file order, and persisting the record is the
fallible step (`tmp.write_text` / `tmp.replace`).
-/

namespace Prefetch

/-- The outcome of `enqueue`: either the Python return value together with
the final stores, or the state left behind when persistence raises. -/
inductive EnqueueResult where
  | done (id : Option String) (store : Dedupe.Store) (queue : List JVal)
  | persistFailed (store : Dedupe.Store) (queue : List JVal)
deriving Repr

/-- `created_at = float(doc.get("created_at") or time.time());
doc["created_at"] = created_at`. -/
def withCreatedAt (now : Int) (doc : JVal) : JVal :=
  match doc with
  | .obj kvs =>
      let createdAt : Int :=
        match LlmParsing.pyInt (jor (jget kvs "created_at") (.num now)) with
        | some n => n
        | none => now
      JVal.obj (dictSet kvs "created_at" (.num createdAt))
  | v => v

/-- `enqueue(doc)` from api/prefetch.py.  `persistOk` models whether the
file write succeeds; `now` is the wall clock; `digest` as in
`Dedupe.signature_for_doc`.  The stored file name is opaque
(`time.time_ns()` plus a uuid fragment); it is modelled from `now`. -/
def enqueue (digest : String → String) (persistOk : Bool) (now : Int)
    (doc : JVal) (store : Dedupe.Store) (queue : List JVal) : EnqueueResult :=
  let sig := Dedupe.signature_for_doc digest doc
  if sig = "" then .done none store queue
  else
    let currentSize := queue.length
    if Dedupe.has sig store ∧ currentSize > 0 then .done none store queue
    else
      let store1 := Dedupe.add now sig store
      let doc1 := withCreatedAt now doc
      if persistOk then
        .done (some (toString now ++ ".json")) store1 (queue ++ [doc1])
      else .persistFailed store1 queue

end Prefetch

/-! ### The attempt loop of generate_page (api/llm_client.py, claim C2) -/

namespace LlmClient

/-- The error document of `generate_page`. -/
def ERROR_DOC : JVal := .obj [("error", jstr "Model generation failed")]

/-- The compliance-review block of one attempt (lines 331-356): apply the
corrected doc through `_normalize_doc`, honour the reviewer verdict, and
attach the review payload; `none` means the attempt is retried. -/
def applyReview (runReview : Bool)
    (review : JVal → Option JVal × Option JVal × Bool) (doc0 : JVal) :
    Option JVal :=
  if runReview then
    let (reviewData, corrected, reviewOk) := review doc0
    let afterCorrection : Option JVal :=
      match corrected with
      | some c =>
          match LlmParsing.normalizeDoc c with
          | .ok d => some d
          | .error _ => none
      | none => some doc0
    match afterCorrection with
    | none => none
    | some doc1 =>
        if ¬ reviewOk then none
        else some (match reviewData with
          | some rd => match doc1 with
            | .obj kvs => .obj (dictSet kvs "review" rd)
            | v => v
          | none => doc1)
  else some doc0

/-- The attempt loop of `generate_page` (lines 276-369), for a run outside
pytest (`skip_dedupe` false).  `providers` is the provider cascade: the doc
obtained for a given seed, `none` when every provider fails.  `review` is
`_maybe_run_compliance_review`.  The loop counter is the remaining fuel
`max_attempts - attempts`; the result is the returned doc (or error doc)
plus the updated dedupe store. -/
def generatePageAttempts (digest : String → String)
    (providers : Int → Option JVal) (runReview : Bool)
    (review : JVal → Option JVal × Option JVal × Bool) (now : Int) :
    Nat → Int → Dedupe.Store → JVal × Dedupe.Store
  | 0, _, store => (ERROR_DOC, store)
  | fuel + 1, seed, store =>
      match providers seed with
      | none => (ERROR_DOC, store)
      | some doc0 =>
          let nextSeed := (seed + 7919) % 10000019
          let initialSig := Dedupe.signature_for_doc digest doc0
          if ¬ initialSig = "" ∧ Dedupe.has initialSig store then
            generatePageAttempts digest providers runReview review now
              fuel nextSeed store
          else
            match applyReview runReview review doc0 with
            | none =>
                generatePageAttempts digest providers runReview review now
                  fuel nextSeed store
            | some doc2 =>
                let finalSig := Dedupe.signature_for_doc digest doc2
                if ¬ finalSig = "" ∧ Dedupe.has finalSig store then
                  generatePageAttempts digest providers runReview review now
                    fuel nextSeed store
                else
                  let store1 :=
                    if ¬ finalSig = "" then Dedupe.add now finalSig store
                    else store
                  (doc2, store1)

/-- `generate_page` enters the loop with `max_attempts = 3`. -/
def MAX_ATTEMPTS : Nat := 3

end LlmClient

/-! ### Claim-level predicates -/

/-- A token that still carries an external (http, https or
protocol-relative) reference, in the sense of `_EXTERNAL_URL_RE`. -/
def HTok.isExternalRef : HTok → Bool
  | .scriptSrc _ src => LlmParsing.isExternalUrl src
  | .linkHref _ href => LlmParsing.isExternalUrl href
  | .cssImport raw => LlmParsing.isExternalUrl (LlmParsing.importUrlOf raw)
  | .text _ => false

/-- How many external references an HTML value carries. -/
def countExternalRefs (h : Html) : Nat :=
  (h.filter HTok.isExternalRef).length

/-- A normalized full-page document whose HTML is non-blank and already
free of external assets (stripping is the identity and records nothing). -/
def isCleanFullPage : JVal → Bool
  | .obj [("kind", k), ("html", .str h)] =>
      k = jstr "full_page_html" ∧ htmlStripTruthy h ∧
        LlmParsing.stripExternalAssets h = (h, [])
  | _ => false

mutual

/-- A value every string of which is a single inert text run — the shape
`json.loads` produces, hence the shape of arbitrary upstream JSON. -/
def isCanonical : JVal → Bool
  | .null => true
  | .bool _ => true
  | .num _ => true
  | .str h => match h with
    | [.text _] => true
    | _ => false
  | .arr xs => isCanonicalList xs
  | .obj kvs => isCanonicalKvs kvs

/-- Canonicity inside an array. -/
def isCanonicalList : List JVal → Bool
  | [] => true
  | x :: xs => isCanonical x ∧ isCanonicalList xs

/-- Canonicity inside an object. -/
def isCanonicalKvs : List (String × JVal) → Bool
  | [] => true
  | (_, v) :: rest => isCanonical v ∧ isCanonicalKvs rest

end

/-- The external-script discriminator. -/
def HTok.isExtScript : HTok → Bool
  | .scriptSrc _ src => LlmParsing.isExternalUrl src
  | _ => false

/-- The external-stylesheet discriminator. -/
def HTok.isExtLink : HTok → Bool
  | .linkHref _ href => LlmParsing.isExternalUrl href
  | _ => false

/-- The external-import discriminator. -/
def HTok.isExtImport : HTok → Bool
  | .cssImport raw => LlmParsing.isExternalUrl (LlmParsing.importUrlOf raw)
  | _ => false

namespace LlmParsing

/-- The per-token action of the script pass: the kept (possibly rewritten)
token and the recorded issues. -/
def scriptTok (t : HTok) : Option HTok × List Issue :=
  match t with
  | .scriptSrc attrs src =>
      if isExternalUrl src then
        match rewriteScriptSrc src with
        | some local_ =>
            (some (.scriptSrc attrs local_),
              [⟨"info", "html",
                "Rewrote external script: " ++ src ++ " -> " ++ local_⟩])
        | none =>
            (none, [⟨"warn", "html", "Removed external script: " ++ src⟩])
      else (some t, [])
  | t => (some t, [])

/-- The per-token action of the link pass. -/
def linkTok (t : HTok) : Option HTok × List Issue :=
  match t with
  | .linkHref _ href =>
      if isExternalUrl href then
        (none, [⟨"warn", "html", "Removed external stylesheet: " ++ href⟩])
      else (some t, [])
  | t => (some t, [])

/-- The per-token action of the import pass. -/
def importTok (t : HTok) : Option HTok × List Issue :=
  match t with
  | .cssImport raw =>
      let url := importUrlOf raw
      if isExternalUrl url then
        (none, [⟨"warn", "html", "Removed external @import: " ++ url⟩])
      else (some t, [])
  | t => (some t, [])

end LlmParsing

/-- How many leading array elements are fully serialized within the first
`m` characters of `json.dumps` of the array: each element costs one
preceding delimiter (`[` or `,`) plus its own serialization. -/
def completedCount : List JVal → Nat → Nat
  | [], _ => 0
  | o :: rest, m =>
      let need := 1 + (dumpsVal o).length
      if need ≤ m then 1 + completedCount rest (m - need) else 0

/-- A demo full-page document for exercising the sanitizer: one GSAP CDN
script (to be rewritten), one external stylesheet (to be removed) and an
inert text run. -/
def c1DemoHtml : Html :=
  [HTok.scriptSrc "defer"
     "https://cdnjs.cloudflare.com/ajax/libs/gsap/3.12.2/gsap.min.js",
   HTok.linkHref "rel=stylesheet" "https://evil.example/a.css",
   HTok.text "<main>ok</main>"]

/-- The demo document's key/value pairs. -/
def c1DemoKvs : List (String × JVal) :=
  [("kind", jstr "full_page_html"), ("html", JVal.str c1DemoHtml)]

/-- A raw full-page document carrying one external script. -/
def c9RawDoc : JVal :=
  .obj [("kind", jstr "full_page_html"),
        ("html", JVal.str [HTok.text "<div>hello</div>",
          HTok.scriptSrc "defer" "https://evil.example/a.js"])]

/-- Its first normalization: the script is stripped and recorded under
`ndw_debug.external_assets_removed`. -/
def c9Once : JVal :=
  .obj [("kind", jstr "full_page_html"),
        ("html", JVal.str [HTok.text "<div>hello</div>"]),
        ("ndw_debug", .obj [("external_assets_removed",
          .arr [.obj [("severity", jstr "warn"), ("field", jstr "html"),
            ("message",
              jstr "Removed external script: https://evil.example/a.js")]])])]

/-- Its second normalization: the `ndw_debug` record is gone. -/
def c9Twice : JVal :=
  .obj [("kind", jstr "full_page_html"),
        ("html", JVal.str [HTok.text "<div>hello</div>"])]

/-- Append characters to the open accumulator. -/
def pushAll (cur : Option (List Char)) (xs : List Char) : Option (List Char) :=
  cur.map (· ++ xs)

/-- Total length of the emitted candidate slices. -/
def emLen (l : List (List Char)) : Nat := (l.map List.length).sum

/-- The length of the open accumulator. -/
def curLen (st : LlmParsing.ScanSt) : Nat := (st.cur.getD []).length

/-- The spec-side burst yields: after each chunk, the group of array
elements whose serialization (delimiter included) completed within that
chunk, in array order. -/
def specBurstYields (objs : List JVal) :
    List Char → List (List Char) → List (List JVal)
  | _, [] => []
  | t, c :: rest =>
      ((objs.take (completedCount objs (t ++ c).length)).drop
          (completedCount objs t.length))
        :: specBurstYields objs (t ++ c) rest

/-- A minimal full-page doc with the given html text. -/
def c5Doc (v : String) : JVal :=
  .obj [("kind", jstr "full_page_html"), ("html", jstr v)]

/-- The three-object array of the burst example. -/
def c5Objs : List JVal := [c5Doc "v1", c5Doc "v2", c5Doc "v3"]

/-- The three chunks of the burst example. -/
def c5Chunks : List (List Char) :=
  ["[\x7b\"kind\":\"full_page_html\",\"html\":\"v1\"".toList,
   "\x7d,\x7b\"kind\":\"full_page_html\",\"html\":\"v2\"".toList,
   "\x7d,\x7b\"kind\":\"full_page_html\",\"html\":\"v3\"\x7d]".toList]

/-! ## Theorems -/

/-! ### Dict lemmas -/

theorem dictGet_cons {α : Type} (hd : String × α) (tl : List (String × α))
    (k : String) :
    dictGet (hd :: tl) k = if hd.1 = k then some hd.2 else dictGet tl k := by
  by_cases hk : hd.1 = k <;> simp [dictGet, List.find?_cons, hk]

theorem dictPop_cons {α : Type} (hd : String × α) (tl : List (String × α))
    (k' : String) :
    dictPop (hd :: tl) k'
      = if hd.1 = k' then dictPop tl k' else hd :: dictPop tl k' := by
  by_cases hk : hd.1 = k' <;> simp [dictPop, List.filter_cons, hk]

theorem dictGet_append_fresh {α : Type} (k : String) (v : α) :
    ∀ d : List (String × α), d.find? (fun kv => kv.1 = k) = none →
    dictGet (d ++ [(k, v)]) k = some v := by
  intro d
  induction d with
  | nil => intro _; simp [dictGet]
  | cons hd tl ih =>
      intro h
      by_cases hk : hd.1 = k
      · simp [List.find?_cons, hk] at h
      · simp only [List.find?_cons, hk] at h
        rw [List.cons_append, dictGet_cons, if_neg hk]
        exact ih (by simpa [hk] using h)

theorem dictGet_map_update {α : Type} (k : String) (v : α) :
    ∀ d : List (String × α), (d.find? (fun kv => kv.1 = k)).isSome →
    dictGet (d.map (fun kv => if kv.1 = k then (kv.1, v) else kv)) k = some v := by
  intro d
  induction d with
  | nil => simp [dictGet]
  | cons hd tl ih =>
      intro hs
      by_cases hk : hd.1 = k
      · simp [dictGet, List.find?_cons, hk]
      · rw [List.map_cons]
        rw [if_neg hk, dictGet_cons, if_neg hk]
        apply ih
        simpa [List.find?_cons, hk] using hs

theorem dictGet_dictSet_self {α : Type} (d : List (String × α)) (k : String)
    (v : α) : dictGet (dictSet d k v) k = some v := by
  unfold dictSet
  by_cases h : (d.find? (fun kv => kv.1 = k)).isSome
  · simpa [h] using dictGet_map_update k v d h
  · have hn : d.find? (fun kv => kv.1 = k) = none :=
      Option.not_isSome_iff_eq_none.mp h
    simpa [h] using dictGet_append_fresh k v d hn

theorem dictGet_dictPop_ne {α : Type} (k k' : String) (h : ¬ k = k') :
    ∀ d : List (String × α), dictGet (dictPop d k') k = dictGet d k := by
  intro d
  induction d with
  | nil => rfl
  | cons hd tl ih =>
      rw [dictPop_cons]
      by_cases hk' : hd.1 = k'
      · have hk : ¬ hd.1 = k := fun hh => h (hh ▸ hk')
        rw [if_pos hk', ih, dictGet_cons, if_neg hk]
      · rw [if_neg hk', dictGet_cons, dictGet_cons, ih]

/-! ### C4 — category rotation -/

theorem pruneLoop_active_get (active : String) :
    ∀ (ks : List String) (acc : LlmClient.Cursors),
    dictGet (LlmClient.pruneCursors.pruneLoop active ks acc) active
      = dictGet acc active := by
  intro ks
  induction ks with
  | nil => intro acc; rfl
  | cons k ks ih =>
      intro acc
      by_cases hsz : acc.length ≤ 2048
      · simp [LlmClient.pruneCursors.pruneLoop, hsz]
      · by_cases hk : k = active
        · simp [LlmClient.pruneCursors.pruneLoop, hsz, hk, ih]
        · have hne : ¬ active = k := fun hh => hk hh.symm
          simp only [LlmClient.pruneCursors.pruneLoop, hsz, if_neg hsz, hk,
            if_false]
          rw [ih, dictGet_dictPop_ne _ _ hne]

theorem pruneCursors_active_get (active : String) (cur : LlmClient.Cursors) :
    dictGet (LlmClient.pruneCursors active cur) active = dictGet cur active := by
  unfold LlmClient.pruneCursors
  by_cases h : cur.length > 4096
  · simp [h, pruneLoop_active_get]
  · simp [h]

theorem nextCategoryNote_stored (uk : Option String) (st : LlmClient.Cursors) :
    dictGet (LlmClient.nextCategoryNote uk st).2.2 (LlmClient.categoryKey uk)
      = some (LlmClient.nextCategoryNote uk st).2.1 := by
  unfold LlmClient.nextCategoryNote
  simp only []
  rw [pruneCursors_active_get, dictGet_dictSet_self]

theorem nextCategoryNote_of_get (uk : Option String) (st : LlmClient.Cursors)
    (i : Nat) (h : dictGet st (LlmClient.categoryKey uk) = some i) :
    (LlmClient.nextCategoryNote uk st).2.1 = (i + 1) % 5 := by
  unfold LlmClient.nextCategoryNote
  simp only [h]
  rfl

theorem nextCategoryNote_idx_lt (uk : Option String) (st : LlmClient.Cursors) :
    (LlmClient.nextCategoryNote uk st).2.1 < 5 := by
  unfold LlmClient.nextCategoryNote
  cases h : dictGet st (LlmClient.categoryKey uk) with
  | none => simp [h]
  | some i =>
      simp only [h]
      exact Nat.mod_lt _ (by decide)

theorem nextCategoryNote_step (uk : Option String) (st : LlmClient.Cursors) :
    (LlmClient.nextCategoryNote uk (LlmClient.nextCategoryNote uk st).2.2).2.1
      = ((LlmClient.nextCategoryNote uk st).2.1 + 1) % 5 :=
  nextCategoryNote_of_get uk _ _ (nextCategoryNote_stored uk st)

theorem nextCategoryNote_note_eq (uk : Option String) (st : LlmClient.Cursors) :
    (LlmClient.nextCategoryNote uk st).1
      = ((LlmClient.CATEGORY_ROTATION_NOTES.get?
          (LlmClient.nextCategoryNote uk st).2.1).getD ("", "")).2 := rfl

/-- C4: consecutive calls of the category rotator on the same user key
advance the directive index by exactly one modulo five (so the five
directives cycle with period five: five further calls return to the same
index), the returned note is the directive stored at the advanced index,
and a missing or blank key uses the shared global cursor. -/
theorem categoryRotation_c4 (uk : Option String) (st : LlmClient.Cursors) :
    (let r1 := LlmClient.nextCategoryNote uk st
     let r2 := LlmClient.nextCategoryNote uk r1.2.2
     let r3 := LlmClient.nextCategoryNote uk r2.2.2
     let r4 := LlmClient.nextCategoryNote uk r3.2.2
     let r5 := LlmClient.nextCategoryNote uk r4.2.2
     let r6 := LlmClient.nextCategoryNote uk r5.2.2
     r2.2.1 = (r1.2.1 + 1) % 5 ∧ r1.2.1 < 5 ∧
       (LlmClient.CATEGORY_ROTATION_NOTES.get? r2.2.1).map Prod.snd = some r2.1 ∧
       r6.2.1 = r1.2.1) ∧
    LlmClient.categoryKey none = "__global__" ∧
    LlmClient.categoryKey (some "") = "__global__" ∧
    LlmClient.categoryKey (some "  ") = "__global__" := by
  refine ⟨⟨nextCategoryNote_step uk st, nextCategoryNote_idx_lt uk st, ?_, ?_⟩,
    rfl, rfl, ?_⟩
  · have hlt := nextCategoryNote_idx_lt uk (LlmClient.nextCategoryNote uk st).2.2
    have hlen : LlmClient.CATEGORY_ROTATION_NOTES.length = 5 := rfl
    obtain ⟨p, hp⟩ : ∃ p, (LlmClient.CATEGORY_ROTATION_NOTES.get?
        (LlmClient.nextCategoryNote uk
          (LlmClient.nextCategoryNote uk st).2.2).2.1) = some p :=
      ⟨_, List.get?_eq_get (by omega)⟩
    rw [nextCategoryNote_note_eq uk (LlmClient.nextCategoryNote uk st).2.2, hp]
    rfl
  · have s1 := nextCategoryNote_step uk st
    have s2 := nextCategoryNote_step uk (LlmClient.nextCategoryNote uk st).2.2
    have s3 := nextCategoryNote_step uk
      (LlmClient.nextCategoryNote uk (LlmClient.nextCategoryNote uk st).2.2).2.2
    have s4 := nextCategoryNote_step uk
      (LlmClient.nextCategoryNote uk (LlmClient.nextCategoryNote uk
        (LlmClient.nextCategoryNote uk st).2.2).2.2).2.2
    have s5 := nextCategoryNote_step uk
      (LlmClient.nextCategoryNote uk (LlmClient.nextCategoryNote uk
        (LlmClient.nextCategoryNote uk (LlmClient.nextCategoryNote uk
          st).2.2).2.2).2.2).2.2
    have hlt := nextCategoryNote_idx_lt uk st
    simp only [s5, s4, s3, s2, s1]
    omega
  · decide

/-! ### C6 — 429 rate-limit responses -/

theorem allow_request_denied_shape (now : Int) (bucket key : String)
    (st : RateLimit.Store)
    (hd : (RateLimit.allow_request now bucket key st).1.1 = false) :
    (RateLimit.allow_request now bucket key st).1.2.1 = 0 ∧
      (RateLimit.allow_request now bucket key st).1.2.2
        = (RateLimit.ensureEntry now bucket key st).1.reset_ts := by
  unfold RateLimit.allow_request at *
  by_cases hc : (RateLimit.ensureEntry now bucket key st).1.count
      < RateLimit.MAX_REQUESTS
  · simp [hc] at hd
  · simp [hc]

/-- C6 (amended): every rate-limiter denial produces a 429 response whose
headers carry `Retry-After` (non-negative), `X-RateLimit-Remaining` equal
to `0` and `X-RateLimit-Reset`; the denial responses of `/generate`,
`/generate/stream` and `/prefetch/fill` additionally carry the JSON body
with `reset` (the epoch reset) and a non-negative integer
`retry_after_seconds`, while the `/preview` denial carries the same
headers over a plain-text body. -/
theorem rateLimit_c6_amended (now : Int) (bucket key : String)
    (st : RateLimit.Store)
    (hdenied : (RateLimit.allow_request now bucket key st).1.1 = false) :
    (let r := RateLimit.allow_request now bucket key st
     let remaining := r.1.2.1
     let reset := r.1.2.2
     let resp := RateLimit.deniedJsonResponse now remaining reset
     let presp := RateLimit.previewDeniedResponse now remaining reset
     resp.status = 429 ∧
       dictGet resp.headers "X-RateLimit-Remaining" = some "0" ∧
       dictGet resp.headers "X-RateLimit-Reset" = some (toString reset) ∧
       dictGet resp.headers "Retry-After"
         = some (toString (max 0 (reset - now))) ∧
       (0 : Int) ≤ max 0 (reset - now) ∧
       (match resp.body with
        | .rateLimitJson _ rst wait _ => rst = reset ∧ 0 ≤ wait
        | .plainText _ => False) ∧
       presp.status = 429 ∧ presp.headers = resp.headers) := by
  obtain ⟨hrem, -⟩ := allow_request_denied_shape now bucket key st hdenied
  simp only [hrem]
  refine ⟨rfl, ?_, ?_, ?_, le_max_left _ _, ⟨rfl, le_max_left _ _⟩, rfl, rfl⟩
  · rfl
  · simp [RateLimit.deniedJsonResponse, RateLimit.rateLimitHeaders, dictGet,
      List.find?_cons]
  · simp [RateLimit.deniedJsonResponse, RateLimit.rateLimitHeaders, dictGet,
      List.find?_cons]

/-- Witness for C6: a full window (30 requests used, reset ahead of the
clock) is denied, and the amended statement evaluates at it. -/
theorem rateLimit_c6_amended_witness :
    (RateLimit.allow_request 50 "gen" "k"
        [(("gen", "k"), RateLimit.Entry.mk 30 100)]).1.1 = false ∧
      (RateLimit.deniedJsonResponse 50
        (RateLimit.allow_request 50 "gen" "k"
          [(("gen", "k"), RateLimit.Entry.mk 30 100)]).1.2.1
        (RateLimit.allow_request 50 "gen" "k"
          [(("gen", "k"), RateLimit.Entry.mk 30 100)]).1.2.2).status = 429 := by
  constructor
  · decide
  · exact (rateLimit_c6_amended 50 "gen" "k"
      [(("gen", "k"), RateLimit.Entry.mk 30 100)] (by decide)).1

/-- C6 counterexample: the `/preview` endpoint denial is a 429 whose body
is the plain-text message, not the JSON envelope with `reset` and
`retry_after_seconds`, so the claim as stated fails for that denied
request. -/
theorem rateLimit_c6_counterexample :
    (RateLimit.allow_request 50 "gen" "k"
        [(("gen", "k"), RateLimit.Entry.mk 30 100)]).1.1 = false ∧
      RateLimit.bodyHasResetFields
        (RateLimit.previewDeniedResponse 50
          (RateLimit.allow_request 50 "gen" "k"
            [(("gen", "k"), RateLimit.Entry.mk 30 100)]).1.2.1
          (RateLimit.allow_request 50 "gen" "k"
            [(("gen", "k"), RateLimit.Entry.mk 30 100)]).1.2.2).body = false := by
  constructor
  · decide
  · rfl

/-! ### C8 — dedupe store eviction -/

theorem dictSet_fresh {α : Type} (d : List (String × α)) (k : String) (v : α)
    (h : d.find? (fun kv => kv.1 = k) = none) :
    dictSet d k v = d ++ [(k, v)] := by
  unfold dictSet
  simp [h]

theorem dictSet_update {α : Type} (d : List (String × α)) (k : String) (v : α)
    (h : (d.find? (fun kv => kv.1 = k)).isSome) :
    dictSet d k v = d.map (fun kv => if kv.1 = k then (kv.1, v) else kv) := by
  unfold dictSet
  simp [h]

theorem dictGet_eq_none_iff {α : Type} (d : List (String × α)) (k : String) :
    dictGet d k = none ↔ d.find? (fun kv => kv.1 = k) = none := by
  unfold dictGet
  cases d.find? (fun kv => kv.1 = k) <;> simp

theorem orderedInsert_append_last (x y : String × Int) (hxy : x.2 ≤ y.2) :
    ∀ m : List (String × Int),
    List.orderedInsert (fun a b : String × Int => a.2 ≤ b.2) x (m ++ [y])
      = List.orderedInsert (fun a b : String × Int => a.2 ≤ b.2) x m ++ [y] := by
  intro m
  induction m with
  | nil => simp [List.orderedInsert, hxy]
  | cons b m ih =>
      by_cases hb : x.2 ≤ b.2
      · simp [List.orderedInsert, hb]
      · simp [List.orderedInsert, hb, ih]

theorem insertionSort_append_last (y : String × Int) :
    ∀ l : List (String × Int), (∀ x ∈ l, x.2 ≤ y.2) →
    List.insertionSort (fun a b : String × Int => a.2 ≤ b.2) (l ++ [y])
      = List.insertionSort (fun a b : String × Int => a.2 ≤ b.2) l ++ [y] := by
  intro l
  induction l with
  | nil => intro _; simp [List.insertionSort, List.orderedInsert]
  | cons x l ih =>
      intro hall
      have hx : x.2 ≤ y.2 := hall x (by simp)
      have hl : ∀ z ∈ l, z.2 ≤ y.2 := fun z hz => hall z (by simp [hz])
      calc List.insertionSort _ ((x :: l) ++ [y])
          = List.orderedInsert _ x (List.insertionSort _ (l ++ [y])) := rfl
        _ = List.orderedInsert _ x (List.insertionSort _ l ++ [y]) := by
            rw [ih hl]
        _ = List.orderedInsert _ x (List.insertionSort _ l) ++ [y] :=
            orderedInsert_append_last x y hx _

theorem foldl_dictPop_filter :
    ∀ (vs : List (String × Int)) (acc : Dedupe.Store),
    vs.foldl (fun a kv => dictPop a kv.1) acc
      = acc.filter (fun kv => ¬ (vs.map Prod.fst).contains kv.1) := by
  intro vs
  induction vs with
  | nil =>
      intro acc
      simp [List.filter_eq_self]
  | cons v vs ih =>
      intro acc
      have hstep : List.foldl (fun a kv => dictPop a kv.1) acc (v :: vs)
          = List.foldl (fun a kv => dictPop a kv.1) (dictPop acc v.1) vs := rfl
      rw [hstep, ih, dictPop, List.filter_filter]
      apply List.filter_congr
      intro kv _
      by_cases h1 : kv.1 = v.1 <;> by_cases h2 : (vs.map Prod.fst).contains kv.1
        <;> simp [h1, h2]

theorem dictGet_isSome_of_mem {α : Type} (d : List (String × α)) (k : String)
    (v : α) (h : (k, v) ∈ d) : (dictGet d k).isSome := by
  have hf : (d.find? (fun kv => kv.1 = k)).isSome :=
    List.find?_isSome.mpr ⟨(k, v), h, by simp⟩
  unfold dictGet
  cases hc : d.find? (fun kv => kv.1 = k) with
  | none => rw [hc] at hf; simp at hf
  | some x => simp

theorem contains_eq_true_iff (l : List String) (a : String) :
    l.contains a = true ↔ a ∈ l := by
  simp [List.contains, List.elem_iff]

/-- C8 (amended): when the previous timestamps do not exceed the new one,
and the signature is either new to the store or the store is within its
cap, `add` leaves the signature visible to `has`; when the updated store
exceeds the cap of 200 the result keeps exactly 200 entries, namely a
permutation of the stable timestamp sort with its `size - cap` oldest
entries removed, each evicted entry no newer than each survivor; below the
cap nothing is evicted. -/
theorem filter_not_in_take (S : Dedupe.Store) (kk : Nat) (vict : Dedupe.Store)
    (hvict : vict = S.take kk) (hnd : (S.map Prod.fst).Nodup) :
    S.filter (fun kv => ¬ (vict.map Prod.fst).contains kv.1) = S.drop kk := by
  have hndsplit : ((S.take kk ++ S.drop kk).map Prod.fst).Nodup := by
    rw [List.take_append_drop]
    exact hnd
  rw [List.map_append, List.nodup_append] at hndsplit
  obtain ⟨-, -, hdisj⟩ := hndsplit
  conv_lhs => rw [← List.take_append_drop kk S]
  rw [List.filter_append]
  have h1 : (S.take kk).filter
      (fun kv => ¬ (vict.map Prod.fst).contains kv.1) = [] := by
    rw [List.filter_eq_nil_iff]
    intro kv hkv
    simp only [decide_eq_true_eq, not_not]
    exact (contains_eq_true_iff _ _).mpr
      (List.mem_map_of_mem Prod.fst (hvict ▸ hkv))
  have h2 : (S.drop kk).filter
      (fun kv => ¬ (vict.map Prod.fst).contains kv.1) = S.drop kk := by
    rw [List.filter_eq_self]
    intro kv hkv
    simp only [decide_eq_true_eq]
    rw [contains_eq_true_iff]
    intro hmem
    exact hdisj (hvict ▸ hmem) (List.mem_map_of_mem Prod.fst hkv)
  rw [h1, h2, List.nil_append]

theorem evict_fold_perm (S orig : Dedupe.Store) (kk : Nat)
    (hperm : S.Perm orig) (hnd : (S.map Prod.fst).Nodup) :
    ((S.take kk).foldl (fun acc kv => dictPop acc kv.1) orig).Perm
      (S.drop kk) := by
  rw [foldl_dictPop_filter]
  rw [← filter_not_in_take S kk (S.take kk) rfl hnd]
  exact List.Perm.filter _ hperm.symm

theorem sorted_take_le_drop (S : Dedupe.Store) (kk : Nat)
    (hsorted : List.Sorted (fun a b : String × Int => a.2 ≤ b.2) S) :
    ∀ v ∈ S.take kk, ∀ s ∈ S.drop kk, v.2 ≤ s.2 := by
  have hpw : List.Sorted (fun a b : String × Int => a.2 ≤ b.2)
      (S.take kk ++ S.drop kk) := by
    rw [List.take_append_drop]
    exact hsorted
  exact fun v hv s hs => (List.pairwise_append.mp hpw).2.2 v hv s hs

/-- Shared specification of `Dedupe.add`: visibility of the added
signature and the oldest-first shape of the eviction, under orderly
hypotheses (no future timestamps, dict-unique keys, and a signature either
fresh or within a store at or below its cap). -/
theorem dedupe_add_spec (now : Int) (sig : String) (data : Dedupe.Store)
    (hsig : ¬ sig = "")
    (hts : ∀ kv ∈ data, kv.2 ≤ now)
    (hnd : (data.map Prod.fst).Nodup)
    (hok : dictGet data sig = none ∨ data.length ≤ Dedupe.DEDUPE_MAX) :
    Dedupe.has sig (Dedupe.add now sig data) = true ∧
    (let data1 := dictSet data sig now
     if data1.length > Dedupe.DEDUPE_MAX then
       (Dedupe.add now sig data).length = Dedupe.DEDUPE_MAX ∧
       (Dedupe.add now sig data).Perm
         ((Dedupe.sortByTimestamp data1).drop
           (data1.length - Dedupe.DEDUPE_MAX)) ∧
       (∀ v ∈ (Dedupe.sortByTimestamp data1).take
           (data1.length - Dedupe.DEDUPE_MAX),
        ∀ s ∈ Dedupe.add now sig data, v.2 ≤ s.2)
     else Dedupe.add now sig data = data1) := by
  have hmax : (1 : Nat) ≤ Dedupe.DEDUPE_MAX := by decide
  by_cases hin : dictGet data sig = none
  · have hfind : data.find? (fun kv => kv.1 = sig) = none :=
      (dictGet_eq_none_iff data sig).mp hin
    have hset : dictSet data sig now = data ++ [(sig, now)] :=
      dictSet_fresh data sig now hfind
    rw [hset]
    have hsort : Dedupe.sortByTimestamp (data ++ [(sig, now)])
        = Dedupe.sortByTimestamp data ++ [(sig, now)] :=
      insertionSort_append_last (sig, now) data hts
    have hsortlen : (Dedupe.sortByTimestamp data).length = data.length :=
      (List.perm_insertionSort _ data).length_eq
    by_cases hlen2 : (data ++ [(sig, now)]).length > Dedupe.DEDUPE_MAX
    · have hk_le' : (data ++ [(sig, now)]).length - Dedupe.DEDUPE_MAX
          ≤ (Dedupe.sortByTimestamp data).length := by
        rw [hsortlen]
        simp only [List.length_append, List.length_cons, List.length_nil]
        omega
      have hadd : Dedupe.add now sig data
          = (((Dedupe.sortByTimestamp (data ++ [(sig, now)])).take
              ((data ++ [(sig, now)]).length - Dedupe.DEDUPE_MAX)).foldl
              (fun acc kv => dictPop acc kv.1) (data ++ [(sig, now)])) := by
        unfold Dedupe.add
        rw [if_neg (by simp [Dedupe.DEDUPE_ENABLED, hsig])]
        rw [hset]
        rw [if_pos hlen2]
      have hdrop : (Dedupe.sortByTimestamp (data ++ [(sig, now)])).drop
            ((data ++ [(sig, now)]).length - Dedupe.DEDUPE_MAX)
          = (Dedupe.sortByTimestamp data).drop
              ((data ++ [(sig, now)]).length - Dedupe.DEDUPE_MAX)
            ++ [(sig, now)] := by
        rw [hsort, List.drop_append_of_le_length hk_le']
      have hnd1 : ((data ++ [(sig, now)]).map Prod.fst).Nodup := by
        rw [List.map_append]
        refine List.Nodup.append hnd (by simp) ?_
        intro a ha hb
        simp only [List.map_cons, List.map_nil, List.mem_singleton] at hb
        rw [hb] at ha
        obtain ⟨kv, hkv, hfst⟩ := List.mem_map.mp ha
        have hmem : (sig, kv.2) ∈ data := by
          have hkveq : kv = (sig, kv.2) := by
            obtain ⟨k1, v1⟩ := kv
            simp only at hfst
            simp [hfst]
          rwa [hkveq] at hkv
        have hs := dictGet_isSome_of_mem data sig kv.2 hmem
        rw [hin] at hs
        simp at hs
      have hperm1 : (Dedupe.sortByTimestamp (data ++ [(sig, now)])).Perm
          (data ++ [(sig, now)]) := List.perm_insertionSort _ _
      have hndsort : ((Dedupe.sortByTimestamp (data ++ [(sig, now)])).map
          Prod.fst).Nodup :=
        (List.Perm.nodup_iff (List.Perm.map Prod.fst hperm1)).mpr hnd1
      have hres_perm : (Dedupe.add now sig data).Perm
          ((Dedupe.sortByTimestamp (data ++ [(sig, now)])).drop
            ((data ++ [(sig, now)]).length - Dedupe.DEDUPE_MAX)) := by
        rw [hadd]
        exact evict_fold_perm _ _ _ hperm1 hndsort
      have hmem_sig : (sig, now) ∈ Dedupe.add now sig data := by
        refine (List.Perm.mem_iff hres_perm).mpr ?_
        rw [hdrop]
        simp
      constructor
      · unfold Dedupe.has
        rw [if_neg (by simp [Dedupe.DEDUPE_ENABLED, hsig])]
        exact dictGet_isSome_of_mem _ sig now hmem_sig
      · rw [if_pos hlen2]
        refine ⟨?_, hres_perm, ?_⟩
        · have hleneq := hres_perm.length_eq
          rw [List.length_drop, hperm1.length_eq] at hleneq
          have hlen2c := hlen2
          simp only [List.length_append, List.length_cons, List.length_nil]
            at hleneq hlen2c
          rw [hleneq]
          omega
        · intro v hv s hs
          have hs' := (List.Perm.mem_iff hres_perm).mp hs
          have hsorted : List.Sorted (fun a b : String × Int => a.2 ≤ b.2)
              (Dedupe.sortByTimestamp (data ++ [(sig, now)])) := by
            haveI : IsTotal (String × Int) (fun a b => a.2 ≤ b.2) :=
              ⟨fun a b => le_total a.2 b.2⟩
            haveI : IsTrans (String × Int) (fun a b => a.2 ≤ b.2) :=
              ⟨fun _ _ _ => le_trans⟩
            exact List.sorted_insertionSort _ _
          exact sorted_take_le_drop _ _ hsorted v hv s hs'
    · have haddeq : Dedupe.add now sig data = data ++ [(sig, now)] := by
        unfold Dedupe.add
        rw [if_neg (by simp [Dedupe.DEDUPE_ENABLED, hsig])]
        rw [hset]
        rw [if_neg hlen2]
      constructor
      · unfold Dedupe.has
        rw [if_neg (by simp [Dedupe.DEDUPE_ENABLED, hsig])]
        rw [haddeq, ← hset, dictGet_dictSet_self]
        rfl
      · rw [if_neg hlen2]
        exact haddeq
  · have hsome : (data.find? (fun kv => kv.1 = sig)).isSome := by
      by_contra hns
      exact hin ((dictGet_eq_none_iff data sig).mpr
        (Option.not_isSome_iff_eq_none.mp hns))
    have hcap : data.length ≤ Dedupe.DEDUPE_MAX := by
      rcases hok with h | h
      · exact absurd h hin
      · exact h
    have hset := dictSet_update data sig now hsome
    have hlen : ¬ (dictSet data sig now).length > Dedupe.DEDUPE_MAX := by
      rw [hset, List.length_map]
      omega
    have haddeq : Dedupe.add now sig data = dictSet data sig now := by
      unfold Dedupe.add
      rw [if_neg (by simp [Dedupe.DEDUPE_ENABLED, hsig])]
      simp only [if_neg hlen]
    constructor
    · unfold Dedupe.has
      rw [if_neg (by simp [Dedupe.DEDUPE_ENABLED, hsig])]
      rw [haddeq, dictGet_dictSet_self]
      rfl
    · simp only [if_neg hlen]
      exact haddeq

/-- C8 (amended): when the previous timestamps do not exceed the new one,
and the signature is either new to the store or the store is within its
cap, `add` leaves the signature visible to `has`; when the updated store
exceeds the cap of 200 the result keeps exactly 200 entries, namely a
permutation of the stable timestamp sort with its `size - cap` oldest
entries removed, each evicted entry no newer than each survivor; below the
cap nothing is evicted. -/
theorem dedupe_add_c8_amended (now : Int) (sig : String) (data : Dedupe.Store)
    (hsig : ¬ sig = "")
    (hts : ∀ kv ∈ data, kv.2 ≤ now)
    (hnd : (data.map Prod.fst).Nodup)
    (hok : dictGet data sig = none ∨ data.length ≤ Dedupe.DEDUPE_MAX) :
    Dedupe.has sig (Dedupe.add now sig data) = true ∧
    (let data1 := dictSet data sig now
     if data1.length > Dedupe.DEDUPE_MAX then
       (Dedupe.add now sig data).length = Dedupe.DEDUPE_MAX ∧
       (Dedupe.add now sig data).Perm
         ((Dedupe.sortByTimestamp data1).drop
           (data1.length - Dedupe.DEDUPE_MAX)) ∧
       (∀ v ∈ (Dedupe.sortByTimestamp data1).take
           (data1.length - Dedupe.DEDUPE_MAX),
        ∀ s ∈ Dedupe.add now sig data, v.2 ≤ s.2)
     else Dedupe.add now sig data = data1) :=
  dedupe_add_spec now sig data hsig hts hnd hok

/-- Witness for C8: a concrete in-time store accepts the new signature. -/
theorem dedupe_add_c8_witness :
    Dedupe.has "s" (Dedupe.add 5 "s" [("a", 1)]) = true :=
  (dedupe_add_c8_amended 5 "s" [("a", 1)] (by decide) (by decide) (by decide)
    (Or.inl (by decide))).1

/-- C8 counterexample: with 200 previously stored signatures carrying a
later timestamp than the new entry (a store written under a clock ahead of
the current call), `add` evicts the very signature it just inserted, so
`has` does not observe it afterwards — the claim fails for this prior
store content. -/
theorem dedupe_add_c8_counterexample :
    Dedupe.has "s" (Dedupe.add 5 "s"
      ((List.range 200).map (fun i => (toString i, (6 : Int))))) = false := by
  set_option maxRecDepth 20000 in decide

/-! ### C7 — signature determinism and the empty-signature case -/

/-- C7: `signature_for_doc` is a pure function of the document (for any
fixed digest), it returns the empty string exactly on the values that
carry no extractable HTML and no serializable dict payload (the non-dict
documents), and callers treat the empty signature as not dedupable:
`has` never reports it and `add` ignores it. -/
theorem signature_c7 (digest : String → String) (now : Int)
    (data : Dedupe.Store) :
    (∀ d1 d2 : JVal, d1 = d2 →
      Dedupe.signature_for_doc digest d1 = Dedupe.signature_for_doc digest d2) ∧
    (∀ d : JVal, (∀ kvs, ¬ d = JVal.obj kvs) →
      Dedupe.signature_for_doc digest d = "") ∧
    Dedupe.has "" data = false ∧
    Dedupe.add now "" data = data := by
  refine ⟨fun d1 d2 h => by rw [h], ?_, ?_, ?_⟩
  · intro d hd
    cases d with
    | obj kvs => exact absurd rfl (hd kvs)
    | null => rfl
    | bool b => rfl
    | num n => rfl
    | str h => rfl
    | arr xs => rfl
  · unfold Dedupe.has
    rw [if_pos (by simp)]
  · unfold Dedupe.add
    rw [if_pos (by simp)]

/-- Witness for C7 at a concrete non-dict document. -/
theorem signature_c7_witness :
    Dedupe.signature_for_doc (fun s => s) JVal.null = "" :=
  (signature_c7 (fun s => s) 0 []).2.1 JVal.null
    (fun kvs h => JVal.noConfusion h)

/-! ### C3 — enqueue duplicate handling -/

/-- C3: for a document with a non-empty signature, `enqueue` refuses a
duplicate while the queue is non-empty (returning `None` and leaving both
stores untouched), forces the enqueue of a duplicate when the queue is
empty, and on every successful enqueue adds the signature to the dedupe
store and appends the record to the queue. -/
theorem prefetch_enqueue_c3 (digest : String → String) (now : Int)
    (doc : JVal) (store : Dedupe.Store) (queue : List JVal)
    (hsig : ¬ Dedupe.signature_for_doc digest doc = "") :
    (Dedupe.has (Dedupe.signature_for_doc digest doc) store = true →
      queue.length > 0 →
      Prefetch.enqueue digest true now doc store queue
        = .done none store queue) ∧
    (Dedupe.has (Dedupe.signature_for_doc digest doc) store = true →
      queue.length = 0 →
      Prefetch.enqueue digest true now doc store queue
        = .done (some (toString now ++ ".json"))
            (Dedupe.add now (Dedupe.signature_for_doc digest doc) store)
            (queue ++ [Prefetch.withCreatedAt now doc])) ∧
    (Dedupe.has (Dedupe.signature_for_doc digest doc) store = false →
      Prefetch.enqueue digest true now doc store queue
        = .done (some (toString now ++ ".json"))
            (Dedupe.add now (Dedupe.signature_for_doc digest doc) store)
            (queue ++ [Prefetch.withCreatedAt now doc])) := by
  refine ⟨?_, ?_, ?_⟩
  · intro hhas hq
    simp [Prefetch.enqueue, hsig, hhas, hq]
  · intro hhas hq
    simp [Prefetch.enqueue, hsig, hhas, hq]
  · intro hhas
    simp [Prefetch.enqueue, hsig, hhas]

/-- Witness for C3: a fresh full-page document enqueues into an empty
queue. -/
theorem prefetch_enqueue_c3_witness :
    Prefetch.enqueue (fun s => String.append "#" s) true 7
        (JVal.obj [("kind", jstr "full_page_html"),
          ("html", JVal.str [.text "<div>hi</div>"])]) [] []
      = .done (some (toString (7 : Int) ++ ".json"))
          (Dedupe.add 7
            (Dedupe.signature_for_doc (fun s => String.append "#" s)
              (JVal.obj [("kind", jstr "full_page_html"),
                ("html", JVal.str [.text "<div>hi</div>"])])) [])
          [Prefetch.withCreatedAt 7
            (JVal.obj [("kind", jstr "full_page_html"),
              ("html", JVal.str [.text "<div>hi</div>"])])] := by
  have h := (prefetch_enqueue_c3 (fun s => String.append "#" s) 7
    (JVal.obj [("kind", jstr "full_page_html"),
      ("html", JVal.str [.text "<div>hi</div>"])]) [] []
    (by decide)).2.2 (by decide)
  simpa using h

/-! ### C10 — enqueue is not atomic on persistence failure -/

/-- C10: a document with a non-empty signature that passes the duplicate
check has its signature added to the dedupe store before the queue record
is written, so when the persistence step raises, the store already carries
the signature (visible to `has` under the orderly-store hypotheses of the
dedupe module) while the queue is unchanged. -/
theorem prefetch_enqueue_c10 (digest : String → String) (now : Int)
    (doc : JVal) (store : Dedupe.Store) (queue : List JVal)
    (hsig : ¬ Dedupe.signature_for_doc digest doc = "")
    (hpass : ¬ (Dedupe.has (Dedupe.signature_for_doc digest doc) store
      ∧ queue.length > 0))
    (hts : ∀ kv ∈ store, kv.2 ≤ now)
    (hnd : (store.map Prod.fst).Nodup)
    (hok : dictGet store (Dedupe.signature_for_doc digest doc) = none
      ∨ store.length ≤ Dedupe.DEDUPE_MAX) :
    Prefetch.enqueue digest false now doc store queue
      = .persistFailed
          (Dedupe.add now (Dedupe.signature_for_doc digest doc) store) queue ∧
    Dedupe.has (Dedupe.signature_for_doc digest doc)
      (Dedupe.add now (Dedupe.signature_for_doc digest doc) store) = true := by
  constructor
  · simp only [Prefetch.enqueue]
    rw [if_neg hsig, if_neg hpass]
    simp
  · exact (dedupe_add_spec now (Dedupe.signature_for_doc digest doc) store
      hsig hts hnd hok).1

/-- Witness for C10: the failing persistence leaves the signature recorded
and the queue empty. -/
theorem prefetch_enqueue_c10_witness :
    Prefetch.enqueue (fun s => String.append "#" s) false 7
        (JVal.obj [("kind", jstr "full_page_html"),
          ("html", JVal.str [.text "<div>hi</div>"])]) [] []
      = .persistFailed
          (Dedupe.add 7
            (Dedupe.signature_for_doc (fun s => String.append "#" s)
              (JVal.obj [("kind", jstr "full_page_html"),
                ("html", JVal.str [.text "<div>hi</div>"])])) []) [] :=
  (prefetch_enqueue_c10 (fun s => String.append "#" s) 7
    (JVal.obj [("kind", jstr "full_page_html"),
      ("html", JVal.str [.text "<div>hi</div>"])]) [] []
    (by decide) (by decide) (by decide) (by decide) (Or.inl (by decide))).1

/-! ### C2 — dedupe retry loop of generate_page -/

theorem genAttempts_all_dup (digest : String → String)
    (providers : Int → Option JVal) (runReview : Bool)
    (review : JVal → Option JVal × Option JVal × Bool) (now : Int)
    (store : Dedupe.Store)
    (hall : ∀ s d, providers s = some d →
      ¬ Dedupe.signature_for_doc digest d = "" ∧
        Dedupe.has (Dedupe.signature_for_doc digest d) store = true) :
    ∀ (fuel : Nat) (seed : Int),
    LlmClient.generatePageAttempts digest providers runReview review now
      fuel seed store = (LlmClient.ERROR_DOC, store) := by
  intro fuel
  induction fuel with
  | zero => intro seed; rfl
  | succ fuel ih =>
      intro seed
      cases hp : providers seed with
      | none => simp [LlmClient.generatePageAttempts, hp]
      | some d =>
          obtain ⟨hds, hdh⟩ := hall seed d hp
          simp only [LlmClient.generatePageAttempts, hp]
          rw [if_pos ⟨hds, hdh⟩]
          exact ih _

theorem genAttempts_no_dup (digest : String → String)
    (providers : Int → Option JVal) (runReview : Bool)
    (review : JVal → Option JVal × Option JVal × Bool) (now : Int) :
    ∀ (fuel : Nat) (seed : Int) (store : Dedupe.Store),
    ¬ (LlmClient.generatePageAttempts digest providers runReview review now
        fuel seed store).1 = LlmClient.ERROR_DOC →
    Dedupe.signature_for_doc digest
        (LlmClient.generatePageAttempts digest providers runReview review now
          fuel seed store).1 = "" ∨
      Dedupe.has (Dedupe.signature_for_doc digest
        (LlmClient.generatePageAttempts digest providers runReview review now
          fuel seed store).1) store = false := by
  intro fuel
  induction fuel with
  | zero =>
      intro seed store h
      exact absurd rfl h
  | succ fuel ih =>
      intro seed store h
      cases hp : providers seed with
      | none =>
          rw [show LlmClient.generatePageAttempts digest providers runReview
              review now (fuel + 1) seed store = (LlmClient.ERROR_DOC, store) by
            simp [LlmClient.generatePageAttempts, hp]] at h
          exact absurd rfl h
      | some doc0 =>
          by_cases hdup : ¬ Dedupe.signature_for_doc digest doc0 = "" ∧
              Dedupe.has (Dedupe.signature_for_doc digest doc0) store
          · have hrw : LlmClient.generatePageAttempts digest providers
                runReview review now (fuel + 1) seed store
                = LlmClient.generatePageAttempts digest providers runReview
                    review now fuel ((seed + 7919) % 10000019) store := by
              simp only [LlmClient.generatePageAttempts, hp]
              rw [if_pos hdup]
            rw [hrw] at h ⊢
            exact ih _ _ h
          · cases hr : LlmClient.applyReview runReview review doc0 with
            | none =>
                have hrw : LlmClient.generatePageAttempts digest providers
                    runReview review now (fuel + 1) seed store
                    = LlmClient.generatePageAttempts digest providers runReview
                        review now fuel ((seed + 7919) % 10000019) store := by
                  simp only [LlmClient.generatePageAttempts, hp, hr]
                  rw [if_neg hdup]
                rw [hrw] at h ⊢
                exact ih _ _ h
            | some doc2 =>
                by_cases hfin : ¬ Dedupe.signature_for_doc digest doc2 = "" ∧
                    Dedupe.has (Dedupe.signature_for_doc digest doc2) store
                · have hrw : LlmClient.generatePageAttempts digest providers
                      runReview review now (fuel + 1) seed store
                      = LlmClient.generatePageAttempts digest providers
                          runReview review now fuel
                          ((seed + 7919) % 10000019) store := by
                    simp only [LlmClient.generatePageAttempts, hp, hr]
                    rw [if_neg hdup, if_pos hfin]
                  rw [hrw] at h ⊢
                  exact ih _ _ h
                · have hrw : LlmClient.generatePageAttempts digest providers
                      runReview review now (fuel + 1) seed store
                      = (doc2,
                        if ¬ Dedupe.signature_for_doc digest doc2 = "" then
                          Dedupe.add now
                            (Dedupe.signature_for_doc digest doc2) store
                        else store) := by
                    simp only [LlmClient.generatePageAttempts, hp, hr]
                    rw [if_neg hdup, if_neg hfin]
                  rw [hrw]
                  rcases not_and_or.mp hfin with hc | hc
                  · left
                    exact Decidable.not_not.mp hc
                  · right
                    cases hb : Dedupe.has
                        (Dedupe.signature_for_doc digest doc2) store
                    · rfl
                    · exact absurd hb hc

/-- C2: when the generated document's signature is already in the dedupe
store, the attempt loop perturbs the seed by 7919 modulo 10000019 and
retries; a run whose three attempts all produce duplicates returns the
`Model generation failed` error doc with the store unchanged; and a
returned non-error document is never a duplicate of the store the run
started from (its signature is either empty or unseen). -/
theorem generate_page_c2 (digest : String → String)
    (providers : Int → Option JVal) (runReview : Bool)
    (review : JVal → Option JVal × Option JVal × Bool) (now : Int) :
    (∀ (fuel : Nat) (seed : Int) (store : Dedupe.Store) (doc : JVal),
      providers seed = some doc →
      ¬ Dedupe.signature_for_doc digest doc = "" →
      Dedupe.has (Dedupe.signature_for_doc digest doc) store = true →
      LlmClient.generatePageAttempts digest providers runReview review now
          (fuel + 1) seed store
        = LlmClient.generatePageAttempts digest providers runReview review now
            fuel ((seed + 7919) % 10000019) store) ∧
    (∀ (seed : Int) (store : Dedupe.Store),
      (∀ s d, providers s = some d →
        ¬ Dedupe.signature_for_doc digest d = "" ∧
          Dedupe.has (Dedupe.signature_for_doc digest d) store = true) →
      LlmClient.generatePageAttempts digest providers runReview review now
        LlmClient.MAX_ATTEMPTS seed store = (LlmClient.ERROR_DOC, store)) ∧
    (∀ (fuel : Nat) (seed : Int) (store : Dedupe.Store),
      ¬ (LlmClient.generatePageAttempts digest providers runReview review now
          fuel seed store).1 = LlmClient.ERROR_DOC →
      Dedupe.signature_for_doc digest
          (LlmClient.generatePageAttempts digest providers runReview review now
            fuel seed store).1 = "" ∨
        Dedupe.has (Dedupe.signature_for_doc digest
          (LlmClient.generatePageAttempts digest providers runReview review now
            fuel seed store).1) store = false) := by
  refine ⟨?_, ?_, genAttempts_no_dup digest providers runReview review now⟩
  · intro fuel seed store doc hp hs hh
    simp only [LlmClient.generatePageAttempts, hp]
    rw [if_pos ⟨hs, hh⟩]
  · intro seed store hall
    exact genAttempts_all_dup digest providers runReview review now store hall
      LlmClient.MAX_ATTEMPTS seed

/-- Witness for C2: a provider that always returns the same already-seen
document exhausts all three attempts and yields the error doc, with the
store unchanged. -/
theorem generate_page_c2_witness :
    LlmClient.generatePageAttempts (fun s => String.append "#" s)
        (fun _ => some (JVal.obj [("kind", jstr "full_page_html"),
          ("html", JVal.str [.text "<div>hi</div>"])])) false
        (fun _ => (none, none, true)) 0 LlmClient.MAX_ATTEMPTS 1
        [(Dedupe.signature_for_doc (fun s => String.append "#" s)
            (JVal.obj [("kind", jstr "full_page_html"),
              ("html", JVal.str [.text "<div>hi</div>"])]), 0)]
      = (LlmClient.ERROR_DOC,
        [(Dedupe.signature_for_doc (fun s => String.append "#" s)
            (JVal.obj [("kind", jstr "full_page_html"),
              ("html", JVal.str [.text "<div>hi</div>"])]), 0)]) :=
  (generate_page_c2 (fun s => String.append "#" s)
      (fun _ => some (JVal.obj [("kind", jstr "full_page_html"),
        ("html", JVal.str [.text "<div>hi</div>"])])) false
      (fun _ => (none, none, true)) 0).2.1 1
    [(Dedupe.signature_for_doc (fun s => String.append "#" s)
        (JVal.obj [("kind", jstr "full_page_html"),
          ("html", JVal.str [.text "<div>hi</div>"])]), 0)]
    (fun s d h => by
      cases h
      exact ⟨by decide, by decide⟩)

/-! ### C1 — external asset stripping -/

theorem scriptPass_eq : ∀ h : Html, LlmParsing.scriptPass h
    = (h.filterMap (fun t => (LlmParsing.scriptTok t).1),
       (h.map (fun t => (LlmParsing.scriptTok t).2)).flatten) := by
  intro h
  induction h with
  | nil => rfl
  | cons tok rest ih =>
      rcases hsp : LlmParsing.scriptPass rest with ⟨hr, ir⟩
      rw [hsp] at ih
      injection ih with ih1 ih2
      cases tok with
      | scriptSrc a src =>
          by_cases he : LlmParsing.isExternalUrl src
          · cases hrw : LlmParsing.rewriteScriptSrc src with
            | some l =>
                simp [LlmParsing.scriptPass, hsp, LlmParsing.scriptTok, he, hrw,
                  ih1, ih2]
            | none =>
                simp [LlmParsing.scriptPass, hsp, LlmParsing.scriptTok, he, hrw,
                  ih1, ih2]
          · simp [LlmParsing.scriptPass, hsp, LlmParsing.scriptTok, he,
              ih1, ih2]
      | text s => simp [LlmParsing.scriptPass, hsp, LlmParsing.scriptTok, ih1, ih2]
      | linkHref a href =>
          simp [LlmParsing.scriptPass, hsp, LlmParsing.scriptTok, ih1, ih2]
      | cssImport raw =>
          simp [LlmParsing.scriptPass, hsp, LlmParsing.scriptTok, ih1, ih2]

theorem linkPass_eq : ∀ h : Html, LlmParsing.linkPass h
    = (h.filterMap (fun t => (LlmParsing.linkTok t).1),
       (h.map (fun t => (LlmParsing.linkTok t).2)).flatten) := by
  intro h
  induction h with
  | nil => rfl
  | cons tok rest ih =>
      rcases hsp : LlmParsing.linkPass rest with ⟨hr, ir⟩
      rw [hsp] at ih
      injection ih with ih1 ih2
      cases tok with
      | linkHref a href =>
          by_cases he : LlmParsing.isExternalUrl href
          · simp [LlmParsing.linkPass, hsp, LlmParsing.linkTok, he, ih1, ih2]
          · simp [LlmParsing.linkPass, hsp, LlmParsing.linkTok, he, ih1, ih2]
      | text s => simp [LlmParsing.linkPass, hsp, LlmParsing.linkTok, ih1, ih2]
      | scriptSrc a src =>
          simp [LlmParsing.linkPass, hsp, LlmParsing.linkTok, ih1, ih2]
      | cssImport raw =>
          simp [LlmParsing.linkPass, hsp, LlmParsing.linkTok, ih1, ih2]

theorem importPass_eq : ∀ h : Html, LlmParsing.importPass h
    = (h.filterMap (fun t => (LlmParsing.importTok t).1),
       (h.map (fun t => (LlmParsing.importTok t).2)).flatten) := by
  intro h
  induction h with
  | nil => rfl
  | cons tok rest ih =>
      rcases hsp : LlmParsing.importPass rest with ⟨hr, ir⟩
      rw [hsp] at ih
      injection ih with ih1 ih2
      cases tok with
      | cssImport raw =>
          by_cases he : LlmParsing.isExternalUrl (LlmParsing.importUrlOf raw)
          · simp [LlmParsing.importPass, hsp, LlmParsing.importTok, he, ih1, ih2]
          · simp [LlmParsing.importPass, hsp, LlmParsing.importTok, he, ih1, ih2]
      | text s => simp [LlmParsing.importPass, hsp, LlmParsing.importTok, ih1, ih2]
      | scriptSrc a src =>
          simp [LlmParsing.importPass, hsp, LlmParsing.importTok, ih1, ih2]
      | linkHref a href =>
          simp [LlmParsing.importPass, hsp, LlmParsing.importTok, ih1, ih2]

theorem dictGet_map_update_ne {α : Type} (k k' : String) (v : α)
    (hne : ¬ k' = k) :
    ∀ d : List (String × α),
    dictGet (d.map (fun kv => if kv.1 = k then (kv.1, v) else kv)) k'
      = dictGet d k' := by
  intro d
  induction d with
  | nil => rfl
  | cons hd tl ih =>
      by_cases hk : hd.1 = k
      · have h1 : ¬ hd.1 = k' := by
          intro hh
          exact hne (by rw [← hh, hk])
        simp only [List.map_cons, if_pos hk]
        rw [dictGet_cons, dictGet_cons, if_neg h1, if_neg h1, ih]
      · simp only [List.map_cons, if_neg hk]
        rw [dictGet_cons, dictGet_cons]
        by_cases hk' : hd.1 = k' <;> simp [hk', ih]

theorem dictGet_append_ne {α : Type} (k k' : String) (v : α)
    (hne : ¬ k' = k) :
    ∀ d : List (String × α), dictGet (d ++ [(k, v)]) k' = dictGet d k' := by
  intro d
  induction d with
  | nil =>
      have : ¬ k = k' := fun hh => hne hh.symm
      simp [dictGet, List.find?_cons, this]
  | cons hd tl ih =>
      rw [List.cons_append, dictGet_cons, dictGet_cons]
      by_cases hk' : hd.1 = k' <;> simp [hk', ih]

theorem dictGet_dictSet_ne {α : Type} (d : List (String × α)) (k k' : String)
    (v : α) (hne : ¬ k' = k) : dictGet (dictSet d k v) k' = dictGet d k' := by
  unfold dictSet
  by_cases hf : (d.find? (fun kv => kv.1 = k)).isSome
  · rw [if_pos hf]
    exact dictGet_map_update_ne k k' v hne d
  · rw [if_neg hf]
    exact dictGet_append_ne k k' v hne d

theorem rewriteScriptSrc_not_external (src l : String)
    (h : LlmParsing.rewriteScriptSrc src = some l) :
    LlmParsing.isExternalUrl l = false := by
  unfold LlmParsing.rewriteScriptSrc at h
  split_ifs at h <;> injection h with h <;> rw [← h] <;> decide

theorem flatten_len_by_filter {α : Type} (f : HTok → List α) (p : HTok → Bool)
    (hf : ∀ t, (f t).length = if p t then 1 else 0) :
    ∀ h : Html, ((h.map f).flatten).length = (h.filter p).length := by
  intro h
  induction h with
  | nil => rfl
  | cons t rest ih =>
      simp only [List.map_cons, List.flatten_cons, List.length_append, ih,
        List.filter_cons]
      by_cases hp : p t
      · simp [hf t, hp]
        omega
      · simp [hf t, hp]

theorem filterMap_filter_comm (f : HTok → Option HTok) (p : HTok → Bool)
    (h1 : ∀ t, p t = true → f t = some t)
    (h2 : ∀ t t', f t = some t' → p t' = true → p t = true ∧ t' = t) :
    ∀ h : Html, (h.filterMap f).filter p = h.filter p := by
  intro h
  induction h with
  | nil => rfl
  | cons t rest ih =>
      cases hft : f t with
      | none =>
          have hpt : p t = false := by
            cases hpt : p t
            · rfl
            · rw [h1 t hpt] at hft; exact Option.noConfusion hft
          simp [List.filterMap_cons, hft, List.filter_cons, hpt, ih]
      | some t' =>
          by_cases hpt' : p t' = true
          · obtain ⟨hpt, hte⟩ := h2 t t' hft hpt'
            subst hte
            simp [List.filterMap_cons, hft, List.filter_cons, hpt, hpt', ih]
          · have hptf : p t' = false := by
              cases hx : p t'
              · rfl
              · exact absurd hx hpt'
            have hpt : p t = false := by
              cases hx : p t
              · rfl
              · exfalso
                have h3 := h1 t hx
                rw [h3] at hft
                injection hft with h4
                rw [← h4] at hptf
                rw [hx] at hptf
                exact Bool.noConfusion hptf
            simp [List.filterMap_cons, hft, List.filter_cons, hpt, hptf, ih]

theorem countExternalRefs_split (h : Html) :
    countExternalRefs h
      = (h.filter HTok.isExtScript).length + (h.filter HTok.isExtLink).length
        + (h.filter HTok.isExtImport).length := by
  induction h with
  | nil => rfl
  | cons t rest ih =>
      cases t with
      | text s =>
          simpa [countExternalRefs, List.filter_cons, HTok.isExternalRef,
            HTok.isExtScript, HTok.isExtLink, HTok.isExtImport]
            using ih
      | scriptSrc a src =>
          by_cases he : LlmParsing.isExternalUrl src <;>
            · simp only [countExternalRefs, List.filter_cons,
                HTok.isExternalRef, HTok.isExtScript, HTok.isExtLink,
                HTok.isExtImport, he] at ih ⊢
              simp [he, ih] <;> omega
      | linkHref a href =>
          by_cases he : LlmParsing.isExternalUrl href <;>
            · simp only [countExternalRefs, List.filter_cons,
                HTok.isExternalRef, HTok.isExtScript, HTok.isExtLink,
                HTok.isExtImport, he] at ih ⊢
              simp [he, ih] <;> omega
      | cssImport raw =>
          by_cases he : LlmParsing.isExternalUrl (LlmParsing.importUrlOf raw) <;>
            · simp only [countExternalRefs, List.filter_cons,
                HTok.isExternalRef, HTok.isExtScript, HTok.isExtLink,
                HTok.isExtImport, he] at ih ⊢
              simp [he, ih] <;> omega

theorem stripExternalAssets_eq (h : Html) :
    LlmParsing.stripExternalAssets h
      = ((LlmParsing.importPass (LlmParsing.linkPass
            (LlmParsing.scriptPass h).1).1).1,
         (LlmParsing.scriptPass h).2
           ++ (LlmParsing.linkPass (LlmParsing.scriptPass h).1).2
           ++ (LlmParsing.importPass (LlmParsing.linkPass
              (LlmParsing.scriptPass h).1).1).2) := by
  unfold LlmParsing.stripExternalAssets
  rcases hs : LlmParsing.scriptPass h with ⟨h1, i1⟩
  rcases hl : LlmParsing.linkPass h1 with ⟨h2, i2⟩
  rcases hi : LlmParsing.importPass h2 with ⟨h3, i3⟩
  simp [hs, hl, hi]

theorem tok_ext_decomp (t : HTok) :
    t.isExternalRef = (t.isExtScript || t.isExtLink || t.isExtImport) := by
  cases t <;> simp [HTok.isExternalRef, HTok.isExtScript, HTok.isExtLink,
    HTok.isExtImport]

theorem script_out_not_ext (h : Html) (t : HTok)
    (ht : t ∈ (LlmParsing.scriptPass h).1) : t.isExtScript = false := by
  rw [scriptPass_eq] at ht
  obtain ⟨u, hu, hfu⟩ := List.mem_filterMap.mp ht
  cases u with
  | text s => simp [LlmParsing.scriptTok] at hfu; subst hfu; rfl
  | linkHref a href => simp [LlmParsing.scriptTok] at hfu; subst hfu; rfl
  | cssImport raw => simp [LlmParsing.scriptTok] at hfu; subst hfu; rfl
  | scriptSrc a src =>
      by_cases he : LlmParsing.isExternalUrl src
      · cases hrw : LlmParsing.rewriteScriptSrc src with
        | some l =>
            simp [LlmParsing.scriptTok, he, hrw] at hfu
            subst hfu
            simp [HTok.isExtScript, rewriteScriptSrc_not_external src l hrw]
        | none => simp [LlmParsing.scriptTok, he, hrw] at hfu
      · simp [LlmParsing.scriptTok, he] at hfu
        subst hfu
        cases hx : LlmParsing.isExternalUrl src
        · simp [HTok.isExtScript, hx]
        · exact absurd hx he

theorem link_out_sub_not_ext (h : Html) (t : HTok)
    (ht : t ∈ (LlmParsing.linkPass h).1) : t ∈ h ∧ t.isExtLink = false := by
  rw [linkPass_eq] at ht
  obtain ⟨u, hu, hfu⟩ := List.mem_filterMap.mp ht
  cases u with
  | text s =>
      simp [LlmParsing.linkTok] at hfu
      subst hfu
      exact ⟨hu, rfl⟩
  | scriptSrc a src =>
      simp [LlmParsing.linkTok] at hfu
      subst hfu
      exact ⟨hu, rfl⟩
  | cssImport raw =>
      simp [LlmParsing.linkTok] at hfu
      subst hfu
      exact ⟨hu, rfl⟩
  | linkHref a href =>
      by_cases he : LlmParsing.isExternalUrl href
      · simp [LlmParsing.linkTok, he] at hfu
      · simp [LlmParsing.linkTok, he] at hfu
        subst hfu
        refine ⟨hu, ?_⟩
        cases hx : LlmParsing.isExternalUrl href
        · simp [HTok.isExtLink, hx]
        · exact absurd hx he

theorem import_out_sub_not_ext (h : Html) (t : HTok)
    (ht : t ∈ (LlmParsing.importPass h).1) : t ∈ h ∧ t.isExtImport = false := by
  rw [importPass_eq] at ht
  obtain ⟨u, hu, hfu⟩ := List.mem_filterMap.mp ht
  cases u with
  | text s =>
      simp [LlmParsing.importTok] at hfu
      subst hfu
      exact ⟨hu, rfl⟩
  | scriptSrc a src =>
      simp [LlmParsing.importTok] at hfu
      subst hfu
      exact ⟨hu, rfl⟩
  | linkHref a href =>
      simp [LlmParsing.importTok] at hfu
      subst hfu
      exact ⟨hu, rfl⟩
  | cssImport raw =>
      by_cases he : LlmParsing.isExternalUrl (LlmParsing.importUrlOf raw)
      · simp [LlmParsing.importTok, he] at hfu
      · simp [LlmParsing.importTok, he] at hfu
        subst hfu
        refine ⟨hu, ?_⟩
        cases hx : LlmParsing.isExternalUrl (LlmParsing.importUrlOf raw)
        · simp [HTok.isExtImport, hx]
        · exact absurd hx he

theorem strip_no_external (h : Html) :
    countExternalRefs (LlmParsing.stripExternalAssets h).1 = 0 := by
  rw [stripExternalAssets_eq]
  unfold countExternalRefs
  rw [List.length_eq_zero]
  rw [List.filter_eq_nil_iff]
  intro t ht
  obtain ⟨htl, hti⟩ := import_out_sub_not_ext _ t ht
  obtain ⟨hts, htlk⟩ := link_out_sub_not_ext _ t htl
  have htsc := script_out_not_ext _ t hts
  rw [tok_ext_decomp, htsc, htlk, hti]
  simp

theorem scriptTok_issues_len (t : HTok) :
    ((LlmParsing.scriptTok t).2).length
      = if HTok.isExtScript t then 1 else 0 := by
  cases t with
  | scriptSrc a src =>
      by_cases he : LlmParsing.isExternalUrl src
      · cases hrw : LlmParsing.rewriteScriptSrc src <;>
          simp [LlmParsing.scriptTok, HTok.isExtScript, he, hrw]
      · simp [LlmParsing.scriptTok, HTok.isExtScript, he]
  | text s => rfl
  | linkHref a href => rfl
  | cssImport raw => rfl

theorem linkTok_issues_len (t : HTok) :
    ((LlmParsing.linkTok t).2).length
      = if HTok.isExtLink t then 1 else 0 := by
  cases t with
  | linkHref a href =>
      by_cases he : LlmParsing.isExternalUrl href <;>
        simp [LlmParsing.linkTok, HTok.isExtLink, he]
  | text s => rfl
  | scriptSrc a src => rfl
  | cssImport raw => rfl

theorem importTok_issues_len (t : HTok) :
    ((LlmParsing.importTok t).2).length
      = if HTok.isExtImport t then 1 else 0 := by
  cases t with
  | cssImport raw =>
      by_cases he : LlmParsing.isExternalUrl (LlmParsing.importUrlOf raw) <;>
        simp [LlmParsing.importTok, HTok.isExtImport, he]
  | text s => rfl
  | scriptSrc a src => rfl
  | linkHref a href => rfl

theorem scriptPass_issues_len (h : Html) :
    ((LlmParsing.scriptPass h).2).length
      = (h.filter HTok.isExtScript).length := by
  rw [scriptPass_eq]
  exact flatten_len_by_filter _ _ scriptTok_issues_len h

theorem linkPass_issues_len (h : Html) :
    ((LlmParsing.linkPass h).2).length
      = (h.filter HTok.isExtLink).length := by
  rw [linkPass_eq]
  exact flatten_len_by_filter _ _ linkTok_issues_len h

theorem importPass_issues_len (h : Html) :
    ((LlmParsing.importPass h).2).length
      = (h.filter HTok.isExtImport).length := by
  rw [importPass_eq]
  exact flatten_len_by_filter _ _ importTok_issues_len h

theorem scriptPass_filter_link (h : Html) :
    ((LlmParsing.scriptPass h).1).filter HTok.isExtLink
      = h.filter HTok.isExtLink := by
  rw [scriptPass_eq]
  refine filterMap_filter_comm _ _ ?_ ?_ h
  · intro t hp
    cases t with
    | linkHref a href => rfl
    | text s => rfl
    | cssImport raw => rfl
    | scriptSrc a src => simp [HTok.isExtLink] at hp
  · intro t t' hf hp
    cases t with
    | text s =>
        simp [LlmParsing.scriptTok] at hf
        subst hf
        exact ⟨hp, rfl⟩
    | linkHref a href =>
        simp [LlmParsing.scriptTok] at hf
        subst hf
        exact ⟨hp, rfl⟩
    | cssImport raw =>
        simp [LlmParsing.scriptTok] at hf
        subst hf
        exact ⟨hp, rfl⟩
    | scriptSrc a src =>
        by_cases he : LlmParsing.isExternalUrl src
        · cases hrw : LlmParsing.rewriteScriptSrc src with
          | some l =>
              simp [LlmParsing.scriptTok, he, hrw] at hf
              subst hf
              simp [HTok.isExtLink] at hp
          | none => simp [LlmParsing.scriptTok, he, hrw] at hf
        · simp [LlmParsing.scriptTok, he] at hf
          subst hf
          simp [HTok.isExtLink] at hp

theorem scriptPass_filter_import (h : Html) :
    ((LlmParsing.scriptPass h).1).filter HTok.isExtImport
      = h.filter HTok.isExtImport := by
  rw [scriptPass_eq]
  refine filterMap_filter_comm _ _ ?_ ?_ h
  · intro t hp
    cases t with
    | linkHref a href => rfl
    | text s => rfl
    | cssImport raw => rfl
    | scriptSrc a src => simp [HTok.isExtImport] at hp
  · intro t t' hf hp
    cases t with
    | text s =>
        simp [LlmParsing.scriptTok] at hf
        subst hf
        exact ⟨hp, rfl⟩
    | linkHref a href =>
        simp [LlmParsing.scriptTok] at hf
        subst hf
        exact ⟨hp, rfl⟩
    | cssImport raw =>
        simp [LlmParsing.scriptTok] at hf
        subst hf
        exact ⟨hp, rfl⟩
    | scriptSrc a src =>
        by_cases he : LlmParsing.isExternalUrl src
        · cases hrw : LlmParsing.rewriteScriptSrc src with
          | some l =>
              simp [LlmParsing.scriptTok, he, hrw] at hf
              subst hf
              simp [HTok.isExtImport] at hp
          | none => simp [LlmParsing.scriptTok, he, hrw] at hf
        · simp [LlmParsing.scriptTok, he] at hf
          subst hf
          simp [HTok.isExtImport] at hp

theorem linkPass_filter_import (h : Html) :
    ((LlmParsing.linkPass h).1).filter HTok.isExtImport
      = h.filter HTok.isExtImport := by
  rw [linkPass_eq]
  refine filterMap_filter_comm _ _ ?_ ?_ h
  · intro t hp
    cases t with
    | cssImport raw => rfl
    | text s => rfl
    | scriptSrc a src => rfl
    | linkHref a href => simp [HTok.isExtImport] at hp
  · intro t t' hf hp
    cases t with
    | text s =>
        simp [LlmParsing.linkTok] at hf
        subst hf
        exact ⟨hp, rfl⟩
    | scriptSrc a src =>
        simp [LlmParsing.linkTok] at hf
        subst hf
        exact ⟨hp, rfl⟩
    | cssImport raw =>
        simp [LlmParsing.linkTok] at hf
        subst hf
        exact ⟨hp, rfl⟩
    | linkHref a href =>
        by_cases he : LlmParsing.isExternalUrl href
        · simp [LlmParsing.linkTok, he] at hf
        · simp [LlmParsing.linkTok, he] at hf
          subst hf
          simp [HTok.isExtImport] at hp

theorem strip_issues_len (h : Html) :
    ((LlmParsing.stripExternalAssets h).2).length = countExternalRefs h := by
  have hs := scriptPass_issues_len h
  have hl := linkPass_issues_len (LlmParsing.scriptPass h).1
  have hi := importPass_issues_len
    (LlmParsing.linkPass (LlmParsing.scriptPass h).1).1
  rw [scriptPass_filter_link] at hl
  rw [linkPass_filter_import, scriptPass_filter_import] at hi
  rw [stripExternalAssets_eq, countExternalRefs_split]
  simp only [List.length_append, hs, hl, hi]

theorem rewritten_script_kept (h : Html) (a src l : String)
    (hm : HTok.scriptSrc a src ∈ h)
    (he : LlmParsing.isExternalUrl src = true)
    (hrw : LlmParsing.rewriteScriptSrc src = some l) :
    HTok.scriptSrc a l ∈ (LlmParsing.stripExternalAssets h).1 := by
  have h1 : HTok.scriptSrc a l ∈ (LlmParsing.scriptPass h).1 := by
    rw [scriptPass_eq]
    exact List.mem_filterMap.mpr ⟨HTok.scriptSrc a src, hm, by
      simp [LlmParsing.scriptTok, he, hrw]⟩
  have h2 : HTok.scriptSrc a l
      ∈ (LlmParsing.linkPass (LlmParsing.scriptPass h).1).1 := by
    rw [linkPass_eq]
    exact List.mem_filterMap.mpr ⟨HTok.scriptSrc a l, h1, rfl⟩
  have h3 : HTok.scriptSrc a l
      ∈ (LlmParsing.importPass
          (LlmParsing.linkPass (LlmParsing.scriptPass h).1).1).1 := by
    rw [importPass_eq]
    exact List.mem_filterMap.mpr ⟨HTok.scriptSrc a l, h2, rfl⟩
  rw [stripExternalAssets_eq]
  exact h3

theorem dictGet_nil {α : Type} (k : String) :
    dictGet ([] : List (String × α)) k = none := rfl

theorem dictSet_nil {α : Type} (k : String) (v : α) :
    dictSet ([] : List (String × α)) k v = [(k, v)] := rfl

/-- C1 (amended).  For a normalized full-page document carrying a string
html field (and not yet carrying components or ndw_debug), sanitization
succeeds and returns a document whose html is the stripped token list: the
output carries no external `<script src>`, `<link href>` or `@import`
reference; exactly one issue is recorded per external reference of the
input; every external `<script src>` matching one of the three known CDN
matchers is rewritten to its local path and kept; and the recorded issues
are stored under `ndw_debug.external_assets_removed` exactly when there was
something to record.  (The original claim is false: only `<script src>`
references to the known CDNs are rewritten — `<link href>` and `@import`
references to those same CDN origins are removed, see the
counterexample.) -/
theorem stripAssets_c1_amended (kvs : List (String × JVal)) (h : Html)
    (hkind : LlmParsing.kindIs kvs "full_page_html" = true)
    (hhtml : dictGet kvs "html" = some (.str h))
    (hcomp : dictGet kvs "components" = none)
    (hdbg : dictGet kvs "ndw_debug" = none) :
    ∃ kvsF : List (String × JVal),
      LlmParsing.sanitizeDoc (.obj kvs) = .ok (.obj kvsF) ∧
      dictGet kvsF "html"
        = some (.str (LlmParsing.stripExternalAssets h).1) ∧
      countExternalRefs (LlmParsing.stripExternalAssets h).1 = 0 ∧
      ((LlmParsing.stripExternalAssets h).2).length = countExternalRefs h ∧
      (∀ a src l, HTok.scriptSrc a src ∈ h →
          LlmParsing.isExternalUrl src = true →
          LlmParsing.rewriteScriptSrc src = some l →
          HTok.scriptSrc a l ∈ (LlmParsing.stripExternalAssets h).1) ∧
      ((LlmParsing.stripExternalAssets h).2 = [] →
          dictGet kvsF "ndw_debug" = none) ∧
      (¬ (LlmParsing.stripExternalAssets h).2 = [] →
          dictGet kvsF "ndw_debug"
            = some (.obj [("external_assets_removed",
                .arr (((LlmParsing.stripExternalAssets h).2).map
                  LlmParsing.issueToJVal))])) := by
  have hlen := strip_issues_len h
  have hno := strip_no_external h
  rcases hstrip : LlmParsing.stripExternalAssets h with ⟨h2, issues⟩
  rw [hstrip] at hlen hno
  have hkept : ∀ a src l, HTok.scriptSrc a src ∈ h →
      LlmParsing.isExternalUrl src = true →
      LlmParsing.rewriteScriptSrc src = some l →
      HTok.scriptSrc a l ∈ h2 := by
    intro a src l hm he hrw
    have := rewritten_script_kept h a src l hm he hrw
    rw [hstrip] at this
    exact this
  by_cases hch : h2 = h
  · by_cases hiss : issues = []
    · refine ⟨kvs, ?_, ?_, hno, hlen, hkept, fun _ => hdbg,
        fun hne => absurd hiss hne⟩
      · simp [LlmParsing.sanitizeDoc, hkind, hhtml, hstrip, hch, hcomp, hiss]
        rfl
      · rw [hch]
        exact hhtml
    · have hfresh : kvs.find? (fun kv => kv.1 = "ndw_debug") = none :=
        (dictGet_eq_none_iff kvs "ndw_debug").mp hdbg
      refine ⟨kvs ++ [("ndw_debug", .obj [("external_assets_removed",
          .arr (issues.map LlmParsing.issueToJVal))])], ?_, ?_, hno, hlen,
        hkept, fun he => absurd he hiss, fun _ => ?_⟩
      · simp [LlmParsing.sanitizeDoc, hkind, hhtml, hstrip, hch, hcomp, hiss,
          hdbg, dictSet_fresh _ _ _ hfresh, dictGet_nil, dictSet_nil]
        rfl
      · rw [dictGet_append_ne "ndw_debug" "html" _ (by decide), hch]
        exact hhtml
      · exact dictGet_append_fresh "ndw_debug" _ kvs hfresh
  · have hfreshH : dictGet kvs "html" = some (.str h) := hhtml
    have hset : dictGet (dictSet kvs "html" (.str h2)) "html"
        = some (.str h2) := dictGet_dictSet_self kvs "html" (.str h2)
    have hsetC : dictGet (dictSet kvs "html" (.str h2)) "components" = none := by
      rw [dictGet_dictSet_ne kvs "html" "components" _ (by decide)]
      exact hcomp
    have hsetD : dictGet (dictSet kvs "html" (.str h2)) "ndw_debug" = none := by
      rw [dictGet_dictSet_ne kvs "html" "ndw_debug" _ (by decide)]
      exact hdbg
    by_cases hiss : issues = []
    · refine ⟨dictSet kvs "html" (.str h2), ?_, hset, hno, hlen, hkept,
        fun _ => hsetD, fun hne => absurd hiss hne⟩
      simp [LlmParsing.sanitizeDoc, hkind, hhtml, hstrip, hch, hsetC, hiss]
      rfl
    · have hfreshD : (dictSet kvs "html" (.str h2)).find?
          (fun kv => kv.1 = "ndw_debug") = none :=
        (dictGet_eq_none_iff _ "ndw_debug").mp hsetD
      refine ⟨dictSet kvs "html" (.str h2) ++ [("ndw_debug",
          .obj [("external_assets_removed",
            .arr (issues.map LlmParsing.issueToJVal))])], ?_, ?_, hno, hlen,
        hkept, fun he => absurd he hiss, fun _ => ?_⟩
      · simp [LlmParsing.sanitizeDoc, hkind, hhtml, hstrip, hch, hsetC, hiss,
          hsetD, dictSet_fresh _ _ _ hfreshD, dictGet_nil, dictSet_nil]
        rfl
      · rw [dictGet_append_ne "ndw_debug" "html" _ (by decide)]
        exact hset
      · exact dictGet_append_fresh "ndw_debug" _ _ hfreshD

/-- C1 counterexample.  A `<link href>` pointing at the Tailwind CDN — one
of the three known CDN origins — is removed by `_strip_external_assets`,
not rewritten to a local path: the rewrite branch exists only inside the
`<script src>` pass. -/
theorem stripAssets_c1_counterexample :
    LlmParsing.isTailwindCdn "https://cdn.tailwindcss.com" = true ∧
    LlmParsing.stripExternalAssets
        [HTok.linkHref "rel=stylesheet" "https://cdn.tailwindcss.com"]
      = ([], [LlmParsing.Issue.mk "warn" "html"
          "Removed external stylesheet: https://cdn.tailwindcss.com"]) := by
  exact ⟨by decide, by decide⟩

/-- C1 witness: the amended theorem applied to the demo document, whose
hypotheses hold by computation. -/
theorem stripAssets_c1_witness :
    LlmParsing.kindIs c1DemoKvs "full_page_html" = true ∧
    dictGet c1DemoKvs "html" = some (.str c1DemoHtml) ∧
    dictGet c1DemoKvs "components" = none ∧
    dictGet c1DemoKvs "ndw_debug" = none ∧
    (∃ kvsF : List (String × JVal),
      LlmParsing.sanitizeDoc (.obj c1DemoKvs) = .ok (.obj kvsF) ∧
      dictGet kvsF "html"
        = some (.str (LlmParsing.stripExternalAssets c1DemoHtml).1) ∧
      countExternalRefs (LlmParsing.stripExternalAssets c1DemoHtml).1 = 0 ∧
      ((LlmParsing.stripExternalAssets c1DemoHtml).2).length
        = countExternalRefs c1DemoHtml ∧
      (∀ a src l, HTok.scriptSrc a src ∈ c1DemoHtml →
          LlmParsing.isExternalUrl src = true →
          LlmParsing.rewriteScriptSrc src = some l →
          HTok.scriptSrc a l
            ∈ (LlmParsing.stripExternalAssets c1DemoHtml).1) ∧
      ((LlmParsing.stripExternalAssets c1DemoHtml).2 = [] →
          dictGet kvsF "ndw_debug" = none) ∧
      (¬ (LlmParsing.stripExternalAssets c1DemoHtml).2 = [] →
          dictGet kvsF "ndw_debug"
            = some (.obj [("external_assets_removed",
                .arr (((LlmParsing.stripExternalAssets c1DemoHtml).2).map
                  LlmParsing.issueToJVal))]))) :=
  ⟨by decide, rfl, rfl, rfl,
    stripAssets_c1_amended c1DemoKvs c1DemoHtml (by decide) rfl rfl rfl⟩

/-- C9 (amended).  Normalization is idempotent on clean full-page results:
whenever a first normalization yields the two-field full-page document — a
non-blank html on which asset stripping is the identity and records
nothing — a second normalization returns that document unchanged.  (The
original unrestricted claim is false: a first normalization that strips an
external asset attaches `ndw_debug`, and the second normalization rebuilds
the document from its kind and html fields alone, dropping `ndw_debug` —
see the counterexample.) -/
theorem normalize_c9_amended (d : JVal) (h : Html)
    (hd : LlmParsing.normalizeDoc d
        = .ok (.obj [("kind", jstr "full_page_html"), ("html", .str h)]))
    (hne : htmlStripTruthy h = true)
    (hstrip : LlmParsing.stripExternalAssets h = (h, [])) :
    LlmParsing.normalizeDoc
        (.obj [("kind", jstr "full_page_html"), ("html", .str h)])
      = .ok (.obj [("kind", jstr "full_page_html"), ("html", .str h)]) := by
  have hrne : ¬ renderHtml h = "" := by
    intro hr
    have hx := hne
    unfold htmlStripTruthy at hx
    rw [hr] at hx
    exact absurd hx (by decide)
  simp +decide [LlmParsing.normalizeDoc, LlmParsing.normalizeDocObj,
    LlmParsing.fullPageSynonym, LlmParsing.fullPageSynonym.checkKey,
    LlmParsing.sanitizeDoc, LlmParsing.kindIs, dictGet, jget, jor,
    pyTruthy, hrne, hne, hstrip, lowerStr, pyStrOf]
  rfl

/-- C9 counterexample.  The document `c9RawDoc` normalizes to `c9Once`
(with an `ndw_debug.external_assets_removed` record), but normalizing
`c9Once` again yields `c9Twice`, which lost the `ndw_debug` field — so
`normalize (normalize doc)` differs from `normalize doc`. -/
theorem normalize_c9_counterexample :
    LlmParsing.normalizeDoc c9RawDoc = .ok c9Once ∧
    LlmParsing.normalizeDoc c9Once = .ok c9Twice ∧
    ¬ c9Twice = c9Once := by
  refine ⟨by rfl, by rfl, by decide⟩

/-- C9 witness: the amended theorem applied to the clean demo page. -/
theorem normalize_c9_witness :
    LlmParsing.normalizeDoc c9Twice
        = .ok (.obj [("kind", jstr "full_page_html"),
            ("html", .str [HTok.text "<div>hello</div>"])]) ∧
    htmlStripTruthy [HTok.text "<div>hello</div>"] = true ∧
    LlmParsing.stripExternalAssets [HTok.text "<div>hello</div>"]
      = ([HTok.text "<div>hello</div>"], []) ∧
    LlmParsing.normalizeDoc (.obj [("kind", jstr "full_page_html"),
        ("html", .str [HTok.text "<div>hello</div>"])])
      = .ok (.obj [("kind", jstr "full_page_html"),
          ("html", .str [HTok.text "<div>hello</div>"])]) :=
  ⟨by rfl, by decide, by rfl,
    normalize_c9_amended c9Twice [HTok.text "<div>hello</div>"] (by rfl)
      (by decide) (by rfl)⟩

theorem runScan_append (xs : List Char) : ∀ (st : LlmParsing.ScanSt)
    (ys : List Char),
    LlmParsing.runScan st (xs ++ ys)
      = ((LlmParsing.runScan (LlmParsing.runScan st xs).1 ys).1,
         (LlmParsing.runScan st xs).2
           ++ (LlmParsing.runScan (LlmParsing.runScan st xs).1 ys).2) := by
  induction xs with
  | nil => intro st ys; simp [LlmParsing.runScan]
  | cons c cs ih =>
      intro st ys
      simp only [List.cons_append, LlmParsing.runScan]
      rcases hs : LlmParsing.scanStep st c with ⟨st1, em⟩
      rcases hr : LlmParsing.runScan st1 (cs ++ ys) with ⟨st2, ems⟩
      rw [ih st1 ys] at hr
      rcases hx : LlmParsing.runScan st1 cs with ⟨sta, emsa⟩
      rw [hx] at hr
      rcases hy : LlmParsing.runScan sta ys with ⟨stb, emsb⟩
      rw [hy] at hr
      injection hr with hr1 hr2
      subst hr1
      subst hr2
      cases em <;> simp

theorem scanStep_emLen (st : LlmParsing.ScanSt) (c : Char) :
    (match (LlmParsing.scanStep st c).2 with
      | some e => e.length
      | none => 0) + curLen (LlmParsing.scanStep st c).1
      ≤ curLen st + 1 := by
  rcases st with ⟨istr, esc, dep, cur⟩
  cases cur <;>
  · simp only [LlmParsing.scanStep]
    split_ifs <;>
      simp [curLen, LlmParsing.pushCur, Option.getD, emLen] <;>
      try omega

theorem runScan_emLen : ∀ (cs : List Char) (st : LlmParsing.ScanSt),
    emLen (LlmParsing.runScan st cs).2 + curLen (LlmParsing.runScan st cs).1
      ≤ curLen st + cs.length := by
  intro cs
  induction cs with
  | nil => intro st; simp [LlmParsing.runScan, emLen]
  | cons c rest ih =>
      intro st
      have hstep := scanStep_emLen st c
      rcases hs : LlmParsing.scanStep st c with ⟨st1, em⟩
      rw [hs] at hstep
      simp only [LlmParsing.runScan, hs]
      rcases hr : LlmParsing.runScan st1 rest with ⟨st2, ems⟩
      have htail2 : emLen ems + curLen st2 ≤ curLen st1 + rest.length := by
        have hh := ih st1
        rw [hr] at hh
        exact hh
      cases em with
      | none =>
          have hstep2 : 0 + curLen st1 ≤ curLen st + 1 := hstep
          simp only [List.length_cons]
          omega
      | some e =>
          have hstep2 : e.length + curLen st1 ≤ curLen st + 1 := hstep
          simp only [List.length_cons, emLen, List.map_cons, List.sum_cons]
          simp only [emLen] at htail2
          omega

theorem noClose_no_emit : ∀ (cs : List Char), (∀ c ∈ cs, ¬ c = '}') →
    ∀ st : LlmParsing.ScanSt, (LlmParsing.runScan st cs).2 = [] := by
  intro cs
  induction cs with
  | nil => intro _ st; rfl
  | cons c rest ih =>
      intro hno st
      have hc : ¬ c = '}' := hno c (by simp)
      have hrest : ∀ x ∈ rest, ¬ x = '}' := fun x hx => hno x (by simp [hx])
      simp only [LlmParsing.runScan]
      have hem : (LlmParsing.scanStep st c).2 = none := by
        simp only [LlmParsing.scanStep]
        split_ifs <;> simp_all
      rcases hs : LlmParsing.scanStep st c with ⟨st1, em⟩
      rw [hs] at hem
      simp only at hem
      subst hem
      rcases hr : LlmParsing.runScan st1 rest with ⟨st2, ems⟩
      have := ih hrest st1
      rw [hr] at this
      simp only at this
      subst this
      rfl

theorem pushAll_single (cur : Option (List Char)) (c : Char) :
    LlmParsing.pushCur cur c = pushAll cur [c] := by
  cases cur <;> rfl

theorem pushAll_append (cur : Option (List Char)) (a b : List Char) :
    pushAll (pushAll cur a) b = pushAll cur (a ++ b) := by
  cases cur <;> simp [pushAll]

theorem scanStep_plain (c : Char) (h1 : ¬ c = '"') (h2 : ¬ c = '{')
    (h3 : ¬ c = '}') (e : Bool) (d : Int) (cur : Option (List Char)) :
    LlmParsing.scanStep ⟨false, e, d, cur⟩ c
      = (⟨false, e, d, LlmParsing.pushCur cur c⟩, none) := by
  simp [LlmParsing.scanStep, h1, h2, h3]

theorem runScan_plain : ∀ (cs : List Char),
    (∀ c ∈ cs, ¬ c = '"' ∧ ¬ c = '{' ∧ ¬ c = '}') →
    ∀ (e : Bool) (d : Int) (cur : Option (List Char)),
    LlmParsing.runScan ⟨false, e, d, cur⟩ cs
      = (⟨false, e, d, pushAll cur cs⟩, []) := by
  intro cs
  induction cs with
  | nil => intro _ e d cur; simp [LlmParsing.runScan, pushAll]
  | cons c rest ih =>
      intro h e d cur
      obtain ⟨h1, h2, h3⟩ := h c (by simp)
      have hrest : ∀ x ∈ rest, ¬ x = '"' ∧ ¬ x = '{' ∧ ¬ x = '}' :=
        fun x hx => h x (List.mem_cons_of_mem _ hx)
      simp only [LlmParsing.runScan, scanStep_plain c h1 h2 h3 e d cur,
        ih hrest e d (LlmParsing.pushCur cur c)]
      rw [pushAll_single, pushAll_append]
      rfl

theorem scanStep_instr (c : Char) (h1 : ¬ c = '"') (h2 : ¬ c = '\\')
    (d : Int) (cur : Option (List Char)) :
    LlmParsing.scanStep ⟨true, false, d, cur⟩ c
      = (⟨true, false, d, LlmParsing.pushCur cur c⟩, none) := by
  simp [LlmParsing.scanStep, h1, h2]

theorem scanStep_escaped (c : Char) (d : Int) (cur : Option (List Char)) :
    LlmParsing.scanStep ⟨true, true, d, cur⟩ c
      = (⟨true, false, d, LlmParsing.pushCur cur c⟩, none) := by
  simp [LlmParsing.scanStep]

theorem scanStep_backslash (d : Int) (cur : Option (List Char)) :
    LlmParsing.scanStep ⟨true, false, d, cur⟩ '\\'
      = (⟨true, true, d, LlmParsing.pushCur cur '\\'⟩, none) := by
  simp [LlmParsing.scanStep]

theorem hexDigitChar_ne (k : Nat) (hk : k < 16) :
    ¬ hexDigitChar k = '"' ∧ ¬ hexDigitChar k = '\\' := by
  interval_cases k <;> exact ⟨by decide, by decide⟩

theorem runScan_escChar (c : Char) (d : Int) (cur : Option (List Char)) :
    LlmParsing.runScan ⟨true, false, d, cur⟩ (escChar c)
      = (⟨true, false, d, pushAll cur (escChar c)⟩, []) := by
  by_cases hq : c = '"'
  · subst hq
    simp [escChar, LlmParsing.runScan, scanStep_backslash,
      scanStep_escaped, pushAll_single, pushAll_append]
  · by_cases hb : c = '\\'
    · subst hb
      simp [escChar, LlmParsing.runScan, scanStep_backslash,
        scanStep_escaped, pushAll_single, pushAll_append]
    · by_cases hc : c.toNat < 32
      · have hhi : c.toNat / 16 < 16 := by omega
        have hlo : c.toNat % 16 < 16 := by omega
        obtain ⟨ha1, ha2⟩ := hexDigitChar_ne _ hhi
        obtain ⟨hb1, hb2⟩ := hexDigitChar_ne _ hlo
        simp only [escChar, if_neg hq, if_neg hb, if_pos hc]
        simp [LlmParsing.runScan, scanStep_backslash, scanStep_escaped,
          scanStep_instr '0' (by decide) (by decide),
          scanStep_instr (hexDigitChar (c.toNat / 16)) ha1 ha2,
          scanStep_instr (hexDigitChar (c.toNat % 16)) hb1 hb2,
          pushAll_single, pushAll_append]
      · simp only [escChar, if_neg hq, if_neg hb, if_neg hc]
        simp [LlmParsing.runScan, scanStep_instr c hq hb,
          pushAll_single, pushAll_append]

theorem runScan_escBody : ∀ (cs : List Char) (d : Int)
    (cur : Option (List Char)),
    LlmParsing.runScan ⟨true, false, d, cur⟩ (escapeChars cs)
      = (⟨true, false, d, pushAll cur (escapeChars cs)⟩, []) := by
  intro cs
  induction cs with
  | nil =>
      intro d cur
      simp [LlmParsing.runScan, pushAll, escapeChars]
  | cons c rest ih =>
      intro d cur
      have hdec : escapeChars (c :: rest) = escChar c ++ escapeChars rest := by
        simp [escapeChars]
      rw [hdec, runScan_append, runScan_escChar]
      simp only [ih, pushAll_append]
      simp

theorem natDigits_digit : ∀ (n : Nat) (c : Char), c ∈ natDigits n →
    c.isDigit = true := by
  intro n
  induction n using Nat.strong_induction_on with
  | _ n ih =>
      intro c hc
      rw [natDigits] at hc
      by_cases hn : n < 10
      · rw [dif_pos hn] at hc
        simp at hc
        subst hc
        interval_cases n <;> decide
      · rw [dif_neg hn] at hc
        rcases List.mem_append.mp hc with h1 | h2
        · exact ih (n / 10) (Nat.div_lt_self (by omega) (by omega)) c h1
        · simp at h2
          subst h2
          have hm : n % 10 < 10 := Nat.mod_lt _ (by omega)
          set k := n % 10 with hk
          interval_cases k <;> decide

theorem digit_plain (c : Char) (h : c.isDigit = true) :
    ¬ c = '"' ∧ ¬ c = '{' ∧ ¬ c = '}' := by
  refine ⟨?_, ?_, ?_⟩ <;> intro h' <;> rw [h'] at h <;>
    exact absurd h (by decide)

theorem intChars_plain (n : Int) :
    ∀ c ∈ intChars n, ¬ c = '"' ∧ ¬ c = '{' ∧ ¬ c = '}' := by
  intro c hc
  unfold intChars at hc
  split_ifs at hc
  · rcases List.mem_cons.mp hc with h1 | h2
    · subst h1; exact ⟨by decide, by decide, by decide⟩
    · exact digit_plain c (natDigits_digit _ c h2)
  · exact digit_plain c (natDigits_digit _ c hc)

theorem scanStep_openQuote (d : Int) (cur : Option (List Char)) :
    LlmParsing.scanStep ⟨false, false, d, cur⟩ '"'
      = (⟨true, false, d, LlmParsing.pushCur cur '"'⟩, none) := by
  simp [LlmParsing.scanStep]

theorem scanStep_closeQuote (d : Int) (cur : Option (List Char)) :
    LlmParsing.scanStep ⟨true, false, d, cur⟩ '"'
      = (⟨false, false, d, LlmParsing.pushCur cur '"'⟩, none) := by
  simp [LlmParsing.scanStep]

theorem scanStep_openBrace (d : Int) (hd : ¬ d = 0) (cur : Option (List Char)) :
    LlmParsing.scanStep ⟨false, false, d, cur⟩ '{'
      = (⟨false, false, d + 1, LlmParsing.pushCur cur '{'⟩, none) := by
  simp [LlmParsing.scanStep, hd]

theorem scanStep_closeBrace_deep (d : Int) (hd : ¬ d - 1 = 0)
    (cur : Option (List Char)) :
    LlmParsing.scanStep ⟨false, false, d, cur⟩ '}'
      = (⟨false, false, d - 1, LlmParsing.pushCur cur '}'⟩, none) := by
  simp [LlmParsing.scanStep, hd]

mutual

theorem scanVal_full : ∀ (v : JVal) (d : Int), 1 ≤ d → ∀ cur : List Char,
    LlmParsing.runScan ⟨false, false, d, some cur⟩ (dumpsVal v)
      = (⟨false, false, d, some (cur ++ dumpsVal v)⟩, [])
  | .null, d, hd, cur => by
      have h := runScan_plain "null".toList (by decide) false d (some cur)
      simpa [dumpsVal, pushAll] using h
  | .bool true, d, hd, cur => by
      have h := runScan_plain "true".toList (by decide) false d (some cur)
      simpa [dumpsVal, pushAll] using h
  | .bool false, d, hd, cur => by
      have h := runScan_plain "false".toList (by decide) false d (some cur)
      simpa [dumpsVal, pushAll] using h
  | .num n, d, hd, cur => by
      have h := runScan_plain (intChars n) (intChars_plain n) false d (some cur)
      simpa [dumpsVal, pushAll] using h
  | .str h, d, hd, cur => by
      simp only [dumpsVal]
      simp only [LlmParsing.runScan, scanStep_openQuote, LlmParsing.pushCur,
        Option.map, pushAll]
      rw [runScan_append, runScan_escBody]
      simp only [LlmParsing.runScan, scanStep_closeQuote, LlmParsing.pushCur,
        Option.map, pushAll]
      simp
  | .arr xs, d, hd, cur => by
      simp only [dumpsVal]
      simp only [LlmParsing.runScan,
        scanStep_plain '[' (by decide) (by decide) (by decide),
        LlmParsing.pushCur, Option.map]
      rw [runScan_append, scanItems_full xs d hd (cur ++ ['['])]
      simp only [LlmParsing.runScan,
        scanStep_plain ']' (by decide) (by decide) (by decide)]
      simp [LlmParsing.pushCur]
  | .obj kvs, d, hd, cur => by
      have hd0 : ¬ d = 0 := by omega
      have hd1 : ¬ d + 1 - 1 = 0 := by omega
      simp only [dumpsVal]
      simp only [LlmParsing.runScan, scanStep_openBrace d hd0,
        LlmParsing.pushCur, Option.map]
      rw [runScan_append, scanKvs_full kvs (d + 1) (by omega) (cur ++ ['{'])]
      simp only [LlmParsing.runScan, scanStep_closeBrace_deep (d + 1) hd1]
      simp [LlmParsing.pushCur]

theorem scanItems_full : ∀ (xs : List JVal) (d : Int), 1 ≤ d →
    ∀ cur : List Char,
    LlmParsing.runScan ⟨false, false, d, some cur⟩ (dumpsItems xs)
      = (⟨false, false, d, some (cur ++ dumpsItems xs)⟩, [])
  | [], d, hd, cur => by simp [dumpsItems, LlmParsing.runScan]
  | [x], d, hd, cur => by
      simp only [dumpsItems]
      exact scanVal_full x d hd cur
  | x :: y :: rest, d, hd, cur => by
      simp only [dumpsItems]
      rw [runScan_append, scanVal_full x d hd cur]
      simp only [LlmParsing.runScan,
        scanStep_plain ',' (by decide) (by decide) (by decide),
        LlmParsing.pushCur, Option.map]
      rw [scanItems_full (y :: rest) d hd _]
      simp

theorem scanKvs_full : ∀ (kvs : List (String × JVal)) (d : Int), 1 ≤ d →
    ∀ cur : List Char,
    LlmParsing.runScan ⟨false, false, d, some cur⟩ (dumpsKvs kvs)
      = (⟨false, false, d, some (cur ++ dumpsKvs kvs)⟩, [])
  | [], d, hd, cur => by simp [dumpsKvs, LlmParsing.runScan]
  | [(k, v)], d, hd, cur => by
      simp only [dumpsKvs]
      simp only [LlmParsing.runScan, scanStep_openQuote, LlmParsing.pushCur,
        Option.map]
      rw [runScan_append, runScan_escBody]
      simp only [LlmParsing.runScan, scanStep_closeQuote, LlmParsing.pushCur,
        scanStep_plain ':' (by decide) (by decide) (by decide),
        Option.map, pushAll]
      rw [scanVal_full v d hd _]
      simp
  | (k, v) :: m :: rest, d, hd, cur => by
      simp only [dumpsKvs]
      rw [runScan_append]
      simp only [LlmParsing.runScan, scanStep_openQuote, LlmParsing.pushCur,
        Option.map]
      rw [runScan_append, runScan_escBody]
      simp only [LlmParsing.runScan, scanStep_closeQuote, LlmParsing.pushCur,
        scanStep_plain ':' (by decide) (by decide) (by decide),
        Option.map, pushAll]
      rw [scanVal_full v d hd _]
      simp only [LlmParsing.runScan,
        scanStep_plain ',' (by decide) (by decide) (by decide),
        LlmParsing.pushCur, Option.map]
      rw [scanKvs_full (m :: rest) d hd _]
      simp

end

theorem scanObj_top (kvs : List (String × JVal)) :
    LlmParsing.runScan LlmParsing.scanInit (dumpsVal (.obj kvs))
      = (LlmParsing.scanInit, [dumpsVal (.obj kvs)]) := by
  have hop : LlmParsing.scanStep ⟨false, false, 0, none⟩ '{'
      = (⟨false, false, 1, some ['{']⟩, none) := by
    simp [LlmParsing.scanStep]
  have hcl : LlmParsing.scanStep
        ⟨false, false, 1, some ('{' :: dumpsKvs kvs)⟩ '}'
      = (⟨false, false, 0, none⟩,
         some (('{' :: dumpsKvs kvs) ++ ['}'])) := by
    simp [LlmParsing.scanStep]
  simp only [dumpsVal, LlmParsing.scanInit]
  simp only [LlmParsing.runScan, hop]
  rw [runScan_append, scanKvs_full kvs 1 (by omega) ['{']]
  simp only [LlmParsing.runScan]
  rw [show ('{' :: dumpsKvs kvs : List Char) = ['{'] ++ dumpsKvs kvs from rfl]
    at hcl
  simp only [hcl]
  simp

theorem scanObj_top_proper (kvs : List (String × JVal)) (p q : List Char)
    (hpq : dumpsVal (.obj kvs) = p ++ q) (hq : ¬ q = []) :
    (LlmParsing.runScan LlmParsing.scanInit p).2 = [] := by
  have hfull := scanObj_top kvs
  rw [hpq, runScan_append] at hfull
  have hem : (LlmParsing.runScan LlmParsing.scanInit p).2
      ++ (LlmParsing.runScan (LlmParsing.runScan LlmParsing.scanInit p).1 q).2
      = [p ++ q] := by
    have hsnd := congrArg Prod.snd hfull
    simp only at hsnd
    rw [hsnd]
  rcases hcase : (LlmParsing.runScan LlmParsing.scanInit p).2 with _ | ⟨a, t⟩
  · rfl
  · exfalso
    rw [hcase] at hem
    simp only [List.cons_append] at hem
    have ha : a = p ++ q := (List.cons.injEq _ _ _ _).mp hem |>.1
    have ht : t ++ (LlmParsing.runScan
        (LlmParsing.runScan LlmParsing.scanInit p).1 q).2 = [] :=
      (List.cons.injEq _ _ _ _).mp hem |>.2
    have hlen := runScan_emLen p LlmParsing.scanInit
    rw [hcase] at hlen
    have ht0 : t = [] := by
      rcases List.append_eq_nil.mp ht with ⟨h1, _⟩
      exact h1
    subst ht0
    subst ha
    simp only [emLen, List.map_cons, List.map_nil, List.sum_cons,
      List.sum_nil, List.length_append] at hlen
    have hq' : 0 < q.length := by
      cases q with
      | nil => exact absurd rfl hq
      | cons _ _ => simp
    have hc0 : curLen LlmParsing.scanInit = 0 := rfl
    rw [hc0] at hlen
    omega

theorem completedCount_zero : ∀ objs : List JVal, completedCount objs 0 = 0 := by
  intro objs
  cases objs with
  | nil => rfl
  | cons o rest =>
      simp only [completedCount]
      rw [if_neg (by omega)]


theorem scanStep_comma_top :
    LlmParsing.scanStep LlmParsing.scanInit ',' = (LlmParsing.scanInit, none) := by
  simp [LlmParsing.scanStep, LlmParsing.scanInit, LlmParsing.pushCur]

theorem scanBody_take : ∀ (objs : List JVal),
    (∀ o ∈ objs, ∃ kvs, o = JVal.obj kvs) → ∀ m' : Nat,
    (LlmParsing.runScan LlmParsing.scanInit
        ((dumpsItems objs ++ [']']).take m')).2
      = (objs.take (completedCount objs (m' + 1))).map dumpsVal := by
  intro objs
  induction objs with
  | nil =>
      intro _ m'
      have hsub : ∀ c ∈ ([']'] : List Char).take m', ¬ c = '}' := by
        intro c hc
        have hm := List.mem_of_mem_take hc
        simp at hm
        subst hm
        decide
      simp only [dumpsItems, List.nil_append]
      rw [noClose_no_emit _ hsub]
      simp [completedCount]
  | cons o rest ih =>
      intro hobj m'
      obtain ⟨kvs, hk⟩ := hobj o (by simp)
      subst hk
      have hrest : ∀ x ∈ rest, ∃ kvs, x = JVal.obj kvs :=
        fun x hx => hobj x (by simp [hx])
      by_cases hm : m' < (dumpsVal (JVal.obj kvs)).length
      · -- the head object is still incomplete: no emission yet
        have htake : ((dumpsItems (JVal.obj kvs :: rest) ++ [']']).take m')
            = (dumpsVal (JVal.obj kvs)).take m' := by
          cases rest with
          | nil =>
              simp only [dumpsItems]
              exact List.take_append_of_le_length (by omega)
          | cons r rs =>
              simp only [dumpsItems, List.append_assoc]
              exact List.take_append_of_le_length (by omega)
        rw [htake]
        have hsplit : dumpsVal (.obj kvs)
            = (dumpsVal (JVal.obj kvs)).take m'
                ++ (dumpsVal (JVal.obj kvs)).drop m' := by
          rw [List.take_append_drop]
        have hne : ¬ (dumpsVal (JVal.obj kvs)).drop m' = [] := by
          apply List.ne_nil_of_length_pos
          simp only [List.length_drop]
          omega
        rw [scanObj_top_proper kvs _ _ hsplit hne]
        have hcc : completedCount (JVal.obj kvs :: rest) (m' + 1) = 0 := by
          simp only [completedCount]
          rw [if_neg (by omega)]
        rw [hcc]
        simp
      · -- the head object is complete within the first m' characters
        push_neg at hm
        obtain ⟨k, hk'⟩ := Nat.exists_eq_add_of_le hm
        cases rest with
        | nil =>
            have htake : ((dumpsItems [JVal.obj kvs] ++ [']']).take m')
                = dumpsVal (JVal.obj kvs)
                    ++ ([']'] : List Char).take
                        (m' - (dumpsVal (JVal.obj kvs)).length) := by
              simp only [dumpsItems]
              rw [List.take_append_eq_append_take, List.take_of_length_le hm]
            rw [htake, runScan_append, scanObj_top kvs]
            have hsub : ∀ c ∈ ([']'] : List Char).take
                (m' - (dumpsVal (JVal.obj kvs)).length), ¬ c = '}' := by
              intro c hc
              have hmemb := List.mem_of_mem_take hc
              simp at hmemb
              subst hmemb
              decide
            have hnc := noClose_no_emit _ hsub LlmParsing.scanInit
            simp only at hnc ⊢
            rw [hnc]
            have hcc : completedCount [JVal.obj kvs] (m' + 1) = 1 := by
              simp only [completedCount]
              rw [if_pos (by omega)]
            rw [hcc]
            simp
        | cons r rs =>
            have htake : ((dumpsItems (JVal.obj kvs :: r :: rs)
                  ++ [']']).take m')
                = dumpsVal (JVal.obj kvs)
                    ++ (',' :: (dumpsItems (r :: rs) ++ [']'])).take k := by
              simp only [dumpsItems, List.append_assoc, List.cons_append]
              rw [List.take_append_eq_append_take, List.take_of_length_le hm]
              have harg : m' - (dumpsVal (JVal.obj kvs)).length = k := by omega
              rw [harg]
            rw [htake, runScan_append, scanObj_top kvs]
            have hcc : completedCount (JVal.obj kvs :: r :: rs) (m' + 1)
                = 1 + completedCount (r :: rs) k := by
              simp only [completedCount]
              rw [if_pos (by omega)]
              have harg : m' + 1 - (1 + (dumpsVal (JVal.obj kvs)).length)
                  = k := by omega
              rw [harg]
            rw [hcc]
            cases k with
            | zero =>
                simp only [List.take_zero, LlmParsing.runScan]
                rw [completedCount_zero]
                simp
            | succ j =>
                simp only [List.take_succ_cons, LlmParsing.runScan,
                  scanStep_comma_top]
                have hih := ih hrest j
                simp only at hih ⊢
                rw [hih, Nat.add_comm 1 (completedCount (r :: rs) (j + 1))]
                simp [List.take_succ_cons]

theorem takeWhile_append_all {α : Type} (p : α → Bool) :
    ∀ (a b : List α), (∀ x ∈ a, p x = true) →
      (∀ x, b.head? = some x → p x = false) →
      (a ++ b).takeWhile p = a ∧ (a ++ b).dropWhile p = b := by
  intro a
  induction a with
  | nil =>
      intro b _ hb
      cases b with
      | nil => exact ⟨rfl, rfl⟩
      | cons x bs =>
          have hx := hb x rfl
          simp [List.takeWhile_cons, List.dropWhile_cons, hx]
  | cons x xs ih =>
      intro b ha hb
      have hx := ha x (by simp)
      obtain ⟨h1, h2⟩ := ih b (fun y hy => ha y (by simp [hy])) hb
      simp [List.takeWhile_cons, List.dropWhile_cons, hx, h1, h2]

theorem toNat_digitChar (k : Nat) (hk : k < 10) :
    (Char.ofNat (48 + k)).toNat = 48 + k
      ∧ (Char.ofNat (48 + k)).isDigit = true := by
  interval_cases k <;> exact ⟨by decide, by decide⟩

theorem digitsToNat_append (a : List Char) (c : Char) :
    digitsToNat (a ++ [c]) = digitsToNat a * 10 + (c.toNat - 48) := by
  simp [digitsToNat, List.foldl_append]

theorem digitsToNat_natDigits : ∀ n : Nat,
    digitsToNat (natDigits n) = n := by
  intro n
  induction n using Nat.strong_induction_on with
  | _ n ih =>
      rw [natDigits]
      by_cases h : n < 10
      · rw [dif_pos h]
        have ht := (toNat_digitChar n h).1
        simp [digitsToNat, ht]
      · rw [dif_neg h]
        rw [digitsToNat_append, ih (n / 10) (Nat.div_lt_self (by omega) (by omega))]
        have h10 : n % 10 < 10 := Nat.mod_lt _ (by omega)
        rw [(toNat_digitChar (n % 10) h10).1]
        omega

theorem natDigits_ne_nil (n : Nat) : ¬ natDigits n = [] := by
  rw [natDigits]
  by_cases h : n < 10
  · rw [dif_pos h]
    simp
  · rw [dif_neg h]
    simp

theorem parseNatLit_natDigits (n : Nat) (rest : List Char)
    (hr : ∀ c, rest.head? = some c → c.isDigit = false) :
    parseNatLit (natDigits n ++ rest) = some (n, rest) := by
  obtain ⟨ht, hd⟩ := takeWhile_append_all Char.isDigit (natDigits n) rest
      (fun x hx => natDigits_digit n x hx) hr
  unfold parseNatLit
  rw [ht, hd]
  have hne : (natDigits n).isEmpty = false := by
    cases hc : natDigits n with
    | nil => exact absurd hc (natDigits_ne_nil n)
    | cons _ _ => rfl
  simp [hne, digitsToNat_natDigits]

theorem skipWs_cons_of_not (c : Char) (cs : List Char)
    (h : isJsonWs c = false) : skipWs (c :: cs) = c :: cs := by
  simp [skipWs, List.dropWhile_cons, h]

theorem digit_not_ws (c : Char) (h : c.isDigit = true) :
    isJsonWs c = false := by
  have h48 : 48 ≤ c.toNat := by
    simp [Char.isDigit] at h
    have := h.1
    exact this
  simp [isJsonWs]
  refine ⟨?_, ?_, ?_, ?_⟩ <;> intro h' <;> rw [h'] at h48 <;> simp at h48

theorem natDigits_head (m : Nat) :
    ∃ d ds, natDigits m = d :: ds ∧ d.isDigit = true := by
  cases hc : natDigits m with
  | nil => exact absurd hc (natDigits_ne_nil m)
  | cons d ds =>
      refine ⟨d, ds, rfl, natDigits_digit m d ?_⟩
      rw [hc]
      simp

theorem hexVal_hexDigitChar (k : Nat) (hk : k < 16) :
    hexVal (hexDigitChar k) = some k := by
  interval_cases k <;> decide


theorem parseStringBody_cons_plain (c : Char) (t : List Char)
    (hq : ¬ c = '"') (hb : ¬ c = '\\') :
    parseStringBody (c :: t)
      = (parseStringBody t).map (fun p => (c :: p.1, p.2)) := by
  conv_lhs => rw [parseStringBody.eq_def]
  split
  · rename_i heq
    exact absurd heq (by simp)
  · rename_i heq
    rw [List.cons.injEq] at heq
    exact absurd heq.1 hq
  · rename_i heq
    rw [List.cons.injEq] at heq
    exact absurd heq.1 hb
  · rename_i heq
    rw [List.cons.injEq] at heq
    exact absurd heq.1 hb
  · rename_i c' rest' hne1 hne2 hne3 heq
    rw [List.cons.injEq] at heq
    obtain ⟨h1, h2⟩ := heq
    subst h1
    subst h2
    rfl

theorem parseStringBody_escape : ∀ (cs rest : List Char),
    parseStringBody (escapeChars cs ++ '"' :: rest) = some (cs, rest) := by
  intro cs
  induction cs with
  | nil =>
      intro rest
      simp [escapeChars, parseStringBody]
  | cons c cs' ih =>
      intro rest
      have hdec : escapeChars (c :: cs')
          = escChar c ++ escapeChars cs' := by
        simp [escapeChars]
      rw [hdec, List.append_assoc]
      by_cases hq : c = '"'
      · subst hq
        simp only [escChar, if_pos rfl, List.cons_append, List.nil_append]
        simp [parseStringBody, parseStringBody.unescape, ih]
      · by_cases hb : c = '\\'
        · subst hb
          simp only [escChar,
            if_neg (show ¬ ('\\' : Char) = '"' by decide), if_pos rfl,
            List.cons_append, List.nil_append]
          simp [parseStringBody, parseStringBody.unescape, ih]
        · by_cases hc : c.toNat < 32
          · have hhi : c.toNat / 16 < 16 := by omega
            have hlo : c.toNat % 16 < 16 := by omega
            simp only [escChar, if_neg hq, if_neg hb, if_pos hc,
              List.cons_append, List.nil_append]
            simp only [parseStringBody, hexVal_hexDigitChar _ hhi,
              hexVal_hexDigitChar _ hlo]
            simp only [show hexVal '0' = some 0 from rfl]
            rw [ih rest]
            have harith : c.toNat / 16 * 16 + c.toNat % 16 = c.toNat := by
              omega
            simp [harith, Char.ofNat_toNat]
          · simp only [escChar, if_neg hq, if_neg hb, if_neg hc,
              List.cons_append, List.nil_append]
            rw [parseStringBody_cons_plain c _ hq hb, ih rest]
            rfl

theorem digit_ne_close (c : Char) (h : c.isDigit = true) :
    ¬ c = ']' ∧ ¬ c = '}' ∧ ¬ c = ',' := by
  refine ⟨?_, ?_, ?_⟩ <;> intro h' <;> rw [h'] at h <;>
    exact absurd h (by decide)

theorem dumpsVal_head : ∀ v : JVal, ∃ c t, dumpsVal v = c :: t
    ∧ isJsonWs c = false ∧ ¬ c = ']' ∧ ¬ c = '}' := by
  intro v
  cases v with
  | null => refine ⟨'n', _, rfl, ?_, ?_, ?_⟩ <;> decide
  | bool b =>
      cases b with
      | true => refine ⟨'t', _, rfl, ?_, ?_, ?_⟩ <;> decide
      | false => refine ⟨'f', _, rfl, ?_, ?_, ?_⟩ <;> decide
  | num n =>
      by_cases hn : n < 0
      · refine ⟨'-', natDigits n.natAbs, ?_, by decide, by decide, by decide⟩
        simp [dumpsVal, intChars, hn]
      · obtain ⟨d, ds, hds, hdig⟩ := natDigits_head n.toNat
        refine ⟨d, ds, ?_, digit_not_ws d hdig,
          (digit_ne_close d hdig).1, (digit_ne_close d hdig).2.1⟩
        simp [dumpsVal, intChars, hn, hds]
  | str h => refine ⟨'"', _, rfl, ?_, ?_, ?_⟩ <;> decide
  | arr xs => refine ⟨'[', _, rfl, ?_, ?_, ?_⟩ <;> decide
  | obj kvs => refine ⟨'{', _, rfl, ?_, ?_, ?_⟩ <;> decide

theorem dumpsVal_length_pos (v : JVal) : 1 ≤ (dumpsVal v).length := by
  obtain ⟨c, t, hct, _⟩ := dumpsVal_head v
  rw [hct]
  simp

theorem parseVal_digit_head (fuel : Nat) (d : Char) (t : List Char)
    (hd : d.isDigit = true) :
    parseVal (fuel + 1) (d :: t)
      = (parseNatLit (d :: t)).map
          (fun p => (JVal.num (p.1 : Int), p.2)) := by
  have hws : skipWs (d :: t) = d :: t :=
    skipWs_cons_of_not _ _ (digit_not_ws d hd)
  rw [parseVal.eq_def]
  simp only []
  rw [hws]
  split
  · rename_i heq
    rw [List.cons.injEq] at heq
    rw [heq.1] at hd
    exact absurd hd (by decide)
  · rename_i heq
    rw [List.cons.injEq] at heq
    rw [heq.1] at hd
    exact absurd hd (by decide)
  · rename_i heq
    rw [List.cons.injEq] at heq
    rw [heq.1] at hd
    exact absurd hd (by decide)
  · rename_i heq
    rw [List.cons.injEq] at heq
    rw [heq.1] at hd
    exact absurd hd (by decide)
  · rename_i heq
    rw [List.cons.injEq] at heq
    rw [heq.1] at hd
    exact absurd hd (by decide)
  · rename_i heq
    rw [List.cons.injEq] at heq
    rw [heq.1] at hd
    exact absurd hd (by decide)
  · rename_i heq
    rw [List.cons.injEq] at heq
    rw [heq.1] at hd
    exact absurd hd (by decide)
  · rename_i heq
    rw [List.cons.injEq] at heq
    obtain ⟨h1, h2⟩ := heq
    subst h1
    subst h2
    rw [if_pos hd]
  · rename_i heq
    exact absurd heq (by simp)

theorem canonical_str (h : Html) (hc : isCanonical (.str h) = true) :
    ∃ s, h = [HTok.text s] := by
  cases h with
  | nil => simp [isCanonical] at hc
  | cons tok rest2 =>
      cases tok with
      | text s =>
          cases rest2 with
          | nil => exact ⟨s, rfl⟩
          | cons _ _ => simp [isCanonical] at hc
      | scriptSrc a b => simp [isCanonical] at hc
      | linkHref a b => simp [isCanonical] at hc
      | cssImport a => simp [isCanonical] at hc

theorem renderHtml_single (s : String) : renderHtml [HTok.text s] = s := by
  cases s
  rfl

theorem string_mk_toList (s : String) : String.mk s.toList = s := rfl

theorem jstr_of_single (s : String) :
    jstr (String.mk (renderHtml [HTok.text s]).toList) = JVal.str [HTok.text s] := by
  rw [renderHtml_single, string_mk_toList]
  rfl

theorem parseVal_arr_head (f : Nat) (t : List Char) :
    parseVal (f + 1) ('[' :: t)
      = (match skipWs t with
         | ']' :: r => some (JVal.arr [], r)
         | cs => (parseItems f cs).map (fun p => (JVal.arr p.1, p.2))) := by
  rw [parseVal.eq_def]
  rfl

theorem parseVal_obj_head (f : Nat) (t : List Char) :
    parseVal (f + 1) ('{' :: t)
      = (match skipWs t with
         | '}' :: r => some (JVal.obj [], r)
         | cs => (parseMembers f cs).map (fun p => (JVal.obj p.1, p.2))) := by
  rw [parseVal.eq_def]
  rfl

mutual

theorem parseVal_dumps : ∀ (v : JVal), isCanonical v = true →
    ∀ (fuel : Nat), (dumpsVal v).length ≤ fuel →
    ∀ rest : List Char, (∀ c, rest.head? = some c → c.isDigit = false) →
    parseVal fuel (dumpsVal v ++ rest) = some (v, rest)
  | .null, hc, fuel, hf, rest, hr => by
      cases fuel with
      | zero => simp [dumpsVal] at hf
      | succ f =>
          rw [show dumpsVal .null ++ rest
              = 'n' :: 'u' :: 'l' :: 'l' :: rest from rfl]
          rw [parseVal.eq_def]
          simp [skipWs, isJsonWs]
  | .bool true, hc, fuel, hf, rest, hr => by
      cases fuel with
      | zero => simp [dumpsVal] at hf
      | succ f =>
          rw [show dumpsVal (.bool true) ++ rest
              = 't' :: 'r' :: 'u' :: 'e' :: rest from rfl]
          rw [parseVal.eq_def]
          simp [skipWs, isJsonWs]
  | .bool false, hc, fuel, hf, rest, hr => by
      cases fuel with
      | zero => simp [dumpsVal] at hf
      | succ f =>
          rw [show dumpsVal (.bool false) ++ rest
              = 'f' :: 'a' :: 'l' :: 's' :: 'e' :: rest from rfl]
          rw [parseVal.eq_def]
          simp [skipWs, isJsonWs]
  | .num n, hc, fuel, hf, rest, hr => by
      cases fuel with
      | zero =>
          have := dumpsVal_length_pos (.num n)
          omega
      | succ f =>
          by_cases hn : n < 0
          · rw [show dumpsVal (.num n) ++ rest
                = '-' :: (natDigits n.natAbs ++ rest) from by
              simp [dumpsVal, intChars, hn]]
            rw [parseVal.eq_def]
            simp only []
            rw [skipWs_cons_of_not _ _ (by decide)]
            simp only [parseNatLit_natDigits n.natAbs rest hr]
            show some (JVal.num (-((n.natAbs : Nat) : Int)), rest)
              = some (JVal.num n, rest)
            have hv : -((n.natAbs : Nat) : Int) = n := by omega
            rw [hv]
          · obtain ⟨d, ds, hds, hdig⟩ := natDigits_head n.toNat
            have hshape : dumpsVal (.num n) ++ rest
                = d :: (ds ++ rest) := by
              simp [dumpsVal, intChars, hn, hds]
            rw [hshape, parseVal_digit_head f d (ds ++ rest) hdig]
            rw [show (d :: (ds ++ rest) : List Char)
                = natDigits n.toNat ++ rest from by rw [hds]; rfl]
            rw [parseNatLit_natDigits n.toNat rest hr]
            have hv : ((n.toNat : Nat) : Int) = n := by omega
            simp [hv]
  | .str h, hc, fuel, hf, rest, hr => by
      cases fuel with
      | zero =>
          have := dumpsVal_length_pos (.str h)
          omega
      | succ f =>
          obtain ⟨s, hs⟩ := canonical_str h hc
          subst hs
          rw [show dumpsVal (.str [HTok.text s]) ++ rest
              = '"' :: (escapeChars (renderHtml [HTok.text s]).toList
                  ++ '"' :: rest) from by
            simp [dumpsVal]]
          rw [parseVal.eq_def]
          simp only []
          rw [skipWs_cons_of_not _ _ (by decide)]
          simp only [parseStringBody_escape]
          show some (jstr (String.mk (renderHtml [HTok.text s]).toList), rest)
            = some (JVal.str [HTok.text s], rest)
          rw [jstr_of_single]
  | .arr xs, hc, fuel, hf, rest, hr => by
      cases fuel with
      | zero =>
          have := dumpsVal_length_pos (.arr xs)
          omega
      | succ f =>
          cases xs with
          | nil =>
              rw [show dumpsVal (.arr []) ++ rest
                  = '[' :: ']' :: rest from by simp [dumpsVal, dumpsItems]]
              rw [parseVal.eq_def]
              simp [skipWs, isJsonWs]
          | cons x more =>
              have hcl : isCanonicalList (x :: more) = true := by
                simpa [isCanonical] using hc
              rw [show dumpsVal (.arr (x :: more)) ++ rest
                  = '[' :: (dumpsItems (x :: more) ++ ']' :: rest) from by
                simp [dumpsVal]]
              rw [parseVal_arr_head]
              obtain ⟨ch, ct, hct, hws, hne1, hne2⟩ := dumpsVal_head x
              obtain ⟨tail, hhead⟩ : ∃ tail,
                  dumpsItems (x :: more) ++ ']' :: rest = ch :: tail := by
                cases more with
                | nil => exact ⟨ct ++ ']' :: rest, by simp [dumpsItems, hct]⟩
                | cons y ys =>
                    exact ⟨ct ++ ',' :: dumpsItems (y :: ys) ++ ']' :: rest,
                      by simp [dumpsItems, hct]⟩
              rw [hhead]
              rw [skipWs_cons_of_not _ _ hws]
              split
              · rename_i heq
                rw [List.cons.injEq] at heq
                exact absurd heq.1 hne1
              · rename_i heq
                rw [← hhead]
                have hargs : (dumpsItems (x :: more)).length + 1 ≤ f := by
                  have hlen : (dumpsVal (.arr (x :: more))).length
                      = (dumpsItems (x :: more)).length + 2 := by
                    simp [dumpsVal]
                  omega
                rw [parseItems_dumps (x :: more) hcl (by simp) f hargs rest]
                rfl
  | .obj kvs, hc, fuel, hf, rest, hr => by
      cases fuel with
      | zero =>
          have := dumpsVal_length_pos (.obj kvs)
          omega
      | succ f =>
          cases kvs with
          | nil =>
              rw [show dumpsVal (.obj []) ++ rest
                  = '{' :: '}' :: rest from by simp [dumpsVal, dumpsKvs]]
              rw [parseVal.eq_def]
              simp [skipWs, isJsonWs]
          | cons kv more =>
              have hck : isCanonicalKvs (kv :: more) = true := by
                simpa [isCanonical] using hc
              rw [show dumpsVal (.obj (kv :: more)) ++ rest
                  = '{' :: (dumpsKvs (kv :: more) ++ '}' :: rest) from by
                simp [dumpsVal]]
              rw [parseVal_obj_head]
              obtain ⟨tail, hhead⟩ : ∃ tail,
                  dumpsKvs (kv :: more) ++ '}' :: rest = '"' :: tail := by
                rcases kv with ⟨k, v⟩
                cases more with
                | nil =>
                    exact ⟨escapeChars k.toList ++ '"' :: ':' :: dumpsVal v
                        ++ '}' :: rest, by simp [dumpsKvs]⟩
                | cons m ms =>
                    exact ⟨(escapeChars k.toList ++ '"' :: ':' :: dumpsVal v)
                        ++ ',' :: dumpsKvs (m :: ms) ++ '}' :: rest,
                      by simp [dumpsKvs]⟩
              rw [hhead]
              rw [skipWs_cons_of_not _ _ (by decide)]
              split
              · rename_i heq
                rw [List.cons.injEq] at heq
                exact absurd heq.1.symm (by decide)
              · rename_i heq
                rw [← hhead]
                have hargs : (dumpsKvs (kv :: more)).length + 1 ≤ f := by
                  have hlen : (dumpsVal (.obj (kv :: more))).length
                      = (dumpsKvs (kv :: more)).length + 2 := by
                    simp [dumpsVal]
                  omega
                rw [parseMembers_dumps (kv :: more) hck (by simp) f hargs rest]
                rfl

theorem parseItems_dumps : ∀ (xs : List JVal), isCanonicalList xs = true →
    ¬ xs = [] →
    ∀ (fuel : Nat), (dumpsItems xs).length + 1 ≤ fuel →
    ∀ rest : List Char,
    parseItems fuel (dumpsItems xs ++ ']' :: rest) = some (xs, rest)
  | [], _, hne, _, _, _ => absurd rfl hne
  | [x], hc, _, fuel, hf, rest => by
      cases fuel with
      | zero => omega
      | succ f =>
          have hcx : isCanonical x = true := by
            simpa [isCanonicalList] using hc
          rw [parseItems.eq_def]
          simp only [dumpsItems]
          rw [parseVal_dumps x hcx f (by
              have := dumpsVal_length_pos x
              simp only [dumpsItems] at hf
              omega) (']' :: rest) (by
            intro c hcc
            rw [List.head?_cons] at hcc
            injection hcc with hcc
            rw [← hcc]
            decide)]
          simp [skipWs, isJsonWs]
  | x :: y :: ys, hc, _, fuel, hf, rest => by
      cases fuel with
      | zero => omega
      | succ f =>
          have hcx : isCanonical x = true := by
            simp [isCanonicalList] at hc
            exact hc.1
          have hcrest : isCanonicalList (y :: ys) = true := by
            simp [isCanonicalList] at hc
            simp [isCanonicalList, hc.2.1, hc.2.2]
      
          rw [parseItems.eq_def]
          simp only [dumpsItems]
          rw [show (dumpsVal x ++ ',' :: dumpsItems (y :: ys)) ++ ']' :: rest
              = dumpsVal x ++ (',' :: (dumpsItems (y :: ys) ++ ']' :: rest))
            from by simp]
          rw [parseVal_dumps x hcx f (by
              have h1 := dumpsVal_length_pos x
              simp only [dumpsItems, List.length_append, List.length_cons] at hf
              omega) _ (by
            intro c hcc
            rw [List.head?_cons] at hcc
            injection hcc with hcc
            rw [← hcc]
            decide)]
          simp only []
          rw [skipWs_cons_of_not _ _ (by decide)]
          show Option.map (fun p => (x :: p.1, p.2))
              (parseItems f (dumpsItems (y :: ys) ++ ']' :: rest))
            = some (x :: y :: ys, rest)
          rw [parseItems_dumps (y :: ys) hcrest (by simp) f (by
            have h1 := dumpsVal_length_pos x
            simp only [dumpsItems, List.length_append, List.length_cons] at hf ⊢
            omega) rest]
          rfl

theorem parseMembers_dumps : ∀ (kvs : List (String × JVal)),
    isCanonicalKvs kvs = true → ¬ kvs = [] →
    ∀ (fuel : Nat), (dumpsKvs kvs).length + 1 ≤ fuel →
    ∀ rest : List Char,
    parseMembers fuel (dumpsKvs kvs ++ '}' :: rest) = some (kvs, rest)
  | [], _, hne, _, _, _ => absurd rfl hne
  | [(k, v)], hc, _, fuel, hf, rest => by
      cases fuel with
      | zero => omega
      | succ f =>
          have hcv : isCanonical v = true := by
            simpa [isCanonicalKvs] using hc
          have hpv := parseVal_dumps v hcv f (by
              have h1 := dumpsVal_length_pos v
              simp only [dumpsKvs, List.length_cons, List.length_append] at hf
              omega) ('}' :: rest) (by
            intro c hcc
            rw [List.head?_cons] at hcc
            injection hcc with hcc
            rw [← hcc]
            decide)
          rw [parseMembers.eq_def]
          simp only [dumpsKvs]
          rw [show ('"' :: (escapeChars k.toList ++ '"' :: ':' :: dumpsVal v))
                ++ '}' :: rest
              = '"' :: (escapeChars k.toList
                  ++ '"' :: (':' :: (dumpsVal v ++ '}' :: rest))) from by simp]
          simp +decide [skipWs_cons_of_not, parseStringBody_escape, hpv,
            string_mk_toList, skipWs, isJsonWs]
  | (k, v) :: m :: ms, hc, _, fuel, hf, rest => by
      cases fuel with
      | zero => omega
      | succ f =>
          have hcv : isCanonical v = true := by
            simp [isCanonicalKvs] at hc
            exact hc.1
          have hcrest : isCanonicalKvs (m :: ms) = true := by
            rcases m with ⟨k2, v2⟩
            simp [isCanonicalKvs] at hc
            simp [isCanonicalKvs, hc.2.1, hc.2.2]
          have hpv := parseVal_dumps v hcv f (by
              have h1 := dumpsVal_length_pos v
              simp only [dumpsKvs, List.length_cons, List.length_append] at hf
              omega) (',' :: (dumpsKvs (m :: ms) ++ '}' :: rest)) (by
            intro c hcc
            rw [List.head?_cons] at hcc
            injection hcc with hcc
            rw [← hcc]
            decide)
          have hpm := parseMembers_dumps (m :: ms) hcrest (by simp) f (by
            have h1 := dumpsVal_length_pos v
            simp only [dumpsKvs, List.length_cons, List.length_append] at hf ⊢
            omega) rest
          rw [parseMembers.eq_def]
          simp only [dumpsKvs]
          rw [show (('"' :: (escapeChars k.toList ++ '"' :: ':' :: dumpsVal v))
                ++ ',' :: dumpsKvs (m :: ms)) ++ '}' :: rest
              = '"' :: (escapeChars k.toList
                  ++ '"' :: (':' :: (dumpsVal v
                      ++ ',' :: (dumpsKvs (m :: ms) ++ '}' :: rest))))
            from by simp]
          simp +decide [skipWs_cons_of_not, parseStringBody_escape, hpv, hpm,
            string_mk_toList, skipWs, isJsonWs]

end

theorem loads_dumps (v : JVal) (hc : isCanonical v = true) :
    loads (dumpsVal v) = some v := by
  unfold loads
  have h := parseVal_dumps v hc ((dumpsVal v).length + 1) (by omega) []
      (by intro c hcc; simp at hcc)
  rw [show dumpsVal v ++ ([] : List Char) = dumpsVal v from by simp] at h
  rw [h]
  simp [skipWs]

theorem isCanonical_of_mem : ∀ (xs : List JVal),
    isCanonicalList xs = true → ∀ x ∈ xs, isCanonical x = true := by
  intro xs
  induction xs with
  | nil => intro _ x hx; simp at hx
  | cons y ys ih =>
      intro hc x hx
      simp [isCanonicalList] at hc
      rcases List.mem_cons.mp hx with h1 | h2
      · rw [h1]; exact hc.1
      · exact ih hc.2 x h2

theorem filterMap_loads_dumps : ∀ (l : List JVal),
    (∀ x ∈ l, isCanonical x = true) →
    (l.map dumpsVal).filterMap loads = l := by
  intro l
  induction l with
  | nil => intro _; rfl
  | cons x xs ih =>
      intro h
      simp only [List.map_cons, List.filterMap_cons,
        loads_dumps x (h x (by simp))]
      rw [ih (fun y hy => h y (by simp [hy]))]

theorem dropWhile_append_split {α : Type} (p : α → Bool) :
    ∀ (a b : List α),
    (a ++ b).dropWhile p
      = (if (a.dropWhile p).isEmpty then b.dropWhile p
         else a.dropWhile p ++ b) := by
  intro a
  induction a with
  | nil => intro b; simp
  | cons x xs ih =>
      intro b
      by_cases hx : p x
      · simp [List.dropWhile_cons, hx, ih b]
      · simp [List.dropWhile_cons, hx]

theorem dropWhile_head_not {α : Type} (p : α → Bool) :
    ∀ (l : List α) (c : α) (t : List α),
    l.dropWhile p = c :: t → p c = false := by
  intro l
  induction l with
  | nil => intro c t h; simp at h
  | cons x xs ih =>
      intro c t h
      by_cases hx : p x
      · rw [List.dropWhile_cons, if_pos hx] at h
        exact ih c t h
      · rw [List.dropWhile_cons, if_neg hx] at h
        rw [List.cons.injEq] at h
        rw [← h.1]
        cases hpx : p x
        · rfl
        · exact absurd hpx hx

theorem extract_cons_bracket (w : List Char)
    (hhead : ∀ c, w.head? = some c → Char.isWhitespace c = false) :
    LlmParsing.extractCompleted ('[' :: w)
      = ((LlmParsing.runScan LlmParsing.scanInit w).2).filterMap loads := by
  have hdecomp : w = (w.reverse.dropWhile Char.isWhitespace).reverse
      ++ (w.reverse.takeWhile Char.isWhitespace).reverse := by
    rw [← List.reverse_append, List.takeWhile_append_dropWhile,
      List.reverse_reverse]
  have hws : ∀ c ∈ (w.reverse.takeWhile Char.isWhitespace).reverse,
      ¬ c = '}' := by
    intro c hc
    rw [List.mem_reverse] at hc
    have hmt := List.mem_takeWhile_imp hc
    intro h
    rw [h] at hmt
    exact absurd hmt (by decide)
  have hemit : ((LlmParsing.runScan LlmParsing.scanInit w).2)
      = (LlmParsing.runScan LlmParsing.scanInit
          ((w.reverse.dropWhile Char.isWhitespace).reverse)).2 := by
    conv_lhs => rw [hdecomp]
    rw [runScan_append]
    rw [noClose_no_emit _ hws]
    simp
  have h1 : LlmParsing.pyStripChars ('[' :: w)
      = '[' :: (w.reverse.dropWhile Char.isWhitespace).reverse := by
    unfold LlmParsing.pyStripChars trimChars
    rw [List.dropWhile_cons]
    rw [if_neg (by decide)]
    rw [List.reverse_cons, dropWhile_append_split]
    by_cases hemp : (w.reverse.dropWhile Char.isWhitespace).isEmpty
    · rw [if_pos hemp]
      have : w.reverse.dropWhile Char.isWhitespace = [] := by
        cases hc : w.reverse.dropWhile Char.isWhitespace
        · rfl
        · rw [hc] at hemp; simp at hemp
      rw [this]
      decide
    · rw [if_neg hemp]
      rw [List.reverse_append]
      rfl
  have hidem : (w.reverse.dropWhile Char.isWhitespace).dropWhile
      Char.isWhitespace = w.reverse.dropWhile Char.isWhitespace := by
    cases hu : w.reverse.dropWhile Char.isWhitespace with
    | nil => rfl
    | cons c t =>
        rw [List.dropWhile_cons, if_neg (by
          rw [dropWhile_head_not Char.isWhitespace w.reverse c t hu]
          simp)]
  have h2 : LlmParsing.pyStripChars
      ((w.reverse.dropWhile Char.isWhitespace).reverse)
      = (w.reverse.dropWhile Char.isWhitespace).reverse := by
    have hlead : ((w.reverse.dropWhile Char.isWhitespace).reverse).dropWhile
        Char.isWhitespace
        = (w.reverse.dropWhile Char.isWhitespace).reverse := by
      cases hu : (w.reverse.dropWhile Char.isWhitespace).reverse with
      | nil => rfl
      | cons c t =>
          have hcw : Char.isWhitespace c = false := by
            apply hhead
            conv_lhs => rw [hdecomp, hu]
            rfl
          rw [List.dropWhile_cons, if_neg (by simp [hcw])]
    unfold LlmParsing.pyStripChars trimChars
    rw [hlead, List.reverse_reverse, hidem]
  simp only [LlmParsing.extractCompleted, h1]
  rw [h2, hemit]

theorem not_ws_of_not_jsonWs (c : Char) (h : isJsonWs c = false) :
    Char.isWhitespace c = false := by
  simp [isJsonWs] at h
  obtain ⟨h1, h2, h3, h4⟩ := h
  simp [Char.isWhitespace, h1, h2, h3, h4]

theorem head?_take_succ {α : Type} (l : List α) (k : Nat) :
    (l.take (k + 1)).head? = l.head? := by
  cases l <;> simp

theorem extractCompleted_take (objs : List JVal) (m : Nat)
    (hcan : isCanonicalList objs = true)
    (hobj : ∀ o ∈ objs, ∃ kvs, o = JVal.obj kvs) :
    LlmParsing.extractCompleted ((dumpsVal (.arr objs)).take m)
      = objs.take (completedCount objs m) := by
  cases m with
  | zero =>
      rw [List.take_zero, completedCount_zero]
      rfl
  | succ m' =>
      have hh : ∀ c, ((dumpsItems objs ++ [']']).take m').head? = some c →
          Char.isWhitespace c = false := by
        intro c hc
        cases m' with
        | zero => simp at hc
        | succ k =>
            rw [head?_take_succ] at hc
            cases objs with
            | nil =>
                simp [dumpsItems] at hc
                rw [← hc]
                decide
            | cons o rest =>
                obtain ⟨ch, ct, hct, hws, _, _⟩ := dumpsVal_head o
                have hch : c = ch := by
                  cases rest with
                  | nil =>
                      simp [dumpsItems, hct] at hc
                      exact hc.symm
                  | cons y ys =>
                      simp [dumpsItems, hct] at hc
                      exact hc.symm
                rw [hch]
                exact not_ws_of_not_jsonWs ch hws
      rw [show (dumpsVal (.arr objs)).take (m' + 1)
          = '[' :: ((dumpsItems objs ++ [']']).take m') from by
        simp [dumpsVal, List.take_succ_cons]]
      rw [extract_cons_bracket _ hh]
      rw [scanBody_take objs hobj m']
      exact filterMap_loads_dumps _ (fun x hx =>
        isCanonical_of_mem objs hcan x (List.mem_of_mem_take hx))

theorem completedCount_mono : ∀ (objs : List JVal) (m m' : Nat), m ≤ m' →
    completedCount objs m ≤ completedCount objs m' := by
  intro objs
  induction objs with
  | nil => intro m m' h; simp [completedCount]
  | cons o rest ih =>
      intro m m' h
      simp only [completedCount]
      by_cases h1 : 1 + (dumpsVal o).length ≤ m
      · rw [if_pos h1, if_pos (by omega)]
        have := ih (m - (1 + (dumpsVal o).length))
          (m' - (1 + (dumpsVal o).length)) (by omega)
        omega
      · rw [if_neg h1]
        split <;> omega
  
theorem completedCount_le_length : ∀ (objs : List JVal) (m : Nat),
    completedCount objs m ≤ objs.length := by
  intro objs
  induction objs with
  | nil => intro m; simp [completedCount]
  | cons o rest ih =>
      intro m
      simp only [completedCount, List.length_cons]
      split
      · have := ih (m - (1 + (dumpsVal o).length))
        omega
      · omega

theorem processNew_ok (target : Nat) : ∀ (l : List JVal) (y : Nat),
    (∀ s ∈ l, LlmParsing.normalizeDoc s = Except.ok s) →
    y + l.length < target →
    LlmParsing.processNew target l y = (l, l.length, y + l.length, false) := by
  intro l
  induction l with
  | nil => intro y _ _; simp [LlmParsing.processNew]
  | cons s rest ih =>
      intro y hn hlen
      have hs := hn s (by simp)
      simp only [LlmParsing.processNew, hs]
      rw [if_neg (by
        simp only [List.length_cons] at hlen
        omega)]
      rw [ih (y + 1) (fun x hx => hn x (by simp [hx])) (by
        simp only [List.length_cons] at hlen
        omega)]
      simp only [List.length_cons, Prod.mk.injEq, and_true, true_and,
        eq_self_iff_true]
      omega

theorem burstSteps_spec (target : Nat) (objs : List JVal)
    (hcan : isCanonicalList objs = true)
    (hobj : ∀ o ∈ objs, ∃ kvs, o = JVal.obj kvs)
    (hnorm : ∀ o ∈ objs, LlmParsing.normalizeDoc o = Except.ok o)
    (hlen : objs.length < target) :
    ∀ (cs : List (List Char)) (t : List Char),
    (t ++ cs.flatten) <+: dumpsVal (.arr objs) →
    LlmParsing.burstSteps target cs t (completedCount objs t.length)
        (completedCount objs t.length)
      = specBurstYields objs t cs := by
  intro cs
  induction cs with
  | nil => intro t _; rfl
  | cons c rest ih =>
      intro t hpre
      have hpre1 : (t ++ c) <+: dumpsVal (.arr objs) := by
        obtain ⟨leftover, hleft⟩ := hpre
        exact ⟨rest.flatten ++ leftover, by
          rw [← hleft]
          simp [List.flatten_cons]⟩
      have htake : t ++ c
          = (dumpsVal (.arr objs)).take (t ++ c).length := by
        exact List.prefix_iff_eq_take.mp hpre1
      have hsites : LlmParsing.extractCompleted (t ++ c)
          = objs.take (completedCount objs (t ++ c).length) := by
        conv_lhs => rw [htake]
        rw [extractCompleted_take objs _ hcan hobj]
      have hmono : completedCount objs t.length
          ≤ completedCount objs (t ++ c).length := by
        apply completedCount_mono
        simp
      have hcl : completedCount objs (t ++ c).length ≤ objs.length :=
        completedCount_le_length objs _
      have hlendrop : ((objs.take (completedCount objs (t ++ c).length)).drop
          (completedCount objs t.length)).length
          = completedCount objs (t ++ c).length
            - completedCount objs t.length := by
        simp only [List.length_drop, List.length_take]
        omega
      have hproc := processNew_ok target
        ((objs.take (completedCount objs (t ++ c).length)).drop
          (completedCount objs t.length))
        (completedCount objs t.length)
        (fun s hs => hnorm s
          (List.mem_of_mem_take (List.mem_of_mem_drop hs)))
        (by rw [hlendrop]; omega)
      simp only [LlmParsing.burstSteps, hsites, hproc]
      rw [if_neg (by simp)]
      have harg : completedCount objs t.length
          + ((objs.take (completedCount objs (t ++ c).length)).drop
              (completedCount objs t.length)).length
          = completedCount objs (t ++ c).length := by
        rw [hlendrop]
        omega
      rw [harg]
      have hpre2 : ((t ++ c) ++ rest.flatten) <+: dumpsVal (.arr objs) := by
        obtain ⟨leftover, hleft⟩ := hpre
        exact ⟨leftover, by rw [← hleft]; simp [List.flatten_cons]⟩
      rw [ih (t ++ c) hpre2]
      rfl

/-- C5.  For every JSON array of canonical objects that each normalize to
themselves, delivered truncated at any point and split into chunks
arbitrarily (fewer objects than the stop target): after every chunk the
burst engine yields exactly the array elements whose serialization
completed within that chunk — i.e. each object is yielded as soon as its
closing brace arrives, in array order, none dropped and none duplicated.
In the spec's three-chunk example each closing brace arrives one chunk
after the object's body, so the groups are [], [v1], [v2, v3] — three docs
in order. -/
theorem burst_c5 (target : Nat) (objs : List JVal)
    (chunks : List (List Char))
    (hcan : isCanonicalList objs = true)
    (hobj : ∀ o ∈ objs, ∃ kvs, o = JVal.obj kvs)
    (hnorm : ∀ o ∈ objs, LlmParsing.normalizeDoc o = Except.ok o)
    (hlen : objs.length < target)
    (hpre : chunks.flatten <+: dumpsVal (.arr objs)) :
    LlmParsing.burstYields target chunks = specBurstYields objs [] chunks := by
  unfold LlmParsing.burstYields
  have h := burstSteps_spec target objs hcan hobj hnorm hlen chunks [] (by
    simpa using hpre)
  simpa [completedCount_zero] using h

/-- C5 witness: the three-chunk example of the spec — the engine yields the
v1, v2 and v3 docs one per chunk, in order. -/
theorem burst_c5_witness :
    isCanonicalList c5Objs = true ∧
    (∀ o ∈ c5Objs, LlmParsing.normalizeDoc o = Except.ok o) ∧
    c5Objs.length < 10 ∧
    c5Chunks.flatten <+: dumpsVal (.arr c5Objs) ∧
    LlmParsing.burstYields 10 c5Chunks = specBurstYields c5Objs [] c5Chunks ∧
    specBurstYields c5Objs [] c5Chunks
      = [[], [c5Doc "v1"], [c5Doc "v2", c5Doc "v3"]] :=
  ⟨by decide,
   by intro o ho; fin_cases ho <;> rfl,
   by decide,
   ⟨[], by decide⟩,
   burst_c5 10 c5Objs c5Chunks (by decide)
     (by intro o ho; fin_cases ho <;> exact ⟨_, rfl⟩)
     (by intro o ho; fin_cases ho <;> rfl)
     (by decide) ⟨[], by decide⟩,
   by decide⟩
